import Mathlib

/-!
Verification development for `git-p4-sync.py` (bohdon/git-p4-sync).

The Python source is shallowly embedded below:
* `FileSyncUtil` (the tree-mirroring engine) operates on a model of the
  filesystem (`Node`, a directory tree of named entries), with paths as
  lists of path segments (the result of `Path(...).parts` in a
  forward-slash world).  `os.walk` is modelled by `walkTopDown` /
  `walkBottomUp`; since the copy pass only mutates the destination tree
  while walking the immutable source tree, and the delete pass's loop
  body reads only the immutable source tree, the lazy CPython walk is
  behaviourally equal to walking a snapshot, which is what the model does.
* Python's `re.match(pattern, s)` (match a regex against a prefix of `s`,
  anchored at the start) is modelled by a Brzozowski-derivative regex
  engine `reMatch` over a regex AST `RE`.
* `GitP4Sync` (the changelist-to-commit orchestrator) is embedded with its
  external collaborators (the P4 connection, the `git` subprocess and the
  on-disk trees) represented by explicit world values, and every external
  call recorded in a trace.
-/

set_option maxHeartbeats 1000000

namespace GitP4SyncModel

/-! ## Regular expressions: model of Python `re.match` -/

/-- Regex AST: the sub-language of Python regexes needed to model ignore
patterns (literal characters, any-char `.`, alternation, concatenation,
Kleene star, epsilon and the empty regex). -/
inductive RE where
  | emp : RE
  | eps : RE
  | chr (c : Char) : RE
  | dot : RE
  | alt (a b : RE) : RE
  | cat (a b : RE) : RE
  | star (a : RE) : RE
deriving DecidableEq, Repr

/-- Does the regex accept the empty string? -/
def reNullable : RE → Bool
  | .emp => false
  | .eps => true
  | .chr _ => false
  | .dot => false
  | .alt a b => reNullable a || reNullable b
  | .cat a b => reNullable a && reNullable b
  | .star _ => true

/-- Brzozowski derivative of a regex with respect to a character. -/
def reDeriv : RE → Char → RE
  | .emp, _ => .emp
  | .eps, _ => .emp
  | .chr c, x => if c = x then .eps else .emp
  | .dot, _ => .eps
  | .alt a b, x => .alt (reDeriv a x) (reDeriv b x)
  | .cat a b, x =>
    if reNullable a then .alt (.cat (reDeriv a x) b) (reDeriv b x)
    else .cat (reDeriv a x) b
  | .star a, x => .cat (reDeriv a x) (.star a)

/-- Does the regex accept some prefix of the character list (the prefix may
be empty, and need not be the whole list)?  This is the acceptance notion of
Python's `re.match`, which anchors at the start of the string only. -/
def reMatchL : RE → List Char → Bool
  | r, [] => reNullable r
  | r, c :: cs => reNullable r || reMatchL (reDeriv r c) cs

/-- Model of Python `re.match(pattern, s) is not None`. -/
def reMatch (r : RE) (s : String) : Bool :=
  reMatchL r s.data

/-- A regex matching the literal string `s` (no metacharacters). -/
def reLit (s : String) : RE :=
  s.data.foldr (fun c r => RE.cat (RE.chr c) r) RE.eps

/-! ## `FileSyncUtil.should_ignore`

Source (git-p4-sync.py, lines 75-84):
```
def should_ignore(self, path: str) -> bool:
    parts = Path(path).parts
    for part in parts:
        for pattern in self.ignore:
            if re.match(pattern, part):
                return True
    return False
```
Paths are passed around as their `Path(...).parts` segment lists. -/

/-- `should_ignore`: some segment of the path matches some ignore pattern. -/
def should_ignore (ignore : List RE) (parts : List String) : Bool :=
  parts.any fun part => ignore.any fun pattern => reMatch pattern part

/-! ## Filesystem model -/

/-- A filesystem node: a regular file with byte content, or a directory with
an ordered list of named entries (names are unique in a well-formed tree;
list order models directory scan order as seen by `os.walk`). -/
inductive Node where
  | file (content : String) : Node
  | dir (entries : List (String × Node)) : Node

/-- Look up the entry named `s` in an entry list (first match). -/
def findEntry (es : List (String × Node)) (s : String) : Option Node :=
  match es with
  | [] => none
  | (n, c) :: rest => if n = s then some c else findEntry rest s

/-- Replace the value of the entry named `s`, keeping its position. -/
def setEntry (es : List (String × Node)) (s : String) (v : Node) :
    List (String × Node) :=
  match es with
  | [] => []
  | (n, c) :: rest =>
    if n = s then (n, v) :: rest else (n, c) :: setEntry rest s v

/-- Remove the entry named `s`. -/
def eraseEntry (es : List (String × Node)) (s : String) :
    List (String × Node) :=
  match es with
  | [] => []
  | (n, c) :: rest =>
    if n = s then rest else (n, c) :: eraseEntry rest s

/-- Replace the entry named `s` if present, else append it at the end
(the order a fresh directory entry appears in a subsequent scan). -/
def setOrAppend (es : List (String × Node)) (s : String) (v : Node) :
    List (String × Node) :=
  match findEntry es s with
  | some _ => setEntry es s v
  | none => es ++ [(s, v)]

/-- Navigate from a node along a relative path. -/
def Node.lookup (n : Node) : List String → Option Node
  | [] => some n
  | s :: rest =>
    match n with
    | .file _ => none
    | .dir es =>
      match findEntry es s with
      | some c => c.lookup rest
      | none => none

/-- Look up a path under an optional root (a missing root has no entries). -/
def lookupIn (t : Option Node) (p : List String) : Option Node :=
  match t with
  | some n => n.lookup p
  | none => none

/-- Model of `Path.exists()` relative to a root. -/
def existsAt (t : Option Node) (p : List String) : Bool :=
  (lookupIn t p).isSome

/-- Is there a directory at this path? -/
def isDirAt (t : Option Node) (p : List String) : Bool :=
  match lookupIn t p with
  | some (.dir _) => true
  | _ => false

/-- Is there a file with this exact content at this path? -/
def isFileAt (t : Option Node) (p : List String) : Bool :=
  match lookupIn t p with
  | some (.file _) => true
  | _ => false

/-- Names of the subdirectories of an entry list, in scan order
(`dirs` of an `os.walk` item). -/
def dirNames (es : List (String × Node)) : List String :=
  es.filterMap fun e => match e.2 with | .dir _ => some e.1 | .file _ => none

/-- Names of the plain files of an entry list, in scan order
(`files` of an `os.walk` item). -/
def fileNames (es : List (String × Node)) : List String :=
  es.filterMap fun e => match e.2 with | .file _ => some e.1 | .dir _ => none

/-- One item of an `os.walk` iteration: the root (as a path relative to the
walked top), the subdirectory names and the file names at that root. -/
structure WalkItem where
  rel : List String
  dirs : List String
  files : List String
deriving DecidableEq, Repr

mutual

/-- `os.walk(top)` with `topdown=True`: the root is yielded before the
recursive walks of its subdirectories.  Walking a plain file yields
nothing (as `os.walk` does). -/
def walkTopDown (rel : List String) : Node → List WalkItem
  | .file _ => []
  | .dir es => ⟨rel, dirNames es, fileNames es⟩ :: walkTopDownEntries rel es

/-- The concatenated top-down walks of an entry list's members. -/
def walkTopDownEntries (rel : List String) : List (String × Node) → List WalkItem
  | [] => []
  | (n, c) :: rest => walkTopDown (rel ++ [n]) c ++ walkTopDownEntries rel rest

end

mutual

/-- `os.walk(top)` with `topdown=False`: the recursive walks of the
subdirectories are yielded before the root. -/
def walkBottomUp (rel : List String) : Node → List WalkItem
  | .file _ => []
  | .dir es => walkBottomUpEntries rel es ++ [⟨rel, dirNames es, fileNames es⟩]

/-- The concatenated bottom-up walks of an entry list's members. -/
def walkBottomUpEntries (rel : List String) : List (String × Node) → List WalkItem
  | [] => []
  | (n, c) :: rest => walkBottomUp (rel ++ [n]) c ++ walkBottomUpEntries rel rest

end

/-! ## Filesystem mutation primitives

Each primitive returns `Except Unit Node`: `.error ()` models the `OSError`
the corresponding Python call raises.  Permissions are not modelled: the
source's `chmod(... | stat.S_IWRITE)` calls only clear a read-only bit so
that the following overwrite or delete cannot fail, so they are identities
in a model without permission state. -/

/-- Model of `Path.mkdir(parents=True, exist_ok=True)`: create the
directory and any missing ancestors; succeed if it already exists as a
directory; error if a file stands anywhere on the path. -/
def mkdirp (n : Node) : List String → Except Unit Node
  | [] =>
    match n with
    | .dir _ => .ok n
    | .file _ => .error ()
  | s :: rest =>
    match n with
    | .file _ => .error ()
    | .dir es =>
      match findEntry es s with
      | some c => do
        let c' ← mkdirp c rest
        .ok (.dir (setEntry es s c'))
      | none => do
        let c' ← mkdirp (.dir []) rest
        .ok (.dir (es ++ [(s, c')]))

/-- Write a file at a path whose parent directory must already exist
(`shutil.copyfile` semantics: error on a missing parent, on a parent that is
a plain file, and on a target that is a directory). -/
def writeF (n : Node) (p : List String) (content : String) :
    Except Unit Node :=
  match p with
  | [] => .error ()
  | [s] =>
    match n with
    | .file _ => .error ()
    | .dir es =>
      match findEntry es s with
      | some (.dir _) => .error ()
      | _ => .ok (.dir (setOrAppend es s (.file content)))
  | s :: rest =>
    match n with
    | .file _ => .error ()
    | .dir es =>
      match findEntry es s with
      | some c => do
        let c' ← writeF c rest content
        .ok (.dir (setEntry es s c'))
      | none => .error ()

/-- Model of `shutil.copy2(src_file, dst_file)` on the destination side:
if the destination path is an existing directory the file is copied *into*
it under the source file's name, otherwise to the path itself. -/
def copy2 (n : Node) (p : List String) (fname content : String) :
    Except Unit Node :=
  match n.lookup p with
  | some (.dir _) => writeF n (p ++ [fname]) content
  | _ => writeF n p content

/-- Model of `Path.unlink()`: remove the plain file at the path. -/
def unlinkF (n : Node) : List String → Except Unit Node
  | [] => .error ()
  | [s] =>
    match n with
    | .file _ => .error ()
    | .dir es =>
      match findEntry es s with
      | some (.file _) => .ok (.dir (eraseEntry es s))
      | _ => .error ()
  | s :: rest =>
    match n with
    | .file _ => .error ()
    | .dir es =>
      match findEntry es s with
      | some c => do
        let c' ← unlinkF c rest
        .ok (.dir (setEntry es s c'))
      | none => .error ()

/-- Model of `shutil.rmtree(path)`: remove the directory at the path with
its whole subtree. -/
def rmtreeF (n : Node) : List String → Except Unit Node
  | [] => .error ()
  | [s] =>
    match n with
    | .file _ => .error ()
    | .dir es =>
      match findEntry es s with
      | some (.dir _) => .ok (.dir (eraseEntry es s))
      | _ => .error ()
  | s :: rest =>
    match n with
    | .file _ => .error ()
    | .dir es =>
      match findEntry es s with
      | some c => do
        let c' ← rmtreeF c rest
        .ok (.dir (setEntry es s c'))
      | none => .error ()

/-! ## `FileSyncUtil.run` -/

/-- A mutation of the destination tree, as decided (and, when verbose,
logged) by `FileSyncUtil.run`; paths are relative to the destination root
(the source prints `dst_file.relative_to(self.dst)`).  `copy` also records
the bytes written, which the log line does not print. -/
inductive MutOp where
  | mkroot : MutOp
  | mkdir (p : List String) : MutOp
  | copy (p : List String) (content : String) : MutOp
  | rm (p : List String) : MutOp
  | rmdir (p : List String) : MutOp
deriving DecidableEq, Repr

/-- State threaded through `FileSyncUtil.run`: the destination tree, the
decisions logged so far (`logs`, recorded in dry and real runs alike), the
mutations actually performed (`muts`, empty in a dry run), and whether an
`OSError` has been raised (after which the Python run has terminated, so
every later step is a no-op). -/
structure MirrorState where
  dst : Option Node
  logs : List MutOp
  muts : List MutOp
  failed : Bool

/-- Log a decision and, unless this is a dry run, perform the mutation. -/
def doMut (dry : Bool) (op : MutOp) (f : Option Node → Except Unit (Option Node))
    (st : MirrorState) : MirrorState :=
  if st.failed then st
  else
    let st' := { st with logs := st.logs ++ [op] }
    if dry then st'
    else
      match f st.dst with
      | .ok d => { st' with dst := d, muts := st'.muts ++ [op] }
      | .error _ => { st' with failed := true }

/-- Run a destination-mutating primitive under the optional root.  A missing
root has no children to mutate, so the primitive errors (unreachable in the
modelled flow: the root is created first in a real run, and a dry run
performs no mutation). -/
def onRoot (f : Node → Except Unit Node) : Option Node → Except Unit (Option Node)
  | some n => (f n).map some
  | none => .error ()

/-- Loop body of the copy pass (git-p4-sync.py lines 96-126) at one
`os.walk(self.src)` item.  `src` is the source tree, used for the contents
of copied files; `srcPath` is `Path(self.src).parts`, so the ignore check on
`root` sees the source root's own segments. -/
def copyBody (ign : List RE) (srcPath : List String) (dry : Bool)
    (src : Option Node) (st : MirrorState) (w : WalkItem) : MirrorState :=
  if st.failed then st
  else if should_ignore ign (srcPath ++ w.rel) then st
  else
    let st1 := w.dirs.foldl (fun st d =>
      if should_ignore ign [d] then st
      else if existsAt st.dst (w.rel ++ [d]) then st
      else doMut dry (.mkdir (w.rel ++ [d])) (onRoot (mkdirp · (w.rel ++ [d]))) st) st
    w.files.foldl (fun st f =>
      if should_ignore ign [f] then st
      else
        let c :=
          match lookupIn src (w.rel ++ [f]) with
          | some (.file c) => c
          | _ => ""
        doMut dry (.copy (w.rel ++ [f]) c) (onRoot (copy2 · (w.rel ++ [f]) f c)) st) st1

/-- Loop body of the delete pass (git-p4-sync.py lines 129-157) at one
`os.walk(self.dst, topdown=False)` item.  Note the source faithfully has
*no* `should_ignore` check on individual file names here, while directory
names are checked before `rmtree`. -/
def deleteBody (ign : List RE) (dstPath : List String) (dry : Bool)
    (src : Option Node) (st : MirrorState) (w : WalkItem) : MirrorState :=
  if st.failed then st
  else if should_ignore ign (dstPath ++ w.rel) then st
  else
    let st1 := w.files.foldl (fun st f =>
      if existsAt src (w.rel ++ [f]) then st
      else doMut dry (.rm (w.rel ++ [f])) (onRoot (unlinkF · (w.rel ++ [f]))) st) st
    w.dirs.foldl (fun st d =>
      if should_ignore ign [d] then st
      else if existsAt src (w.rel ++ [d]) then st
      else doMut dry (.rmdir (w.rel ++ [d])) (onRoot (rmtreeF · (w.rel ++ [d]))) st) st1

/-- The copy pass: fold the copy body over the top-down walk of the source
tree (which the pass never mutates, so walking a snapshot is faithful). -/
def copyPass (ign : List RE) (srcPath : List String) (dry : Bool)
    (src : Option Node) (st : MirrorState) : MirrorState :=
  let srcWalk := match src with | some n => walkTopDown [] n | none => []
  srcWalk.foldl (copyBody ign srcPath dry src) st

/-- The delete pass: fold the delete body over the bottom-up walk of the
destination tree as it stands after the copy pass.  The body reads only the
source tree and deletes strictly below already-yielded roots, so the lazy
CPython walk equals the walk of this snapshot. -/
def deletePass (ign : List RE) (dstPath : List String) (dry : Bool)
    (src : Option Node) (st : MirrorState) : MirrorState :=
  let dstWalk :=
    if st.failed then []
    else match st.dst with | some n => walkBottomUp [] n | none => []
  dstWalk.foldl (deleteBody ign dstPath dry src) st

/-- `FileSyncUtil.run` (git-p4-sync.py lines 86-157): ensure the destination
root exists, run the copy pass over the source walk, then the delete pass
over the destination walk. -/
def FileSyncUtil.run (ign : List RE) (srcPath dstPath : List String)
    (dry : Bool) (src dst : Option Node) : MirrorState :=
  let st0 : MirrorState := ⟨dst, [], [], false⟩
  let st1 :=
    match st0.dst with
    | none => doMut dry .mkroot (fun _ => .ok (some (.dir []))) st0
    | some _ => st0
  let st2 := copyPass ign srcPath dry src st1
  deletePass ign dstPath dry src st2

/-! ## `GitP4Sync`: the changelist-to-commit orchestrator

External collaborators are explicit values: `P4World` answers the read
queries of the P4 connection and describes the workspace trees that a
`p4 sync ...@cl` produces; `GitWorld` gives the exit code of an executed
`git` command.  Every external command the Python code would issue is
recorded: `logged` holds the `LOG.debug` command lines (printed in dry and
real runs alike), `performed` holds the commands actually executed. -/

/-- Python `str.strip()`: drop leading and trailing whitespace. -/
def trimStr (s : String) : String :=
  ⟨((s.data.dropWhile Char.isWhitespace).reverse.dropWhile Char.isWhitespace).reverse⟩

/-- Python `str.removesuffix(suf)`: drop a trailing occurrence of `suf`,
if present. -/
def removeSuffix (s suf : String) : String :=
  if suf.data.isSuffixOf s.data then ⟨s.data.take (s.data.length - suf.data.length)⟩ else s

/-- Split a character list on a separator (accumulator holds the current
segment reversed). -/
def splitCharAux (sep : Char) : List Char → List Char → List String
  | [], acc => [⟨acc.reverse⟩]
  | c :: cs, acc =>
    if c = sep then ⟨acc.reverse⟩ :: splitCharAux sep cs []
    else splitCharAux sep cs (c :: acc)

/-- Split a path string into segments, after `normpath` (backslashes turned
into forward slashes).  Approximates `Path(...).parts` for drive-less
relative/joined paths. -/
def pathPartsOf (s : String) : List String :=
  splitCharAux '/' (s.data.map fun c => if c = '\\' then '/' else c) []

/-- Python `str` comparison: lexicographic on code points. -/
def strLtB : List Char → List Char → Bool
  | [], [] => false
  | [], _ :: _ => true
  | _ :: _, [] => false
  | a :: as, b :: bs =>
    if a.toNat < b.toNat then true
    else if b.toNat < a.toNat then false
    else strLtB as bs

/-- The parsed TOML configuration plus the destination root, which
`GitP4Sync.__init__` derives as `Path(os.path.dirname(config_path)).resolve()`. -/
structure Config where
  srcRoot : List String
  paths : List (String × String)
  ignore : List RE
  dstRoot : List String

/-- The P4 server and workspace as seen through the operations the tool
uses: `p4 where` results (their `path` fields), `p4 changes` results (their
`change` fields, in server order), `p4 describe` fields, and the local
workspace trees that syncing to a given change id would put on disk
(as root-path/tree overrides). -/
structure P4World where
  whereFn : String → List String
  changesFn : List String → List String
  describeDesc : String → String
  describeTime : String → Int
  syncedAt : String → List (List String × Option Node)

/-- The `git` binary: exit code of an executed command, as a function of
its argument list. -/
structure GitWorld where
  rc : List String → Nat

/-- One external event: a `p4` command line, a `git` command line (with the
`GIT_AUTHOR_DATE` / `GIT_COMMITTER_DATE` values placed in its environment,
if any, and the working directory passed to `subprocess.run` — the source
never passes one, leaving the invoking process's current directory), or one
tree-mirror decision. -/
inductive Ev where
  | p4Cmd (args : List String) : Ev
  | gitCmd (envAuthor envCommitter : Option Int) (args : List String)
      (cwd : Option (List String)) : Ev
  | mirror (op : MutOp) : Ev
deriving DecidableEq, Repr

/-- The local filesystem: the tree found under each absolute root path. -/
def Disk := List (List String × Option Node)

/-- Tree under a root (roots not listed are treated as missing). -/
def diskGet (d : Disk) (root : List String) : Option Node :=
  match d with
  | [] => none
  | e :: rest => if e.1 = root then e.2 else diskGet rest root

/-- Replace the tree under a root. -/
def diskSet (d : Disk) (root : List String) (t : Option Node) : Disk :=
  match d with
  | [] => [(root, t)]
  | e :: rest =>
    if e.1 = root then (root, t) :: rest else e :: diskSet rest root t

/-- Orchestrator state: the disk, the logged command lines, the performed
external calls, the `LOG.error` lines, and whether a Python exception has
propagated (after which the remaining statements never execute). -/
structure SyncSt where
  disk : Disk
  logged : List Ev
  performed : List Ev
  errors : List String
  raised : Bool

/-- `GitP4Sync._p4_run(dry_run, *args)`: log the command, run it unless
`dry_run`. -/
def p4_run_gen (dry : Bool) (args : List String) (st : SyncSt) : SyncSt :=
  if st.raised then st
  else
    let st := { st with logged := st.logged ++ [.p4Cmd args] }
    if dry then st
    else { st with performed := st.performed ++ [.p4Cmd args] }

/-- `GitP4Sync.git_run_env(env, *args)`: log the command and, unless this is
a dry run, execute `subprocess.run(["git"] + args, env=env,
capture_output=True)` — with no `cwd` argument — returning the exit code
(`None` in a dry run, as the Python method returns `None`). -/
def git_run_env (g : GitWorld) (dry : Bool) (envAuthor envCommitter : Option Int)
    (args : List String) (st : SyncSt) : SyncSt × Option Nat :=
  if st.raised then (st, none)
  else
    let st := { st with logged := st.logged ++ [.gitCmd envAuthor envCommitter args none] }
    if dry then (st, none)
    else
      ({ st with performed := st.performed ++ [.gitCmd envAuthor envCommitter args none] },
        some (g.rc args))

/-- `GitP4Sync.resolve_paths(paths)` (lines 210-220): for each configured
pair query `p4 where`; keep the pair when the query returns exactly one
result (stripping the trailing view wildcard), otherwise log an error and
drop it.  Returns the resolved map (in configuration order) and the error
lines. -/
def resolve_paths (w : P4World) (dstRoot : List String)
    (paths : List (String × String)) :
    List (List String × List String) × List String :=
  paths.foldl
    (fun acc pr =>
      let dstPath := dstRoot ++ pathPartsOf pr.2
      let srcInfo := w.whereFn pr.1
      if srcInfo.length = 1 then
        (acc.1 ++ [(pathPartsOf (removeSuffix (srcInfo.headD "") "\\..."), dstPath)], acc.2)
      else
        (acc.1, acc.2 ++ ["No local path for: " ++ pr.1]))
    ([], [])

/-- The source root a mirror pair uses (swapped in reverse mode). -/
def mSrc (rev : Bool) (pr : List String × List String) : List String :=
  if rev then pr.2 else pr.1

/-- The destination root a mirror pair uses (swapped in reverse mode). -/
def mDst (rev : Bool) (pr : List String × List String) : List String :=
  if rev then pr.1 else pr.2

/-- The `FileSyncUtil` run one resolved pair performs against the current
disk. -/
def mirRun (ign : List RE) (dry rev : Bool) (st : SyncSt)
    (pr : List String × List String) : MirrorState :=
  FileSyncUtil.run ign (mSrc rev pr) (mDst rev pr) dry
    (diskGet st.disk (mSrc rev pr)) (diskGet st.disk (mDst rev pr))

/-- `GitP4Sync.mirror_all_paths()` (lines 222-233): run `FileSyncUtil` for
every pair of the *resolved* path map, forwarding `dry_run` and the ignore
patterns; an `OSError` from a sync propagates (`raised`). -/
def mirror_all_paths (ign : List RE) (dry : Bool)
    (resolved : List (List String × List String)) (rev : Bool)
    (st : SyncSt) : SyncSt :=
  resolved.foldl
    (fun st pr =>
      if st.raised then st
      else
        { st with
          disk := diskSet st.disk (mDst rev pr) (mirRun ign dry rev st pr).dst
          logged := st.logged ++ (mirRun ign dry rev st pr).logs.map Ev.mirror
          performed := st.performed ++ (mirRun ign dry rev st pr).muts.map Ev.mirror
          raised := (mirRun ign dry rev st pr).failed })
    st

/-- Apply the workspace-tree overrides a real `p4 sync` produces. -/
def applySync (d : Disk) (ov : List (List String × Option Node)) : Disk :=
  ov.foldl (fun d e => diskSet d e.1 e.2) d

/-- The view expressions `" ".join(f"{path}@{{cl}}" for path in
self.path_map.keys()).format(cl=range).split(" ")` of lines 243-244 and
269-270: one `<depot path>@<range>` per *configured* pair. -/
def viewPathsAt (cfg : Config) (range : String) : List String :=
  cfg.paths.map fun pr => pr.1 ++ "@" ++ range

/-- The commit message of line 287: the (stripped) description, with a
`CL <id>` trailer unless `no_cl`. -/
def git_desc_of (no_cl : Bool) (description cl : String) : String :=
  if no_cl then description else description ++ "\nCL " ++ cl

/-- `GitP4Sync.sync_cl(cl, reset)` (lines 260-298): describe the change,
sync the mapped views to it, mirror every resolved pair, optionally reset,
stage the configured destination-relative paths, and commit with
`GIT_AUTHOR_DATE` and `GIT_COMMITTER_DATE` both set to the change's submit
time and the stripped description (plus a `CL <id>` trailer unless
`no_cl`); a non-zero commit exit code raises `RuntimeError`. -/
def sync_cl (w : P4World) (g : GitWorld) (cfg : Config) (no_cl dry : Bool)
    (resolved : List (List String × List String)) (cl : String)
    (reset : Bool) (st : SyncSt) : SyncSt :=
  let description := trimStr (w.describeDesc cl)
  let date := w.describeTime cl
  let st := p4_run_gen false (["describe", cl]) st
  let view_paths := viewPathsAt cfg cl
  let st := p4_run_gen dry ("sync" :: view_paths) st
  let st :=
    if st.raised ∨ dry then st
    else { st with disk := applySync st.disk (w.syncedAt cl) }
  let st := mirror_all_paths cfg.ignore dry resolved false st
  let st := if reset then (git_run_env g dry none none ["reset", "HEAD"] st).1 else st
  let dst_paths := cfg.paths.map (fun pr => pr.2)
  let st := (git_run_env g dry none none ("add" :: dst_paths) st).1
  let res := git_run_env g dry (some date) (some date)
    ["commit", "-m", git_desc_of no_cl description cl] st
  match res.2 with
  | some rc =>
    if rc ≠ 0 then
      { res.1 with
        raised := true
        errors := res.1.errors ++ ["Failed to commit changes from CL " ++ cl ++ ", no changes?"] }
    else res.1
  | none => res.1

/-- Insert into an ascending sorted list of distinct strings, skipping a
duplicate. -/
def insertStr (x : String) : List String → List String
  | [] => [x]
  | y :: ys =>
    if x = y then y :: ys
    else if strLtB x.data y.data then x :: y :: ys
    else y :: insertStr x ys

/-- Model of Python `sorted(set(xs))` for strings: the ascending sorted
list (by the code-point string order Python uses) of the distinct members. -/
def sortedSet (xs : List String) : List String :=
  xs.foldr insertStr []

/-- The deduplicated, sorted changelist list `sync_range` iterates
(line 252: `cl_list = sorted(set([c["change"] for c in changes]))`). -/
def clListOf (changes : List String) : List String :=
  sortedSet changes

/-- One iteration of the `for cl in cl_list` loop of line 257. -/
def syncStep (w : P4World) (g : GitWorld) (cfg : Config) (no_cl dry : Bool)
    (resolved : List (List String × List String)) (st : SyncSt)
    (cl : String) : SyncSt :=
  sync_cl w g cfg no_cl dry resolved cl false st

/-- `GitP4Sync.sync_range(first_cl, last_cl)` (lines 235-258): build the
view expressions from the *configured* path map, query `p4 changes`,
return early when empty, otherwise unstage leftover work and sync each
change of `cl_list` in order. -/
def sync_range (w : P4World) (g : GitWorld) (cfg : Config) (no_cl dry : Bool)
    (resolved : List (List String × List String)) (first last : String)
    (st : SyncSt) : SyncSt :=
  let view_paths := viewPathsAt cfg (first ++ "," ++ last)
  let changes := w.changesFn view_paths
  let st := p4_run_gen false ("changes" :: view_paths) st
  if changes = [] then st
  else
    let cl_list := clListOf changes
    let st := (git_run_env g dry none none ["reset", "HEAD"] st).1
    cl_list.foldl (syncStep w g cfg no_cl dry resolved) st

/-- A fresh orchestrator state over a disk. -/
def initSt (d : Disk) : SyncSt :=
  ⟨d, [], [], [], false⟩

/-! ## Predicates and accessors used by the theorem statements -/

/-- The content of the plain file at a path, if a plain file is there. -/
def lookupFileContent (t : Option Node) (p : List String) : Option String :=
  match lookupIn t p with
  | some (.file c) => some c
  | _ => none

/-- Boolean string membership. -/
def memStr (x : String) : List String → Bool
  | [] => false
  | y :: ys => if y = x then true else memStr x ys

/-- No duplicate strings. -/
def nodupStr : List String → Bool
  | [] => true
  | x :: xs => !memStr x xs && nodupStr xs

mutual

/-- Well-formed tree: every directory's entry names are distinct. -/
def Node.wfb : Node → Bool
  | .file _ => true
  | .dir es => nodupStr (es.map Prod.fst) && wfbEntries es

/-- All entry values are well-formed trees. -/
def wfbEntries : List (String × Node) → Bool
  | [] => true
  | (_, c) :: rest => c.wfb && wfbEntries rest

end

/-- Well-formedness of an optional tree. -/
def wfOpt : Option Node → Bool
  | none => true
  | some n => n.wfb

mutual

/-- Type-compatibility of two trees: no path holds a plain file on the left
and a directory on the right, or vice versa.  (A missing side is compatible
with anything.) -/
def compatN : Node → Node → Bool
  | .file _, .file _ => true
  | .file _, .dir _ => false
  | .dir _, .file _ => false
  | .dir es, .dir fs => compatEntries es fs

/-- Each left entry is compatible with the like-named right entry, if any. -/
def compatEntries : List (String × Node) → List (String × Node) → Bool
  | [], _ => true
  | (n, c) :: rest, fs =>
    (match findEntry fs n with
      | some d => compatN c d
      | none => true) && compatEntries rest fs

end

/-- Type-compatibility of two optional trees. -/
def compatOpt : Option Node → Option Node → Bool
  | some a, some b => compatN a b
  | _, _ => true

/-- The destination-relative path a mutation targets. -/
def MutOp.path : MutOp → List String
  | .mkroot => []
  | .mkdir p => p
  | .copy p _ => p
  | .rm p => p
  | .rmdir p => p

/-- Is the mutation a deletion (`unlink` or `rmtree`)? -/
def MutOp.isDelete : MutOp → Bool
  | .rm _ => true
  | .rmdir _ => true
  | _ => false

/-- Is the mutation a copy? -/
def MutOp.isCopy : MutOp → Bool
  | .copy _ _ => true
  | _ => false

/-- The `cwd` a recorded `git` invocation passed to `subprocess.run`
(`none` both for non-git events and for a git call with no `cwd` argument,
which runs in the invoking process's current working directory). -/
def Ev.gitCwd : Ev → Option (List String)
  | .gitCmd _ _ _ cwd => cwd
  | _ => none

/-- Is the event a `git` invocation? -/
def Ev.isGit : Ev → Bool
  | .gitCmd _ _ _ _ => true
  | _ => false

/-! ## Concrete fixtures (used by counterexamples and witnesses) -/

/-- A small P4 world: one resolvable mapping (`//depot/a/...`), one
unresolvable one (`//depot/b/...`), a single change `"5"` whose sync
removes the workspace file `a`. -/
def exP4 : P4World where
  whereFn := fun d => if d = "//depot/a/..." then ["C:\\ws\\a\\..."] else []
  changesFn := fun _ => ["5"]
  describeDesc := fun _ => " Fix bug\n"
  describeTime := fun _ => 1700000000
  syncedAt := fun cl => if cl = "5" then [(["C:", "ws", "a"], some (.dir []))] else []

/-- A git binary whose commands all succeed. -/
def exGitOk : GitWorld where
  rc := fun _ => 0

/-- A git binary whose `commit` fails (e.g. nothing to commit). -/
def exGitBad : GitWorld where
  rc := fun args => if args.headD "" = "commit" then 1 else 0

/-- The configuration matching `exP4`. -/
def exCfg : Config where
  srcRoot := ["C:", "ws"]
  paths := [("//depot/a/...", "A"), ("//depot/b/...", "B")]
  ignore := []
  dstRoot := ["R"]

/-- The resolved path map of `exCfg` against `exP4`. -/
def exResolved : List (List String × List String) :=
  (resolve_paths exP4 exCfg.dstRoot exCfg.paths).1

/-- A disk where the workspace and the git checkout both hold file `a`. -/
def exDisk : Disk :=
  [(["C:", "ws", "a"], some (.dir [("a", .file "1")])),
   (["R", "A"], some (.dir [("a", .file "1")]))]

/-- The observable content of a path in a tree: `none` when nothing is
there, `some none` for a directory, `some (some c)` for a plain file with
content `c`.  All mirror-correctness statements are phrased in terms of
this view. -/
def viewAt (t : Node) (p : List String) : Option (Option String) :=
  match t.lookup p with
  | some (.file c) => some (some c)
  | some (.dir _) => some none
  | none => none

/-- `viewAt` under an optional root. -/
def viewIn (t : Option Node) (p : List String) : Option (Option String) :=
  match t with
  | some n => viewAt n p
  | none => none

/-- The deduplicated sorted changelist list a range invocation iterates. -/
def rangeCls (w : P4World) (cfg : Config) (first last : String) : List String :=
  clListOf (w.changesFn (viewPathsAt cfg (first ++ "," ++ last)))

/-- The orchestrator state right after `sync_range` has queried the change
list and unstaged leftover work (lines 245-255), from which the per-change
loop runs. -/
def rangeStartSt (w : P4World) (g : GitWorld) (cfg : Config) (dry : Bool)
    (first last : String) (st : SyncSt) : SyncSt :=
  (git_run_env g dry none none ["reset", "HEAD"]
    (p4_run_gen false ("changes" :: viewPathsAt cfg (first ++ "," ++ last)) st)).1

/-- The observation a tree node presents at its own root: file content, or
a directory marker. -/
def nodeView : Node → Option (Option String)
  | .file c => some (some c)
  | .dir _ => some none

/-- Pointwise type-compatibility: nowhere does `src` hold a directory where
`dst0` holds a plain file, or a plain file where `dst0` holds a directory
(the pointwise consequence of `compatOpt`). -/
def pcompat (src dst0 : Option Node) : Prop :=
  ∀ q, (viewIn src q = some none → ∀ c, viewIn dst0 q ≠ some (some c)) ∧
    (∀ c, viewIn src q = some (some c) → viewIn dst0 q ≠ some none)

/-- Provenance invariant of the copy pass: each path of the evolving
destination either still shows what the pass's initial destination `dst0`
showed, or was produced by the pass itself, in which case it is ignore-free
and agrees with the source. -/
def prov (ign : List RE) (src dst0 dst : Option Node) : Prop :=
  ∀ q, viewIn dst q = viewIn dst0 q ∨
    (should_ignore ign q = false ∧ viewIn dst q = some none ∧
      viewIn src q = some none) ∨
    (should_ignore ign q = false ∧ ∃ c, viewIn dst q = some (some c) ∧
      viewIn src q = some (some c))

/-- Ignore containment as the source actually enforces it: copy-pass
mutations (`mkdir`, `copy`) target fully ignore-free paths under the walked
source root; `rm` checks the ignore rules only on the directory part of its
target (the file-name loop of the delete pass has no ignore check), and
`rmdir` checks its whole target path but then removes the entire subtree. -/
def mutOk (ign : List RE) (srcPath dstPath : List String) : MutOp → Bool
  | .mkroot => true
  | .mkdir p => !p.isEmpty && !should_ignore ign (srcPath ++ p)
  | .copy p _ => !p.isEmpty && !should_ignore ign (srcPath ++ p)
  | .rm p => !p.isEmpty && !should_ignore ign (dstPath ++ p.dropLast)
  | .rmdir p => !p.isEmpty && !should_ignore ign (dstPath ++ p)

/-! # Theorems -/

/-! ## General lemmas -/

theorem should_ignore_append (ign : List RE) (a b : List String) :
    should_ignore ign (a ++ b) = (should_ignore ign a || should_ignore ign b) := by
  simp [should_ignore, List.any_append]

theorem should_ignore_iff (ign : List RE) (parts : List String) :
    should_ignore ign parts = true ↔
      ∃ part ∈ parts, ∃ pat ∈ ign, reMatch pat part = true := by
  simp [should_ignore]

theorem foldl_id {α β : Type} (f : β → α → β) (l : List α) (st : β)
    (h : ∀ st x, x ∈ l → f st x = st) : l.foldl f st = st := by
  induction l generalizing st with
  | nil => rfl
  | cons a t ih =>
    simp only [List.foldl_cons, h st a (List.mem_cons_self a t)]
    exact ih st fun st x hx => h st x (List.mem_cons_of_mem a hx)

theorem copyBody_skip {ign : List RE} {srcPath : List String} {dry : Bool}
    {src : Option Node} {st : MirrorState} {w : WalkItem}
    (h : should_ignore ign (srcPath ++ w.rel) = true) :
    copyBody ign srcPath dry src st w = st := by
  unfold copyBody
  simp [h]

theorem deleteBody_skip {ign : List RE} {dstPath : List String} {dry : Bool}
    {src : Option Node} {st : MirrorState} {w : WalkItem}
    (h : should_ignore ign (dstPath ++ w.rel) = true) :
    deleteBody ign dstPath dry src st w = st := by
  unfold deleteBody
  simp [h]

theorem copyPass_root_ignored {ign : List RE} {srcPath : List String}
    {dry : Bool} {src : Option Node} (st : MirrorState)
    (h : should_ignore ign srcPath = true) :
    copyPass ign srcPath dry src st = st := by
  unfold copyPass
  exact foldl_id _ _ _ fun st w _ =>
    copyBody_skip (by simp [should_ignore_append, h])

theorem deletePass_root_ignored {ign : List RE} {dstPath : List String}
    {dry : Bool} {src : Option Node} (st : MirrorState)
    (h : should_ignore ign dstPath = true) :
    deletePass ign dstPath dry src st = st := by
  unfold deletePass
  rcases hf : st.failed with _ | _
  · simp only [hf, Bool.false_eq_true, if_false]
    exact foldl_id _ _ _ fun st w _ =>
      deleteBody_skip (by simp [should_ignore_append, h])
  · simp [hf]

theorem doMut_dry (op : MutOp) (f : Option Node → Except Unit (Option Node))
    (st : MirrorState) :
    doMut true op f st = if st.failed then st else { st with logs := st.logs ++ [op] } := by
  unfold doMut
  split <;> rfl

theorem doMut_dry_inv (op : MutOp) (f : Option Node → Except Unit (Option Node))
    (st : MirrorState) :
    (doMut true op f st).dst = st.dst ∧ (doMut true op f st).muts = st.muts ∧
      (doMut true op f st).failed = st.failed := by
  rw [doMut_dry]
  split <;> exact ⟨rfl, rfl, rfl⟩

theorem foldl_mirror_inv {α : Type} (f : MirrorState → α → MirrorState)
    (h : ∀ st x, (f st x).dst = st.dst ∧ (f st x).muts = st.muts ∧
      (f st x).failed = st.failed) :
    ∀ (l : List α) (st : MirrorState), (l.foldl f st).dst = st.dst ∧
      (l.foldl f st).muts = st.muts ∧ (l.foldl f st).failed = st.failed := by
  intro l
  induction l with
  | nil => exact fun st => ⟨rfl, rfl, rfl⟩
  | cons a t ih =>
    intro st
    obtain ⟨h1, h2, h3⟩ := h st a
    obtain ⟨g1, g2, g3⟩ := ih (f st a)
    exact ⟨by rw [List.foldl_cons, g1, h1], by rw [List.foldl_cons, g2, h2],
      by rw [List.foldl_cons, g3, h3]⟩

theorem foldl_mirror_inv2 {α β : Type} (f : MirrorState → α → MirrorState)
    (g : MirrorState → β → MirrorState)
    (hf : ∀ st x, (f st x).dst = st.dst ∧ (f st x).muts = st.muts ∧
      (f st x).failed = st.failed)
    (hg : ∀ st x, (g st x).dst = st.dst ∧ (g st x).muts = st.muts ∧
      (g st x).failed = st.failed)
    (l1 : List α) (l2 : List β) (st : MirrorState) :
    (l2.foldl g (l1.foldl f st)).dst = st.dst ∧
      (l2.foldl g (l1.foldl f st)).muts = st.muts ∧
      (l2.foldl g (l1.foldl f st)).failed = st.failed := by
  obtain ⟨a1, a2, a3⟩ := foldl_mirror_inv f hf l1 st
  obtain ⟨b1, b2, b3⟩ := foldl_mirror_inv g hg l2 (l1.foldl f st)
  exact ⟨b1.trans a1, b2.trans a2, b3.trans a3⟩

theorem copyBody_dry_inv (ign : List RE) (srcPath : List String)
    (src : Option Node) (st : MirrorState) (w : WalkItem) :
    (copyBody ign srcPath true src st w).dst = st.dst ∧
      (copyBody ign srcPath true src st w).muts = st.muts ∧
      (copyBody ign srcPath true src st w).failed = st.failed := by
  unfold copyBody
  split
  · exact ⟨rfl, rfl, rfl⟩
  split
  · exact ⟨rfl, rfl, rfl⟩
  refine foldl_mirror_inv2 _ _ ?_ ?_ w.dirs w.files st
  · intro st d
    dsimp only
    split
    · exact ⟨rfl, rfl, rfl⟩
    split
    · exact ⟨rfl, rfl, rfl⟩
    exact doMut_dry_inv _ _ _
  · intro st f
    dsimp only
    split
    · exact ⟨rfl, rfl, rfl⟩
    exact doMut_dry_inv _ _ _

theorem deleteBody_dry_inv (ign : List RE) (dstPath : List String)
    (src : Option Node) (st : MirrorState) (w : WalkItem) :
    (deleteBody ign dstPath true src st w).dst = st.dst ∧
      (deleteBody ign dstPath true src st w).muts = st.muts ∧
      (deleteBody ign dstPath true src st w).failed = st.failed := by
  unfold deleteBody
  split
  · exact ⟨rfl, rfl, rfl⟩
  split
  · exact ⟨rfl, rfl, rfl⟩
  refine foldl_mirror_inv2 _ _ ?_ ?_ w.files w.dirs st
  · intro st f
    dsimp only
    split
    · exact ⟨rfl, rfl, rfl⟩
    exact doMut_dry_inv _ _ _
  · intro st d
    dsimp only
    split
    · exact ⟨rfl, rfl, rfl⟩
    split
    · exact ⟨rfl, rfl, rfl⟩
    exact doMut_dry_inv _ _ _

/-- Dry-run purity of the tree mirror: a dry `FileSyncUtil.run` leaves the
destination tree untouched, performs no mutation and raises no error. -/
theorem run_dry_inv (ign : List RE) (srcPath dstPath : List String)
    (src dst : Option Node) :
    (FileSyncUtil.run ign srcPath dstPath true src dst).dst = dst ∧
      (FileSyncUtil.run ign srcPath dstPath true src dst).muts = [] ∧
      (FileSyncUtil.run ign srcPath dstPath true src dst).failed = false := by
  unfold FileSyncUtil.run copyPass deletePass
  have h1 : ∀ st : MirrorState,
      (match st.dst with
        | none => doMut true .mkroot (fun _ => .ok (some (.dir []))) st
        | some _ => st).dst = st.dst ∧
      (match st.dst with
        | none => doMut true .mkroot (fun _ => .ok (some (.dir []))) st
        | some _ => st).muts = st.muts ∧
      (match st.dst with
        | none => doMut true .mkroot (fun _ => .ok (some (.dir []))) st
        | some _ => st).failed = st.failed := by
    intro st
    rcases hd : st.dst with _ | n
    · obtain ⟨x1, x2, x3⟩ := doMut_dry_inv .mkroot (fun _ => .ok (some (.dir []))) st
      exact ⟨x1.trans hd, x2, x3⟩
    · exact ⟨hd, rfl, rfl⟩
  obtain ⟨a1, a2, a3⟩ := h1 ⟨dst, [], [], false⟩
  obtain ⟨b1, b2, b3⟩ := foldl_mirror_inv (copyBody ign srcPath true src)
    (fun st w => copyBody_dry_inv ign srcPath src st w)
    (match src with | some n => walkTopDown [] n | none => []) _
  obtain ⟨c1, c2, c3⟩ := foldl_mirror_inv (deleteBody ign dstPath true src)
    (fun st w => deleteBody_dry_inv ign dstPath src st w) _ _
  refine ⟨c1.trans (b1.trans a1), c2.trans (b2.trans a2), c3.trans (b3.trans a3)⟩

theorem diskGet_diskSet (root : List String) (v : Option Node) :
    ∀ (d : Disk) (root' : List String),
      diskGet (diskSet d root v) root' = if root' = root then v else diskGet d root' := by
  intro d
  induction d with
  | nil =>
    intro root'
    by_cases h : root' = root
    · subst h
      simp [diskSet, diskGet]
    · have h2 : ¬ root = root' := fun hh => h hh.symm
      simp [diskSet, diskGet, h, h2]
  | cons e rest ih =>
    intro root'
    by_cases he : e.1 = root
    · by_cases h : root' = root
      · subst h
        simp [diskSet, diskGet, he]
      · have h2 : ¬ root = root' := fun hh => h hh.symm
        have h3 : ¬ e.1 = root' := fun hh => h2 ((he.symm.trans hh))
        simp [diskSet, diskGet, he, h, h2, h3]
    · by_cases h : root' = root
      · subst h
        simp [diskSet, diskGet, he, ih]
      · simp [diskSet, diskGet, he, ih, h]

theorem foldl_syncst_raised_id {α : Type} (f : SyncSt → α → SyncSt)
    (h : ∀ st x, st.raised = true → f st x = st) :
    ∀ (l : List α) (st : SyncSt), st.raised = true → l.foldl f st = st := by
  intro l
  induction l with
  | nil => exact fun st _ => rfl
  | cons a t ih =>
    intro st hr
    rw [List.foldl_cons, h st a hr, ih st hr]

theorem mirror_all_paths_raised {ign : List RE} {dry : Bool}
    {resolved : List (List String × List String)} {rev : Bool} {st : SyncSt}
    (hr : st.raised = true) : mirror_all_paths ign dry resolved rev st = st := by
  unfold mirror_all_paths
  exact foldl_syncst_raised_id _ (fun st pr h => by simp [h]) resolved st hr

theorem p4_run_gen_raised {dry : Bool} {args : List String} {st : SyncSt}
    (hr : st.raised = true) : p4_run_gen dry args st = st := by
  simp [p4_run_gen, hr]

theorem git_run_env_raised {g : GitWorld} {dry : Bool} {a c : Option Int}
    {args : List String} {st : SyncSt} (hr : st.raised = true) :
    git_run_env g dry a c args st = (st, none) := by
  simp [git_run_env, hr]

/-- Both branches of the commit-result check keep the traces and the disk. -/
theorem commitWrap_fields (cl : String) (res : SyncSt × Option Nat) :
    (match res.2 with
      | some rc =>
        if rc ≠ 0 then
          { res.1 with
            raised := true
            errors := res.1.errors ++
              ["Failed to commit changes from CL " ++ cl ++ ", no changes?"] }
        else res.1
      | none => res.1).logged = res.1.logged ∧
    (match res.2 with
      | some rc =>
        if rc ≠ 0 then
          { res.1 with
            raised := true
            errors := res.1.errors ++
              ["Failed to commit changes from CL " ++ cl ++ ", no changes?"] }
        else res.1
      | none => res.1).performed = res.1.performed ∧
    (match res.2 with
      | some rc =>
        if rc ≠ 0 then
          { res.1 with
            raised := true
            errors := res.1.errors ++
              ["Failed to commit changes from CL " ++ cl ++ ", no changes?"] }
        else res.1
      | none => res.1).disk = res.1.disk := by
  rcases res with ⟨st', rc?⟩
  rcases rc? with _ | rc
  · exact ⟨rfl, rfl, rfl⟩
  · simp only []
    split <;> exact ⟨rfl, rfl, rfl⟩

theorem sync_cl_raised_id {w : P4World} {g : GitWorld} {cfg : Config}
    {no_cl dry : Bool} {resolved : List (List String × List String)}
    {cl : String} {reset : Bool} {st : SyncSt} (hr : st.raised = true) :
    sync_cl w g cfg no_cl dry resolved cl reset st = st := by
  unfold sync_cl
  simp only [p4_run_gen_raised hr, hr, true_or, if_true,
    mirror_all_paths_raised hr, git_run_env_raised hr]
  cases reset <;> simp only [if_true, if_false, Bool.false_eq_true] <;>
    simp [git_run_env_raised hr]

/-- Every event in the logged trace after the mirror stage is an old event
or a mirror decision; the performed trace likewise; errors and raised-state
bookkeeping. -/
theorem mirror_all_paths_logged_mem (ign : List RE) (dry : Bool)
    (resolved : List (List String × List String)) (rev : Bool) :
    ∀ (st : SyncSt) (ev : Ev),
      ev ∈ (mirror_all_paths ign dry resolved rev st).logged →
      ev ∈ st.logged ∨ ∃ op, ev = Ev.mirror op := by
  unfold mirror_all_paths
  induction resolved with
  | nil => exact fun st ev h => Or.inl h
  | cons pr rest ih =>
    intro st ev h
    rw [List.foldl_cons] at h
    by_cases hr : st.raised = true
    · rw [if_pos hr] at h
      exact ih st ev h
    · rw [if_neg hr] at h
      rcases ih _ ev h with h1 | h2
      · dsimp only at h1
        rcases List.mem_append.mp h1 with ha | hb
        · exact Or.inl ha
        · obtain ⟨op, _, hop⟩ := List.mem_map.mp hb
          exact Or.inr ⟨op, hop.symm⟩
      · exact Or.inr h2

theorem mirror_all_paths_performed_mem (ign : List RE) (dry : Bool)
    (resolved : List (List String × List String)) (rev : Bool) :
    ∀ (st : SyncSt) (ev : Ev),
      ev ∈ (mirror_all_paths ign dry resolved rev st).performed →
      ev ∈ st.performed ∨ ∃ op, ev = Ev.mirror op := by
  unfold mirror_all_paths
  induction resolved with
  | nil => exact fun st ev h => Or.inl h
  | cons pr rest ih =>
    intro st ev h
    rw [List.foldl_cons] at h
    by_cases hr : st.raised = true
    · rw [if_pos hr] at h
      exact ih st ev h
    · rw [if_neg hr] at h
      rcases ih _ ev h with h1 | h2
      · dsimp only at h1
        rcases List.mem_append.mp h1 with ha | hb
        · exact Or.inl ha
        · obtain ⟨op, _, hop⟩ := List.mem_map.mp hb
          exact Or.inr ⟨op, hop.symm⟩
      · exact Or.inr h2

theorem mirror_all_paths_performed_app (ign : List RE) (dry : Bool)
    (resolved : List (List String × List String)) (rev : Bool) :
    ∀ st : SyncSt, ∃ t,
      (mirror_all_paths ign dry resolved rev st).performed = st.performed ++ t := by
  unfold mirror_all_paths
  induction resolved with
  | nil => exact fun st => ⟨[], by simp⟩
  | cons pr rest ih =>
    intro st
    rw [List.foldl_cons]
    by_cases hr : st.raised = true
    · rw [if_pos hr]
      exact ih st
    · rw [if_neg hr]
      obtain ⟨t, ht⟩ := ih _
      rw [ht]
      dsimp only
      exact ⟨_, by rw [List.append_assoc]⟩

theorem mirror_all_paths_logged_app (ign : List RE) (dry : Bool)
    (resolved : List (List String × List String)) (rev : Bool) :
    ∀ st : SyncSt, ∃ t,
      (mirror_all_paths ign dry resolved rev st).logged = st.logged ++ t := by
  unfold mirror_all_paths
  induction resolved with
  | nil => exact fun st => ⟨[], by simp⟩
  | cons pr rest ih =>
    intro st
    rw [List.foldl_cons]
    by_cases hr : st.raised = true
    · rw [if_pos hr]
      exact ih st
    · rw [if_neg hr]
      obtain ⟨t, ht⟩ := ih _
      rw [ht]
      dsimp only
      exact ⟨_, by rw [List.append_assoc]⟩

theorem p4_run_gen_performed_app (dry : Bool) (args : List String) (st : SyncSt) :
    ∃ t, (p4_run_gen dry args st).performed = st.performed ++ t := by
  unfold p4_run_gen
  split
  · exact ⟨[], by simp⟩
  split
  · exact ⟨[], by simp⟩
  · exact ⟨_, rfl⟩

theorem git_run_env_performed_app (g : GitWorld) (dry : Bool) (a c : Option Int)
    (args : List String) (st : SyncSt) :
    ∃ t, (git_run_env g dry a c args st).1.performed = st.performed ++ t := by
  unfold git_run_env
  split
  · exact ⟨[], by simp⟩
  split
  · exact ⟨[], by simp⟩
  · exact ⟨_, rfl⟩

/-- Every step of `sync_cl` is append-only on the performed trace. -/
theorem sync_cl_performed_mono (w : P4World) (g : GitWorld) (cfg : Config)
    (no_cl dry : Bool) (resolved : List (List String × List String))
    (cl : String) (reset : Bool) (st : SyncSt) :
    ∃ t, (sync_cl w g cfg no_cl dry resolved cl reset st).performed =
      st.performed ++ t := by
  unfold sync_cl
  obtain ⟨t1, h1⟩ := p4_run_gen_performed_app false ["describe", cl] st
  obtain ⟨t2, h2⟩ := p4_run_gen_performed_app dry ("sync" :: viewPathsAt cfg cl) _
  have h3 : ∀ st : SyncSt,
      (if st.raised ∨ dry then st
        else { st with disk := applySync st.disk (w.syncedAt cl) }).performed =
        st.performed := by
    intro st
    split <;> rfl
  obtain ⟨t3, m2⟩ := mirror_all_paths_performed_app cfg.ignore dry resolved false _
  have hreset : ∀ st : SyncSt,
      ∃ t, (if reset then (git_run_env g dry none none ["reset", "HEAD"] st).1
        else st).performed = st.performed ++ t := by
    intro st
    split
    · exact git_run_env_performed_app g dry none none ["reset", "HEAD"] st
    · exact ⟨[], by simp⟩
  obtain ⟨t4, h4⟩ := hreset _
  obtain ⟨t5, h5⟩ := git_run_env_performed_app g dry none none
    ("add" :: cfg.paths.map fun pr => pr.2) _
  obtain ⟨t6, h6⟩ := git_run_env_performed_app g dry (some (w.describeTime cl))
    (some (w.describeTime cl))
    ["commit", "-m", git_desc_of no_cl (trimStr (w.describeDesc cl)) cl] _
  rw [(commitWrap_fields cl _).2.1, h6, h5, h4, m2, h3, h2, h1]
  exact ⟨t1 ++ t2 ++ t3 ++ t4 ++ t5 ++ t6, by simp [List.append_assoc]⟩

theorem p4_run_gen_logged_mem (dry : Bool) (args : List String) (st : SyncSt)
    (ev : Ev) (h : ev ∈ (p4_run_gen dry args st).logged) :
    ev ∈ st.logged ∨ ev = .p4Cmd args := by
  unfold p4_run_gen at h
  split at h
  · exact Or.inl h
  split at h <;> dsimp only at h <;>
    rcases List.mem_append.mp h with ha | hb
  · exact Or.inl ha
  · exact Or.inr (List.mem_singleton.mp hb)
  · exact Or.inl ha
  · exact Or.inr (List.mem_singleton.mp hb)

theorem git_run_env_logged_mem (g : GitWorld) (dry : Bool) (a c : Option Int)
    (args : List String) (st : SyncSt) (ev : Ev)
    (h : ev ∈ (git_run_env g dry a c args st).1.logged) :
    ev ∈ st.logged ∨ ev = .gitCmd a c args none := by
  unfold git_run_env at h
  split at h
  · exact Or.inl h
  split at h <;> dsimp only at h <;>
    rcases List.mem_append.mp h with ha | hb
  · exact Or.inl ha
  · exact Or.inr (List.mem_singleton.mp hb)
  · exact Or.inl ha
  · exact Or.inr (List.mem_singleton.mp hb)

/-- Classification of every event `sync_cl` can log: an event already
present, the `p4 describe`, the `p4 sync` over the configured views, a
mirror decision, the `git reset`, the `git add` of the raw configured
destination-relative paths, or the `git commit` carrying the change's
submit time in both date environment variables. -/
theorem sync_cl_logged_mem (w : P4World) (g : GitWorld) (cfg : Config)
    (no_cl dry : Bool) (resolved : List (List String × List String))
    (cl : String) (reset : Bool) (st : SyncSt) (ev : Ev)
    (hev : ev ∈ (sync_cl w g cfg no_cl dry resolved cl reset st).logged) :
    ev ∈ st.logged ∨ ev = .p4Cmd ["describe", cl] ∨
      ev = .p4Cmd ("sync" :: viewPathsAt cfg cl) ∨ (∃ op, ev = .mirror op) ∨
      ev = .gitCmd none none ["reset", "HEAD"] none ∨
      ev = .gitCmd none none ("add" :: cfg.paths.map fun pr => pr.2) none ∨
      ev = .gitCmd (some (w.describeTime cl)) (some (w.describeTime cl))
        ["commit", "-m", git_desc_of no_cl (trimStr (w.describeDesc cl)) cl] none := by
  have hreset_mem : ∀ (st' : SyncSt),
      ev ∈ (if reset then (git_run_env g dry none none ["reset", "HEAD"] st').1
        else st').logged →
      ev ∈ st'.logged ∨ ev = .gitCmd none none ["reset", "HEAD"] none := by
    intro st' h
    split at h
    · exact git_run_env_logged_mem g dry none none ["reset", "HEAD"] st' ev h
    · exact Or.inl h
  have hdisk_mem : ∀ st' : SyncSt,
      (if st'.raised ∨ dry then st'
        else { st' with disk := applySync st'.disk (w.syncedAt cl) }).logged =
        st'.logged := by
    intro st'
    split <;> rfl
  unfold sync_cl at hev
  rw [(commitWrap_fields cl _).1] at hev
  rcases git_run_env_logged_mem g dry _ _ _ _ ev hev with hev | hc
  swap
  · exact Or.inr (Or.inr (Or.inr (Or.inr (Or.inr (Or.inr hc)))))
  rcases git_run_env_logged_mem g dry _ _ _ _ ev hev with hev | hc
  swap
  · exact Or.inr (Or.inr (Or.inr (Or.inr (Or.inr (Or.inl hc)))))
  rcases hreset_mem _ hev with hev | hc
  swap
  · exact Or.inr (Or.inr (Or.inr (Or.inr (Or.inl hc))))
  rcases mirror_all_paths_logged_mem cfg.ignore dry resolved false _ ev hev with hev | hc
  swap
  · exact Or.inr (Or.inr (Or.inr (Or.inl hc)))
  rw [hdisk_mem _] at hev
  rcases p4_run_gen_logged_mem dry _ _ ev hev with hev | hc
  swap
  · exact Or.inr (Or.inr (Or.inl hc))
  rcases p4_run_gen_logged_mem false _ _ ev hev with hev | hc
  swap
  · exact Or.inr (Or.inl hc)
  exact Or.inl hev

/-! ## Claims -/

/-- C3: the spec claims `sync_range` processes change ids sorted in
ascending *numeric* order (ids "9" and "10" as 9 before 10).  The code
(line 252, `sorted(set([c["change"] for c in changes]))`) sorts the id
*strings* lexicographically, so "10" is processed before "9".  The spec
states the clear intent (replay in changelist order, which is numeric);
the lexical string sort is a slip in the code. -/
theorem C3_discovery_ordering_bug :
    clListOf ["9", "10"] = ["10", "9"] ∧ clListOf ["9", "10"] ≠ ["9", "10"] := by
  constructor
  · rfl
  · decide

/-- C9: ignore-rule matching semantics.  `should_ignore` tests every
individual segment of the walked absolute path against each rule with
Python `re.match` (anchored at the start, matching a prefix): a rule
matching a proper prefix of a segment matches the segment ("foo" matches
"foobar" but not "xfoo"); segments of the walked roots' own paths are
included; a match on any segment persists to all extensions of the path
(so a whole subtree is skipped); and a rule matching a segment of the
source (resp. destination) root's own path makes the copy (resp. delete)
pass process nothing at all. -/
theorem C9_ignore_semantics :
    (reMatch (reLit "foo") "foobar" = true ∧ reMatch (reLit "foo") "xfoo" = false) ∧
    should_ignore [reLit "foo"] ["home", "foobar", "y"] = true ∧
    (∀ (ign : List RE) (parts : List String), should_ignore ign parts = true ↔
      ∃ part ∈ parts, ∃ pat ∈ ign, reMatch pat part = true) ∧
    (∀ (ign : List RE) (p q : List String),
      should_ignore ign p = true → should_ignore ign (p ++ q) = true) ∧
    (∀ (ign : List RE) (srcPath : List String) (dry : Bool) (src : Option Node)
      (st : MirrorState), should_ignore ign srcPath = true →
      copyPass ign srcPath dry src st = st) ∧
    (∀ (ign : List RE) (dstPath : List String) (dry : Bool) (src : Option Node)
      (st : MirrorState), should_ignore ign dstPath = true →
      deletePass ign dstPath dry src st = st) := by
  refine ⟨⟨by decide, by decide⟩, by decide, should_ignore_iff, ?_, ?_, ?_⟩
  · intro ign p q h
    simp [should_ignore_append, h]
  · intro ign srcPath dry src st h
    exact copyPass_root_ignored st h
  · intro ign dstPath dry src st h
    exact deletePass_root_ignored st h

/-- Witness for C9: the hypotheses are satisfiable; at the concrete rule
list `[reLit "S"]` both passes are skipped outright when the respective
root path contains the matching segment. -/
theorem C9_ignore_semantics_witness :
    copyPass [reLit "S"] ["S", "ws"] false (some (.dir [("a", .file "1")]))
      ⟨some (.dir []), [], [], false⟩ = ⟨some (.dir []), [], [], false⟩ ∧
    deletePass [reLit "S"] ["S", "git"] false (some (.dir []))
      ⟨some (.dir [("a", .file "1")]), [], [], false⟩ =
      ⟨some (.dir [("a", .file "1")]), [], [], false⟩ := by
  constructor
  · exact C9_ignore_semantics.2.2.2.2.1 [reLit "S"] ["S", "ws"] false
      (some (.dir [("a", .file "1")])) ⟨some (.dir []), [], [], false⟩ (by decide)
  · exact C9_ignore_semantics.2.2.2.2.2 [reLit "S"] ["S", "git"] false
      (some (.dir [])) ⟨some (.dir [("a", .file "1")]), [], [], false⟩ (by decide)

/-- C1 counterexample: with ignore rule "D", source root path `S`,
destination root path `D` (whose own segment matches the rule), an empty
source and a destination holding the stale file `x`, `FileSyncUtil.run`
with `dry_run=false` completes without error yet leaves `x` in the
destination: the relative path `x` is not ignored, no file exists under
the source, but a file exists under the destination — mirror exactness
fails as universally stated. -/
theorem C1_mirror_exactness_cx :
    (FileSyncUtil.run [reLit "D"] ["S"] ["D"] false (some (.dir []))
      (some (.dir [("x", .file "c")]))).failed = false ∧
    (FileSyncUtil.run [reLit "D"] ["S"] ["D"] false (some (.dir []))
      (some (.dir [("x", .file "c")]))).dst = some (.dir [("x", .file "c")]) ∧
    should_ignore [reLit "D"] ["x"] = false ∧
    lookupFileContent (some (.dir [])) ["x"] = none ∧
    lookupFileContent (FileSyncUtil.run [reLit "D"] ["S"] ["D"] false
      (some (.dir [])) (some (.dir [("x", .file "c")]))).dst ["x"] = some "c" :=
  ⟨rfl, rfl, rfl, rfl, rfl⟩

/-- C2 counterexample: ignored destination content *is* deleted in two
ways.  (α) A destination file whose own name matches an ignore rule
(`G`), absent from the source, is removed by the delete pass (the file
loop at lines 137-145 has no `should_ignore` check).  (β) An ignored
directory inside a stale non-ignored directory is destroyed wholesale by
`shutil.rmtree` of its parent. -/
theorem C2_ignore_containment_cx :
    (FileSyncUtil.run [reLit "G"] ["S"] ["D"] false (some (.dir []))
      (some (.dir [("G", .file "z")]))).muts = [.rm ["G"]] ∧
    (FileSyncUtil.run [reLit "G"] ["S"] ["D"] false (some (.dir []))
      (some (.dir [("G", .file "z")]))).dst = some (.dir []) ∧
    should_ignore [reLit "G"] ["G"] = true ∧
    (FileSyncUtil.run [reLit "G"] ["S"] ["D"] false (some (.dir []))
      (some (.dir [("stale", .dir [("G", .dir [("c", .file "z")])])]))).dst =
      some (.dir []) ∧
    should_ignore [reLit "G"] ["stale", "G", "c"] = true :=
  ⟨rfl, rfl, rfl, rfl, rfl⟩

/-- C8 counterexample: the copy pass copies every non-ignored source file
unconditionally (lines 115-126 compare nothing), so a second consecutive
run still performs a `copy` mutation: "no filesystem mutation on the
second run" is false as stated (the re-copy rewrites identical bytes and
the resulting state is unchanged, per the amended theorem). -/
theorem C8_idempotence_cx :
    (FileSyncUtil.run [] ["S"] ["D"] false (some (.dir [("a", .file "x")]))
      (FileSyncUtil.run [] ["S"] ["D"] false (some (.dir [("a", .file "x")]))
        (some (.dir []))).dst).muts = [.copy ["a"] "x"] ∧
    (FileSyncUtil.run [] ["S"] ["D"] false (some (.dir [("a", .file "x")]))
      (FileSyncUtil.run [] ["S"] ["D"] false (some (.dir [("a", .file "x")]))
        (some (.dir []))).dst).muts ≠ [] := by
  constructor
  · rfl
  · decide

/-- C5 counterexample: `sync_cl` builds the commit message from the
*stripped* description (line 262, `describe["desc"].strip()`).  With
description " Fix bug\n" the produced message is "Fix bug\nCL 5", which
differs from the claimed "change description with `CL <id>` appended as a
trailing line" under either reading of appending (the leading space is
gone). -/
theorem C5_commit_metadata_cx :
    (sync_cl exP4 exGitOk exCfg false false exResolved "5" false
      (initSt exDisk)).performed.getLast? =
      some (.gitCmd (some 1700000000) (some 1700000000)
        ["commit", "-m", "Fix bug\nCL 5"] none) ∧
    ("Fix bug\nCL 5" : String) ≠ " Fix bug\n" ++ "CL 5" ∧
    ("Fix bug\nCL 5" : String) ≠ " Fix bug\n" ++ "\nCL 5" := by
  refine ⟨rfl, by decide, by decide⟩

/-- C6 counterexample: logged decisions do *not* always match a real run.
A dry run skips the workspace sync, so the mirror pass walks the
pre-sync source tree: syncing change "5" (which deletes workspace file
`a`) for real logs the decision `rm a`, while the dry run logs `copy a`
instead. -/
theorem C6_dry_run_purity_cx :
    Ev.mirror (.rm ["a"]) ∈
      (sync_cl exP4 exGitOk exCfg false false exResolved "5" false
        (initSt exDisk)).logged ∧
    Ev.mirror (.rm ["a"]) ∉
      (sync_cl exP4 exGitOk exCfg false true exResolved "5" false
        (initSt exDisk)).logged ∧
    Ev.mirror (.copy ["a"] "1") ∈
      (sync_cl exP4 exGitOk exCfg false true exResolved "5" false
        (initSt exDisk)).logged ∧
    (sync_cl exP4 exGitOk exCfg false true exResolved "5" false
      (initSt exDisk)).logged ≠
    (sync_cl exP4 exGitOk exCfg false false exResolved "5" false
      (initSt exDisk)).logged := by
  refine ⟨by decide, by decide, by decide, by decide⟩

/-- C7 counterexample: a mapping whose `p4 where` query returns no result
is dropped from the *resolved* map (so from mirroring), but `sync_range`
and `sync_cl` build their `p4 changes` / `p4 sync` views from the raw
configured `path_map` (lines 243, 269) and `git add` stages the raw
configured destination-relative paths (line 281): the dropped
`//depot/b/...` / `B` pair still appears in discovery, workspace sync and
staging. -/
theorem C7_resolution_failure_cx :
    exResolved = [(["C:", "ws", "a"], ["R", "A"])] ∧
    (resolve_paths exP4 exCfg.dstRoot exCfg.paths).2 =
      ["No local path for: //depot/b/..."] ∧
    Ev.p4Cmd ["changes", "//depot/a/...@1,9", "//depot/b/...@1,9"] ∈
      (sync_range exP4 exGitOk exCfg false false exResolved "1" "9"
        (initSt exDisk)).performed ∧
    Ev.p4Cmd ["sync", "//depot/a/...@5", "//depot/b/...@5"] ∈
      (sync_range exP4 exGitOk exCfg false false exResolved "1" "9"
        (initSt exDisk)).performed ∧
    Ev.gitCmd none none ["add", "A", "B"] none ∈
      (sync_range exP4 exGitOk exCfg false false exResolved "1" "9"
        (initSt exDisk)).performed := by
  refine ⟨rfl, rfl, by decide, by decide, by decide⟩

/-- C5 amended: each commit produced by `sync_cl` carries the change's
submit time as both `GIT_AUTHOR_DATE` and `GIT_COMMITTER_DATE`, and its
message is the *whitespace-stripped* change description with a trailing
"CL <id>" line unless suppressed by `no-cl` (the code strips the
description at line 262, so leading/trailing whitespace of the raw
description does not survive into the message). -/
theorem C5_commit_metadata_amended (w : P4World) (g : GitWorld) (cfg : Config)
    (no_cl dry : Bool) (resolved : List (List String × List String))
    (cl : String) (reset : Bool) (d : Disk) (a c : Option Int)
    (args : List String) (cw : Option (List String))
    (hmem : Ev.gitCmd a c args cw ∈
      (sync_cl w g cfg no_cl dry resolved cl reset (initSt d)).logged)
    (hhead : args.head? = some "commit") :
    a = some (w.describeTime cl) ∧ c = some (w.describeTime cl) ∧
      args = ["commit", "-m", git_desc_of no_cl (trimStr (w.describeDesc cl)) cl] := by
  rcases sync_cl_logged_mem w g cfg no_cl dry resolved cl reset (initSt d) _ hmem with
    h | h | h | ⟨op, h⟩ | h | h | h
  · cases h
  · cases h
  · cases h
  · cases h
  · cases h
    exact absurd hhead (by decide)
  · cases h
    exact absurd hhead (by simp)
  · cases h
    exact ⟨rfl, rfl, rfl⟩

/-- Witness for C5's amended theorem at the concrete fixture: change "5"
of `exP4` (description " Fix bug\n", time 1700000000) commits with both
dates equal to the submit time and message "Fix bug\nCL 5". -/
theorem C5_commit_metadata_amended_witness :
    some (1700000000 : Int) = some (exP4.describeTime "5") ∧
    some (1700000000 : Int) = some (exP4.describeTime "5") ∧
    ["commit", "-m", "Fix bug\nCL 5"] =
      ["commit", "-m", git_desc_of false (trimStr (exP4.describeDesc "5")) "5"] :=
  C5_commit_metadata_amended exP4 exGitOk exCfg false false exResolved "5" false
    exDisk (some 1700000000) (some 1700000000) ["commit", "-m", "Fix bug\nCL 5"]
    none (by decide) (by decide)

/-- C10: every `git` invocation of `sync_cl` (reset, add, commit) passes no
working directory to `subprocess.run`, so it runs in the invoking
process's current working directory, not in the destination root derived
from the config file; the staging step passes the configuration's
destination-relative path strings unchanged; hence the absolute paths the
stage targets (`cwd/rel`) coincide with the mirrored destination paths
(`dstRoot/rel`) exactly when the process is invoked from the destination
root. -/
theorem C10_git_cwd_staging (w : P4World) (g : GitWorld) (cfg : Config)
    (no_cl dry : Bool) (resolved : List (List String × List String))
    (cl : String) (reset : Bool) (d : Disk) :
    (∀ ev ∈ (sync_cl w g cfg no_cl dry resolved cl reset (initSt d)).logged,
      ev.gitCwd = none) ∧
    (∀ (a c : Option Int) (args : List String) (cw : Option (List String)),
      Ev.gitCmd a c args cw ∈
        (sync_cl w g cfg no_cl dry resolved cl reset (initSt d)).logged →
      args.head? = some "add" →
      args = "add" :: cfg.paths.map fun pr => pr.2) ∧
    (∀ (cwd : List String) (rel : String),
      cwd ++ pathPartsOf rel = cfg.dstRoot ++ pathPartsOf rel ↔ cwd = cfg.dstRoot) := by
  refine ⟨?_, ?_, ?_⟩
  · intro ev hev
    rcases sync_cl_logged_mem w g cfg no_cl dry resolved cl reset (initSt d) _ hev with
      h | h | h | ⟨op, h⟩ | h | h | h
    · cases h
    all_goals subst h
    all_goals rfl
  · intro a c args cw hmem hhead
    rcases sync_cl_logged_mem w g cfg no_cl dry resolved cl reset (initSt d) _ hmem with
      h | h | h | ⟨op, h⟩ | h | h | h
    · cases h
    · cases h
    · cases h
    · cases h
    · cases h
      exact absurd hhead (by decide)
    · cases h
      rfl
    · cases h
      exact absurd hhead (by simp)
  · intro cwd rel
    constructor
    · intro h
      exact List.append_cancel_right h
    · intro h
      rw [h]

/-- Witness for C10: at the concrete fixture the staged argument list is
the raw configured pair of destination-relative strings. -/
theorem C10_git_cwd_staging_witness :
    ["add", "A", "B"] = "add" :: exCfg.paths.map (fun pr => pr.2) :=
  (C10_git_cwd_staging exP4 exGitOk exCfg false false exResolved "5" false
    exDisk).2.1 none none ["add", "A", "B"] none (by decide) (by decide)

theorem p4_run_gen_state (dry : Bool) (args : List String) (st : SyncSt) :
    (p4_run_gen dry args st).disk = st.disk ∧
      (p4_run_gen dry args st).raised = st.raised ∧
      (p4_run_gen dry args st).errors = st.errors := by
  unfold p4_run_gen
  split
  · exact ⟨rfl, rfl, rfl⟩
  split <;> exact ⟨rfl, rfl, rfl⟩

theorem p4_run_gen_performed_exec (args : List String) (st : SyncSt)
    (hr : st.raised = false) :
    (p4_run_gen false args st).performed = st.performed ++ [.p4Cmd args] := by
  unfold p4_run_gen
  rw [if_neg (by simp [hr])]
  rfl

theorem p4_run_gen_performed_dry (args : List String) (st : SyncSt) :
    (p4_run_gen true args st).performed = st.performed := by
  unfold p4_run_gen
  split
  · rfl
  · rfl

theorem git_run_env_dry (g : GitWorld) (a c : Option Int) (args : List String)
    (st : SyncSt) :
    (git_run_env g true a c args st).1.performed = st.performed ∧
      (git_run_env g true a c args st).1.disk = st.disk ∧
      (git_run_env g true a c args st).1.raised = st.raised ∧
      (git_run_env g true a c args st).2 = none := by
  unfold git_run_env
  split
  · exact ⟨rfl, rfl, rfl, rfl⟩
  · exact ⟨rfl, rfl, rfl, rfl⟩

theorem git_run_env_exec (g : GitWorld) (a c : Option Int) (args : List String)
    (st : SyncSt) (hr : st.raised = false) :
    git_run_env g false a c args st =
      ({ st with
          logged := st.logged ++ [.gitCmd a c args none]
          performed := st.performed ++ [.gitCmd a c args none] },
        some (g.rc args)) := by
  unfold git_run_env
  rw [if_neg (by simp [hr])]
  rfl

theorem git_run_env_raised_pres (g : GitWorld) (dry : Bool) (a c : Option Int)
    (args : List String) (st : SyncSt) :
    (git_run_env g dry a c args st).1.raised = st.raised ∧
      (git_run_env g dry a c args st).1.disk = st.disk := by
  unfold git_run_env
  split
  · exact ⟨rfl, rfl⟩
  split <;> exact ⟨rfl, rfl⟩

/-- A dry mirror stage changes no tree on the disk, performs nothing, and
cannot raise. -/
theorem mirror_all_paths_dry (ign : List RE)
    (resolved : List (List String × List String)) (rev : Bool) :
    ∀ st : SyncSt, st.raised = false →
      (∀ root, diskGet (mirror_all_paths ign true resolved rev st).disk root =
        diskGet st.disk root) ∧
      (mirror_all_paths ign true resolved rev st).performed = st.performed ∧
      (mirror_all_paths ign true resolved rev st).raised = false := by
  unfold mirror_all_paths
  induction resolved with
  | nil => exact fun st h => ⟨fun root => rfl, rfl, h⟩
  | cons pr rest ih =>
    intro st hr
    rw [List.foldl_cons]
    rw [if_neg (by simp [hr])]
    obtain ⟨d1, d2, d3⟩ := run_dry_inv ign (mSrc rev pr) (mDst rev pr)
      (diskGet st.disk (mSrc rev pr)) (diskGet st.disk (mDst rev pr))
    obtain ⟨g1, g2, g3⟩ := ih
      { st with
        disk := diskSet st.disk (mDst rev pr) (mirRun ign true rev st pr).dst
        logged := st.logged ++ (mirRun ign true rev st pr).logs.map Ev.mirror
        performed := st.performed ++ (mirRun ign true rev st pr).muts.map Ev.mirror
        raised := (mirRun ign true rev st pr).failed }
      d3
    refine ⟨?_, ?_, g3⟩
    · intro root
      rw [g1 root]
      dsimp only
      rw [diskGet_diskSet]
      have hd : (mirRun ign true rev st pr).dst = diskGet st.disk (mDst rev pr) := d1
      rw [hd]
      split
      · next h => rw [h]
      · rfl
    · rw [g2]
      dsimp only
      have hm : (mirRun ign true rev st pr).muts = [] := d2
      rw [hm]
      simp

theorem reset_step_dry (g : GitWorld) (reset : Bool) (st' : SyncSt) :
    (if reset then (git_run_env g true none none ["reset", "HEAD"] st').1
      else st').performed = st'.performed ∧
    (if reset then (git_run_env g true none none ["reset", "HEAD"] st').1
      else st').disk = st'.disk ∧
    (if reset then (git_run_env g true none none ["reset", "HEAD"] st').1
      else st').raised = st'.raised := by
  split
  · exact ⟨(git_run_env_dry g none none ["reset", "HEAD"] st').1,
      (git_run_env_dry g none none ["reset", "HEAD"] st').2.1,
      (git_run_env_dry g none none ["reset", "HEAD"] st').2.2.1⟩
  · exact ⟨rfl, rfl, rfl⟩

/-- C6 amended: a dry run performs zero filesystem and zero
version-control mutations while the read queries still execute — the
mirror leaves the destination tree untouched with an empty mutation list,
and a dry `sync_cl` leaves every disk root unchanged and performs exactly
the (read-only) `p4 describe`, raising nothing.  The logged decisions,
however, are computed against the unmutated state and can differ from a
real run (see the counterexample). -/
theorem C6_dry_run_purity_amended :
    (∀ (ign : List RE) (srcPath dstPath : List String) (src dst : Option Node),
      (FileSyncUtil.run ign srcPath dstPath true src dst).dst = dst ∧
      (FileSyncUtil.run ign srcPath dstPath true src dst).muts = [] ∧
      (FileSyncUtil.run ign srcPath dstPath true src dst).failed = false) ∧
    (∀ (w : P4World) (g : GitWorld) (cfg : Config) (no_cl : Bool)
      (resolved : List (List String × List String)) (cl : String) (reset : Bool)
      (st : SyncSt), st.raised = false →
      (∀ root, diskGet (sync_cl w g cfg no_cl true resolved cl reset st).disk root =
        diskGet st.disk root) ∧
      (sync_cl w g cfg no_cl true resolved cl reset st).performed =
        st.performed ++ [.p4Cmd ["describe", cl]] ∧
      (sync_cl w g cfg no_cl true resolved cl reset st).raised = false) := by
  refine ⟨fun ign sp dp src dst => run_dry_inv ign sp dp src dst, ?_⟩
  intro w g cfg no_cl resolved cl reset st hr
  have A := p4_run_gen_state false ["describe", cl] st
  have hr1 : (p4_run_gen false ["describe", cl] st).raised = false := A.2.1.trans hr
  have B := p4_run_gen_state true ("sync" :: viewPathsAt cfg cl)
    (p4_run_gen false ["describe", cl] st)
  have hr2 : (p4_run_gen true ("sync" :: viewPathsAt cfg cl)
      (p4_run_gen false ["describe", cl] st)).raised = false := B.2.1.trans hr1
  have M := mirror_all_paths_dry cfg.ignore resolved false
    (p4_run_gen true ("sync" :: viewPathsAt cfg cl)
      (p4_run_gen false ["describe", cl] st)) hr2
  simp only [sync_cl]
  rw [if_pos (Or.inr trivial)]
  have R := reset_step_dry g reset
    (mirror_all_paths cfg.ignore true resolved false
      (p4_run_gen true ("sync" :: viewPathsAt cfg cl)
        (p4_run_gen false ["describe", cl] st)))
  refine ⟨?_, ?_, ?_⟩
  · intro root
    rw [(commitWrap_fields cl _).2.2]
    rw [(git_run_env_dry g _ _ _ _).2.1]
    rw [(git_run_env_dry g _ _ _ _).2.1]
    rw [R.2.1]
    rw [M.1 root]
    rw [B.1, A.1]
  · rw [(commitWrap_fields cl _).2.1]
    rw [(git_run_env_dry g _ _ _ _).1]
    rw [(git_run_env_dry g _ _ _ _).1]
    rw [R.1]
    rw [M.2.1]
    rw [p4_run_gen_performed_dry]
    rw [p4_run_gen_performed_exec ["describe", cl] st hr]
  · rw [(git_run_env_dry g (some (w.describeTime cl)) (some (w.describeTime cl))
      ["commit", "-m", git_desc_of no_cl (trimStr (w.describeDesc cl)) cl] _).2.2.2]
    dsimp only
    rw [(git_run_env_dry g _ _ _ _).2.2.1]
    rw [(git_run_env_dry g _ _ _ _).2.2.1]
    rw [R.2.2]
    rw [M.2.2]

/-- Witness for C6's amended theorem: the concrete dry `sync_cl` at the
fixture leaves both disk roots untouched, performs only the describe
query, and raises nothing. -/
theorem C6_dry_run_purity_amended_witness :
    (∀ root, diskGet (sync_cl exP4 exGitOk exCfg false true exResolved "5" false
      (initSt exDisk)).disk root = diskGet (initSt exDisk).disk root) ∧
    (sync_cl exP4 exGitOk exCfg false true exResolved "5" false
      (initSt exDisk)).performed =
      (initSt exDisk).performed ++ [.p4Cmd ["describe", "5"]] ∧
    (sync_cl exP4 exGitOk exCfg false true exResolved "5" false
      (initSt exDisk)).raised = false :=
  C6_dry_run_purity_amended.2 exP4 exGitOk exCfg false exResolved "5" false
    (initSt exDisk) rfl

theorem resolve_paths_go (w : P4World) (dstRoot : List String) :
    ∀ (paths : List (String × String))
      (acc : List (List String × List String) × List String),
      paths.foldl
        (fun acc pr =>
          if (w.whereFn pr.1).length = 1 then
            (acc.1 ++ [(pathPartsOf (removeSuffix ((w.whereFn pr.1).headD "") "\\..."),
              dstRoot ++ pathPartsOf pr.2)], acc.2)
          else (acc.1, acc.2 ++ ["No local path for: " ++ pr.1])) acc =
      (acc.1 ++ paths.filterMap (fun pr =>
          if (w.whereFn pr.1).length = 1 then
            some (pathPartsOf (removeSuffix ((w.whereFn pr.1).headD "") "\\..."),
              dstRoot ++ pathPartsOf pr.2)
          else none),
        acc.2 ++ paths.filterMap (fun pr =>
          if (w.whereFn pr.1).length = 1 then none
          else some ("No local path for: " ++ pr.1))) := by
  intro paths
  induction paths with
  | nil => intro acc; simp
  | cons pr rest ih =>
    intro acc
    rw [List.foldl_cons]
    by_cases h : (w.whereFn pr.1).length = 1
    · rw [if_pos h, ih]
      simp [h, List.filterMap_cons, List.append_assoc]
    · rw [if_neg h, ih]
      simp [h, List.filterMap_cons, List.append_assoc]

/-- `resolve_paths` in closed form: exactly the pairs whose `p4 where`
query returns one result are resolved (in configuration order); each other
pair contributes one error line and nothing else. -/
theorem resolve_paths_eq (w : P4World) (dstRoot : List String)
    (paths : List (String × String)) :
    resolve_paths w dstRoot paths =
      (paths.filterMap (fun pr =>
          if (w.whereFn pr.1).length = 1 then
            some (pathPartsOf (removeSuffix ((w.whereFn pr.1).headD "") "\\..."),
              dstRoot ++ pathPartsOf pr.2)
          else none),
        paths.filterMap (fun pr =>
          if (w.whereFn pr.1).length = 1 then none
          else some ("No local path for: " ++ pr.1))) := by
  unfold resolve_paths
  rw [resolve_paths_go w dstRoot paths ([], [])]
  simp

theorem mirror_all_paths_untouched_roots (ign : List RE) (dry : Bool)
    (rev : Bool) :
    ∀ (resolved : List (List String × List String)) (st : SyncSt)
      (root : List String), (∀ pr ∈ resolved, mDst rev pr ≠ root) →
      diskGet (mirror_all_paths ign dry resolved rev st).disk root =
        diskGet st.disk root := by
  intro resolved
  unfold mirror_all_paths
  induction resolved with
  | nil => exact fun st root _ => rfl
  | cons pr rest ih =>
    intro st root hroot
    rw [List.foldl_cons]
    by_cases hr : st.raised = true
    · rw [if_pos hr]
      exact ih st root fun q hq => hroot q (List.mem_cons_of_mem pr hq)
    · rw [if_neg hr]
      rw [ih _ root fun q hq => hroot q (List.mem_cons_of_mem pr hq)]
      dsimp only
      rw [diskGet_diskSet]
      rw [if_neg fun hh : root = mDst rev pr =>
        hroot pr (List.mem_cons_self pr rest) hh.symm]

/-- C7 amended: a configured pair whose `p4 where` query does not return
exactly one result is dropped from the resolved map with an error logged,
resolution of the other pairs continues, and mirroring touches only the
destination roots of resolved pairs — but (contrary to the claim as
stated) discovery, workspace sync and staging keep using the raw
configured path map, so the dropped pair is *not* excluded from them (see
the counterexample). -/
theorem C7_resolution_failure_amended :
    (∀ (w : P4World) (dstRoot : List String) (paths : List (String × String)),
      resolve_paths w dstRoot paths =
        (paths.filterMap (fun pr =>
            if (w.whereFn pr.1).length = 1 then
              some (pathPartsOf (removeSuffix ((w.whereFn pr.1).headD "") "\\..."),
                dstRoot ++ pathPartsOf pr.2)
            else none),
          paths.filterMap (fun pr =>
            if (w.whereFn pr.1).length = 1 then none
            else some ("No local path for: " ++ pr.1)))) ∧
    (∀ (w : P4World) (dstRoot : List String) (paths : List (String × String))
      (pr : String × String), pr ∈ paths → (w.whereFn pr.1).length ≠ 1 →
      ("No local path for: " ++ pr.1) ∈ (resolve_paths w dstRoot paths).2) ∧
    (∀ (w : P4World) (dstRoot : List String) (paths : List (String × String))
      (pr : String × String), pr ∈ paths → (w.whereFn pr.1).length = 1 →
      (pathPartsOf (removeSuffix ((w.whereFn pr.1).headD "") "\\..."),
        dstRoot ++ pathPartsOf pr.2) ∈ (resolve_paths w dstRoot paths).1) ∧
    (∀ (ign : List RE) (dry rev : Bool)
      (resolved : List (List String × List String)) (st : SyncSt)
      (root : List String), (∀ pr ∈ resolved, mDst rev pr ≠ root) →
      diskGet (mirror_all_paths ign dry resolved rev st).disk root =
        diskGet st.disk root) := by
  refine ⟨resolve_paths_eq, ?_, ?_, ?_⟩
  · intro w dstRoot paths pr hpr h
    rw [resolve_paths_eq]
    exact List.mem_filterMap.mpr ⟨pr, hpr, by rw [if_neg h]⟩
  · intro w dstRoot paths pr hpr h
    rw [resolve_paths_eq]
    exact List.mem_filterMap.mpr ⟨pr, hpr, by rw [if_pos h]⟩
  · intro ign dry rev resolved st root h
    exact mirror_all_paths_untouched_roots ign dry rev resolved st root h

/-- Witness for C7's amended theorem at the fixture: the unresolvable
`//depot/b/...` mapping yields its error line, and the resolvable
`//depot/a/...` mapping is still resolved. -/
theorem C7_resolution_failure_amended_witness :
    ("No local path for: //depot/b/...") ∈
      (resolve_paths exP4 ["R"] exCfg.paths).2 ∧
    (["C:", "ws", "a"], ["R", "A"]) ∈ (resolve_paths exP4 ["R"] exCfg.paths).1 := by
  constructor
  · exact C7_resolution_failure_amended.2.1 exP4 ["R"] exCfg.paths
      ("//depot/b/...", "B") (by decide) (by decide)
  · exact C7_resolution_failure_amended.2.2.1 exP4 ["R"] exCfg.paths
      ("//depot/a/...", "A") (by decide) (by decide)

theorem sync_range_eq_fold (w : P4World) (g : GitWorld) (cfg : Config)
    (no_cl dry : Bool) (resolved : List (List String × List String))
    (first last : String) (st : SyncSt)
    (hne : w.changesFn (viewPathsAt cfg (first ++ "," ++ last)) ≠ []) :
    sync_range w g cfg no_cl dry resolved first last st =
      (rangeCls w cfg first last).foldl (syncStep w g cfg no_cl dry resolved)
        (rangeStartSt w g cfg dry first last st) := by
  simp only [sync_range]
  rw [if_neg hne]
  rfl

/-- The tail of `sync_cl` from the optional reset through the commit-result
check: whatever state the mirror stage produced, a non-zero commit exit
code leaves the final state raised (if an earlier stage already raised,
the commit is skipped and the raised flag stands). -/
theorem commit_tail_raised (g : GitWorld) (reset : Bool)
    (dst_paths : List String) (a : Option Int) (msg cl : String) (m : SyncSt)
    (hrc : g.rc ["commit", "-m", msg] ≠ 0) :
    (match (git_run_env g false a a ["commit", "-m", msg]
        ((git_run_env g false none none ("add" :: dst_paths)
          (if reset then (git_run_env g false none none ["reset", "HEAD"] m).1
            else m)).1)).2 with
      | some rc =>
        if rc ≠ 0 then
          { (git_run_env g false a a ["commit", "-m", msg]
              ((git_run_env g false none none ("add" :: dst_paths)
                (if reset then
                    (git_run_env g false none none ["reset", "HEAD"] m).1
                  else m)).1)).1 with
            raised := true
            errors := (git_run_env g false a a ["commit", "-m", msg]
              ((git_run_env g false none none ("add" :: dst_paths)
                (if reset then
                    (git_run_env g false none none ["reset", "HEAD"] m).1
                  else m)).1)).1.errors ++
              ["Failed to commit changes from CL " ++ cl ++ ", no changes?"] }
        else (git_run_env g false a a ["commit", "-m", msg]
          ((git_run_env g false none none ("add" :: dst_paths)
            (if reset then (git_run_env g false none none ["reset", "HEAD"] m).1
              else m)).1)).1
      | none => (git_run_env g false a a ["commit", "-m", msg]
          ((git_run_env g false none none ("add" :: dst_paths)
            (if reset then (git_run_env g false none none ["reset", "HEAD"] m).1
              else m)).1)).1).raised = true := by
  by_cases hm : m.raised = true
  · have hstR : (if reset then
        (git_run_env g false none none ["reset", "HEAD"] m).1 else m) = m := by
      split
      · rw [git_run_env_raised hm]
      · rfl
    rw [hstR, git_run_env_raised hm, git_run_env_raised hm]
    exact hm
  · have hm' := (Bool.not_eq_true _).mp hm
    have hstR : (if reset then
        (git_run_env g false none none ["reset", "HEAD"] m).1 else m).raised =
        false := by
      split
      · rw [(git_run_env_raised_pres g false none none ["reset", "HEAD"] m).1]
        exact hm'
      · exact hm'
    have hstA : ((git_run_env g false none none ("add" :: dst_paths)
        (if reset then (git_run_env g false none none ["reset", "HEAD"] m).1
          else m)).1).raised = false := by
      rw [(git_run_env_raised_pres g false none none ("add" :: dst_paths) _).1]
      exact hstR
    rw [git_run_env_exec g a a ["commit", "-m", msg]
      ((git_run_env g false none none ("add" :: dst_paths)
        (if reset then (git_run_env g false none none ["reset", "HEAD"] m).1
          else m)).1) hstA]
    dsimp only
    rw [if_pos hrc]

/-- C4: fail-fast on commit failure.  (1) With `dry_run=false`, if the
`git commit` for a change exits non-zero (including "nothing to commit"),
`sync_cl` ends raised.  (2) Once the state after processing the first
`i+1` changes of a discovered range is raised, `sync_range` equals that
very state — every later change of the range is skipped entirely, so no
commit is attempted for it — and the trace accumulated before the failing
change (the already-made commits and mirror mutations) is a prefix of the
final trace: nothing is rolled back. -/
theorem C4_fail_fast :
    (∀ (w : P4World) (g : GitWorld) (cfg : Config) (no_cl : Bool)
      (resolved : List (List String × List String)) (cl : String)
      (reset : Bool) (st : SyncSt),
      g.rc ["commit", "-m", git_desc_of no_cl (trimStr (w.describeDesc cl)) cl] ≠ 0 →
      (sync_cl w g cfg no_cl false resolved cl reset st).raised = true) ∧
    (∀ (w : P4World) (g : GitWorld) (cfg : Config) (no_cl : Bool)
      (resolved : List (List String × List String)) (first last : String)
      (d : Disk) (i : Nat),
      w.changesFn (viewPathsAt cfg (first ++ "," ++ last)) ≠ [] →
      ∀ hlen : i < (rangeCls w cfg first last).length,
      (((rangeCls w cfg first last).take (i+1)).foldl
        (syncStep w g cfg no_cl false resolved)
        (rangeStartSt w g cfg false first last (initSt d))).raised = true →
      sync_range w g cfg no_cl false resolved first last (initSt d) =
        ((rangeCls w cfg first last).take (i+1)).foldl
          (syncStep w g cfg no_cl false resolved)
          (rangeStartSt w g cfg false first last (initSt d)) ∧
      (((rangeCls w cfg first last).take i).foldl
        (syncStep w g cfg no_cl false resolved)
        (rangeStartSt w g cfg false first last (initSt d))).performed <+:
        (sync_range w g cfg no_cl false resolved first last (initSt d)).performed) := by
  constructor
  · intro w g cfg no_cl resolved cl reset st hrc
    show (sync_cl w g cfg no_cl false resolved cl reset st).raised = true
    exact commit_tail_raised g reset (cfg.paths.map fun pr => pr.2)
      (some (w.describeTime cl))
      (git_desc_of no_cl (trimStr (w.describeDesc cl)) cl) cl
      (mirror_all_paths cfg.ignore false resolved false
        (if (p4_run_gen false ("sync" :: viewPathsAt cfg cl)
              (p4_run_gen false ["describe", cl] st)).raised ∨ false then
            p4_run_gen false ("sync" :: viewPathsAt cfg cl)
              (p4_run_gen false ["describe", cl] st)
          else
            { p4_run_gen false ("sync" :: viewPathsAt cfg cl)
                (p4_run_gen false ["describe", cl] st) with
              disk := applySync (p4_run_gen false ("sync" :: viewPathsAt cfg cl)
                (p4_run_gen false ["describe", cl] st)).disk (w.syncedAt cl) }))
      hrc
  · intro w g cfg no_cl resolved first last d i hne hlen hfail
    have hmain : sync_range w g cfg no_cl false resolved first last (initSt d) =
        ((rangeCls w cfg first last).take (i+1)).foldl
          (syncStep w g cfg no_cl false resolved)
          (rangeStartSt w g cfg false first last (initSt d)) := by
      rw [sync_range_eq_fold w g cfg no_cl false resolved first last (initSt d) hne]
      conv_lhs => rw [← List.take_append_drop (i+1) (rangeCls w cfg first last)]
      rw [List.foldl_append]
      exact foldl_syncst_raised_id _ (fun st cl h => sync_cl_raised_id h) _ _ hfail
    refine ⟨hmain, ?_⟩
    rw [hmain]
    rw [show (rangeCls w cfg first last).take (i+1) =
        (rangeCls w cfg first last).take i ++
          [(rangeCls w cfg first last).get ⟨i, hlen⟩] by
      rw [List.take_succ, List.getElem?_eq_getElem hlen]
      rfl]
    rw [List.foldl_append]
    rw [List.foldl_cons, List.foldl_nil]
    obtain ⟨t, ht⟩ := sync_cl_performed_mono w g cfg no_cl false resolved
      ((rangeCls w cfg first last).get ⟨i, hlen⟩) false
      (((rangeCls w cfg first last).take i).foldl
        (syncStep w g cfg no_cl false resolved)
        (rangeStartSt w g cfg false first last (initSt d)))
    exact ⟨t, ht.symm⟩

/-- Witness for C4: with a git whose `commit` exits 1, change "5" of the
fixture raises, and the range invocation over `1,9` stops at that first
(and only) change with the pre-change trace as a prefix. -/
theorem C4_fail_fast_witness :
    (sync_cl exP4 exGitBad exCfg false false exResolved "5" false
      (initSt exDisk)).raised = true ∧
    (sync_range exP4 exGitBad exCfg false false exResolved "1" "9"
      (initSt exDisk) =
      ((rangeCls exP4 exCfg "1" "9").take 1).foldl
        (syncStep exP4 exGitBad exCfg false false exResolved)
        (rangeStartSt exP4 exGitBad exCfg false "1" "9" (initSt exDisk)) ∧
    (((rangeCls exP4 exCfg "1" "9").take 0).foldl
      (syncStep exP4 exGitBad exCfg false false exResolved)
      (rangeStartSt exP4 exGitBad exCfg false "1" "9" (initSt exDisk))).performed <+:
      (sync_range exP4 exGitBad exCfg false false exResolved "1" "9"
        (initSt exDisk)).performed) := by
  constructor
  · exact C4_fail_fast.1 exP4 exGitBad exCfg false exResolved "5" false
      (initSt exDisk) (by decide)
  · exact C4_fail_fast.2 exP4 exGitBad exCfg false exResolved "1" "9" exDisk 0
      (by decide) (by decide) (by decide)

/-! ## Tree lemmas -/

theorem findEntry_mem {es : List (String × Node)} {s : String} {c : Node}
    (h : findEntry es s = some c) : (s, c) ∈ es := by
  induction es with
  | nil => cases h
  | cons e rest ih =>
    rcases e with ⟨n, v⟩
    by_cases hn : n = s
    · subst hn
      rw [findEntry, if_pos rfl] at h
      cases h
      exact List.mem_cons_self _ _
    · rw [findEntry, if_neg hn] at h
      exact List.mem_cons_of_mem _ (ih h)

theorem mem_map_fst_memStr {es : List (String × Node)} {s : String} {c : Node}
    (h : (s, c) ∈ es) : memStr s (es.map Prod.fst) = true := by
  induction es with
  | nil => cases h
  | cons e rest ih =>
    rcases List.mem_cons.mp h with h1 | h2
    · subst h1
      rw [List.map_cons, memStr, if_pos rfl]
    · rw [List.map_cons, memStr]
      split
      · rfl
      · exact ih h2

theorem findEntry_of_mem_nodup {es : List (String × Node)} {s : String} {c : Node}
    (hnd : nodupStr (es.map Prod.fst) = true) (h : (s, c) ∈ es) :
    findEntry es s = some c := by
  induction es with
  | nil => cases h
  | cons e rest ih =>
    rcases e with ⟨n, v⟩
    rw [List.map_cons, nodupStr, Bool.and_eq_true] at hnd
    rcases List.mem_cons.mp h with h1 | h2
    · cases h1
      rw [findEntry, if_pos rfl]
    · have hne : n ≠ s := by
        intro he
        subst he
        have hb := hnd.1
        rw [mem_map_fst_memStr h2] at hb
        simp at hb
      rw [findEntry, if_neg hne]
      exact ih hnd.2 h2

theorem findEntry_eq_none_iff {es : List (String × Node)} {s : String} :
    findEntry es s = none ↔ ∀ c, (s, c) ∉ es := by
  constructor
  · intro h c hm
    induction es with
    | nil => cases hm
    | cons e rest ih =>
      rcases e with ⟨n, v⟩
      rcases List.mem_cons.mp hm with h1 | h2
      · cases h1
        rw [findEntry, if_pos rfl] at h
        cases h
      · rw [findEntry] at h
        split at h
        · cases h
        · exact ih h h2
  · intro h
    cases hf : findEntry es s with
    | none => rfl
    | some c => exact absurd (findEntry_mem hf) (h c)

theorem findEntry_setEntry_self {es : List (String × Node)} {s : String}
    {c : Node} (h : findEntry es s = some c) (v : Node) :
    findEntry (setEntry es s v) s = some v := by
  induction es with
  | nil => cases h
  | cons e rest ih =>
    rcases e with ⟨n, u⟩
    by_cases hn : n = s
    · subst hn
      rw [setEntry, if_pos rfl, findEntry, if_pos rfl]
    · rw [findEntry, if_neg hn] at h
      rw [setEntry, if_neg hn, findEntry, if_neg hn]
      exact ih h

theorem findEntry_setEntry_ne {es : List (String × Node)} {s x : String}
    (hx : x ≠ s) (v : Node) :
    findEntry (setEntry es s v) x = findEntry es x := by
  induction es with
  | nil => rfl
  | cons e rest ih =>
    rcases e with ⟨n, u⟩
    by_cases hn : n = s
    · subst hn
      rw [setEntry, if_pos rfl, findEntry, findEntry, if_neg, if_neg]
      · exact fun he => hx he.symm
      · exact fun he => hx he.symm
    · rw [setEntry, if_neg hn]
      by_cases hnx : n = x
      · subst hnx
        rw [findEntry, if_pos rfl, findEntry, if_pos rfl]
      · rw [findEntry, if_neg hnx, findEntry, if_neg hnx]
        exact ih

theorem findEntry_eraseEntry_ne {es : List (String × Node)} {s x : String}
    (hx : x ≠ s) : findEntry (eraseEntry es s) x = findEntry es x := by
  induction es with
  | nil => rfl
  | cons e rest ih =>
    rcases e with ⟨n, u⟩
    by_cases hn : n = s
    · subst hn
      rw [eraseEntry, if_pos rfl, findEntry, if_neg]
      exact fun he => hx he.symm
    · rw [eraseEntry, if_neg hn]
      by_cases hnx : n = x
      · subst hnx
        rw [findEntry, if_pos rfl, findEntry, if_pos rfl]
      · rw [findEntry, if_neg hnx, findEntry, if_neg hnx]
        exact ih

theorem findEntry_eraseEntry_self {es : List (String × Node)} {s : String}
    (hnd : nodupStr (es.map Prod.fst) = true) :
    findEntry (eraseEntry es s) s = none := by
  induction es with
  | nil => rfl
  | cons e rest ih =>
    rcases e with ⟨n, u⟩
    rw [List.map_cons, nodupStr, Bool.and_eq_true] at hnd
    by_cases hn : n = s
    · subst hn
      rw [eraseEntry, if_pos rfl]
      cases hf : findEntry rest n with
      | none => rfl
      | some c =>
        have hb := hnd.1
        rw [mem_map_fst_memStr (findEntry_mem hf)] at hb
        simp at hb
    · rw [eraseEntry, if_neg hn, findEntry, if_neg hn]
      exact ih hnd.2

theorem findEntry_append_single {es : List (String × Node)} {s x : String}
    {v : Node} :
    findEntry (es ++ [(s, v)]) x =
      match findEntry es x with
      | some c => some c
      | none => if s = x then some v else none := by
  induction es with
  | nil => rfl
  | cons e rest ih =>
    rcases e with ⟨n, u⟩
    by_cases hn : n = x
    · rw [List.cons_append, findEntry, if_pos hn, findEntry, if_pos hn]
    · rw [List.cons_append, findEntry, if_neg hn, findEntry, if_neg hn]
      exact ih

theorem setEntry_self {es : List (String × Node)} {s : String} {v : Node}
    (h : findEntry es s = some v) : setEntry es s v = es := by
  induction es with
  | nil => rfl
  | cons e rest ih =>
    rcases e with ⟨n, u⟩
    by_cases hn : n = s
    · subst hn
      rw [findEntry, if_pos rfl] at h
      cases h
      rw [setEntry, if_pos rfl]
    · rw [findEntry, if_neg hn] at h
      rw [setEntry, if_neg hn, ih h]

theorem map_fst_setEntry (es : List (String × Node)) (s : String) (v : Node) :
    (setEntry es s v).map Prod.fst = es.map Prod.fst := by
  induction es with
  | nil => rfl
  | cons e rest ih =>
    rcases e with ⟨n, u⟩
    by_cases hn : n = s
    · subst hn
      rw [setEntry, if_pos rfl, List.map_cons, List.map_cons]
    · rw [setEntry, if_neg hn, List.map_cons, List.map_cons, ih]

theorem wfbEntries_eq_true_of_mem {es : List (String × Node)} {s : String}
    {c : Node} (hw : wfbEntries es = true) (h : (s, c) ∈ es) : c.wfb = true := by
  induction es with
  | nil => cases h
  | cons e rest ih =>
    rw [wfbEntries, Bool.and_eq_true] at hw
    rcases List.mem_cons.mp h with h1 | h2
    · rcases e with ⟨n, u⟩
      cases h1
      exact hw.1
    · exact ih hw.2 h2

theorem Node.lookup_append (n : Node) (p q : List String) :
    n.lookup (p ++ q) = (n.lookup p).bind (fun m => m.lookup q) := by
  induction p generalizing n with
  | nil => simp [Node.lookup]
  | cons s rest ih =>
    rw [List.cons_append]
    cases n with
    | file c => rfl
    | dir es =>
      rw [Node.lookup, Node.lookup]
      cases findEntry es s with
      | none => rfl
      | some c => exact ih c

theorem lookup_snoc (n : Node) (p : List String) (x : String) :
    n.lookup (p ++ [x]) =
      match n.lookup p with
      | some (.dir es) => findEntry es x
      | _ => none := by
  rw [Node.lookup_append]
  cases n.lookup p with
  | none => rfl
  | some m =>
    cases m with
    | file c => rfl
    | dir es =>
      dsimp only [Option.bind, Node.lookup]
      cases findEntry es x with
      | none => rfl
      | some c => rfl

theorem sizeOf_snd_lt_of_mem_entries {es : List (String × Node)}
    {p : String × Node} (h : p ∈ es) : sizeOf p.2 < sizeOf es := by
  induction es with
  | nil => cases h
  | cons e rest ih =>
    rcases List.mem_cons.mp h with h1 | h2
    · subst h1
      rcases p with ⟨n, c⟩
      have h0 : sizeOf (n, c).2 = sizeOf c := rfl
      have h1 : sizeOf ((n, c) :: rest) = 1 + sizeOf (n, c) + sizeOf rest := rfl
      have h2 : sizeOf (n, c) = 1 + sizeOf n + sizeOf c := rfl
      omega
    · have := ih h2
      have h1 : sizeOf (e :: rest) = 1 + sizeOf e + sizeOf rest := rfl
      omega

/-- Structural induction principle for `Node` with access to all entry
values of a directory. -/
theorem Node.indOn {P : Node → Prop} (hf : ∀ c, P (.file c))
    (hd : ∀ es, (∀ s c, (s, c) ∈ es → P c) → P (.dir es)) : ∀ n, P n := by
  have key : ∀ k n, sizeOf n < k → P n := by
    intro k
    induction k with
    | zero => exact fun n h => absurd h (by omega)
    | succ k ih =>
      intro n hn
      cases n with
      | file c => exact hf c
      | dir es =>
        refine hd es fun s c hm => ih c ?_
        have h1 : sizeOf (Node.dir es) = 1 + sizeOf es := Node.dir.sizeOf_spec es
        have h2 := sizeOf_snd_lt_of_mem_entries hm
        have h3 : sizeOf (s, c).2 = sizeOf c := rfl
        omega
  exact fun n => key (sizeOf n + 1) n (by omega)

/-! ## Walk lemmas -/

theorem walkTopDownEntries_mem_decomp {rel : List String}
    {es : List (String × Node)} {it : WalkItem}
    (h : it ∈ walkTopDownEntries rel es) :
    ∃ s c, (s, c) ∈ es ∧ it ∈ walkTopDown (rel ++ [s]) c := by
  induction es with
  | nil => cases h
  | cons e rest ih =>
    rcases e with ⟨n, c⟩
    rw [walkTopDownEntries] at h
    rcases List.mem_append.mp h with h1 | h2
    · exact ⟨n, c, List.mem_cons_self _ _, h1⟩
    · obtain ⟨s, c', hm, hit⟩ := ih h2
      exact ⟨s, c', List.mem_cons_of_mem _ hm, hit⟩

theorem walkBottomUpEntries_mem_decomp {rel : List String}
    {es : List (String × Node)} {it : WalkItem}
    (h : it ∈ walkBottomUpEntries rel es) :
    ∃ s c, (s, c) ∈ es ∧ it ∈ walkBottomUp (rel ++ [s]) c := by
  induction es with
  | nil => cases h
  | cons e rest ih =>
    rcases e with ⟨n, c⟩
    rw [walkBottomUpEntries] at h
    rcases List.mem_append.mp h with h1 | h2
    · exact ⟨n, c, List.mem_cons_self _ _, h1⟩
    · obtain ⟨s, c', hm, hit⟩ := ih h2
      exact ⟨s, c', List.mem_cons_of_mem _ hm, hit⟩

theorem walkTopDown_rel_ext :
    ∀ n : Node, ∀ rel : List String, ∀ it : WalkItem,
      it ∈ walkTopDown rel n → ∃ suf, it.rel = rel ++ suf := by
  refine Node.indOn (fun c rel it h => by cases h) ?_
  intro es ih rel it h
  rw [walkTopDown] at h
  rcases List.mem_cons.mp h with h1 | h2
  · subst h1
    exact ⟨[], by simp⟩
  · obtain ⟨s, c, hm, hit⟩ := walkTopDownEntries_mem_decomp h2
    obtain ⟨suf, hsuf⟩ := ih s c hm (rel ++ [s]) it hit
    exact ⟨[s] ++ suf, by rw [hsuf]; simp⟩

theorem walkBottomUp_rel_ext :
    ∀ n : Node, ∀ rel : List String, ∀ it : WalkItem,
      it ∈ walkBottomUp rel n → ∃ suf, it.rel = rel ++ suf := by
  refine Node.indOn (fun c rel it h => by cases h) ?_
  intro es ih rel it h
  rw [walkBottomUp] at h
  rcases List.mem_append.mp h with h2 | h1
  · obtain ⟨s, c, hm, hit⟩ := walkBottomUpEntries_mem_decomp h2
    obtain ⟨suf, hsuf⟩ := ih s c hm (rel ++ [s]) it hit
    exact ⟨[s] ++ suf, by rw [hsuf]; simp⟩
  · rw [List.mem_singleton] at h1
    subst h1
    exact ⟨[], by simp⟩

theorem walkTopDown_mem_char :
    ∀ n : Node, n.wfb = true → ∀ rel : List String, ∀ it : WalkItem,
      it ∈ walkTopDown rel n →
      ∃ q es, it.rel = rel ++ q ∧ n.lookup q = some (.dir es) ∧
        it.dirs = dirNames es ∧ it.files = fileNames es := by
  refine Node.indOn (fun c _ rel it h => by cases h) ?_
  intro es ih hwf rel it h
  rw [Node.wfb, Bool.and_eq_true] at hwf
  rw [walkTopDown] at h
  rcases List.mem_cons.mp h with h1 | h2
  · subst h1
    exact ⟨[], es, by simp, rfl, rfl, rfl⟩
  · obtain ⟨s, c, hm, hit⟩ := walkTopDownEntries_mem_decomp h2
    obtain ⟨q, es', hrel, hlk, hd, hf⟩ :=
      ih s c hm (wfbEntries_eq_true_of_mem hwf.2 hm) (rel ++ [s]) it hit
    refine ⟨[s] ++ q, es', by rw [hrel]; simp, ?_, hd, hf⟩
    rw [List.singleton_append, Node.lookup, findEntry_of_mem_nodup hwf.1 hm]
    exact hlk

theorem walkBottomUp_mem_char :
    ∀ n : Node, n.wfb = true → ∀ rel : List String, ∀ it : WalkItem,
      it ∈ walkBottomUp rel n →
      ∃ q es, it.rel = rel ++ q ∧ n.lookup q = some (.dir es) ∧
        it.dirs = dirNames es ∧ it.files = fileNames es := by
  refine Node.indOn (fun c _ rel it h => by cases h) ?_
  intro es ih hwf rel it h
  rw [Node.wfb, Bool.and_eq_true] at hwf
  rw [walkBottomUp] at h
  rcases List.mem_append.mp h with h2 | h1
  · obtain ⟨s, c, hm, hit⟩ := walkBottomUpEntries_mem_decomp h2
    obtain ⟨q, es', hrel, hlk, hd, hf⟩ :=
      ih s c hm (wfbEntries_eq_true_of_mem hwf.2 hm) (rel ++ [s]) it hit
    refine ⟨[s] ++ q, es', by rw [hrel]; simp, ?_, hd, hf⟩
    rw [List.singleton_append, Node.lookup, findEntry_of_mem_nodup hwf.1 hm]
    exact hlk
  · rw [List.mem_singleton] at h1
    subst h1
    exact ⟨[], es, by simp, rfl, rfl, rfl⟩

theorem walkTopDown_mem_of_entry {rel : List String}
    {es : List (String × Node)} {s : String} {c : Node} {it : WalkItem}
    (hm : (s, c) ∈ es) (hit : it ∈ walkTopDown (rel ++ [s]) c) :
    it ∈ walkTopDownEntries rel es := by
  induction es with
  | nil => cases hm
  | cons e rest ih =>
    rw [walkTopDownEntries]
    rcases List.mem_cons.mp hm with h1 | h2
    · subst h1
      exact List.mem_append.mpr (Or.inl hit)
    · exact List.mem_append.mpr (Or.inr (ih h2))

theorem walkBottomUp_mem_of_entry {rel : List String}
    {es : List (String × Node)} {s : String} {c : Node} {it : WalkItem}
    (hm : (s, c) ∈ es) (hit : it ∈ walkBottomUp (rel ++ [s]) c) :
    it ∈ walkBottomUpEntries rel es := by
  induction es with
  | nil => cases hm
  | cons e rest ih =>
    rw [walkBottomUpEntries]
    rcases List.mem_cons.mp hm with h1 | h2
    · subst h1
      exact List.mem_append.mpr (Or.inl hit)
    · exact List.mem_append.mpr (Or.inr (ih h2))

theorem walkTopDown_complete :
    ∀ (q : List String) (n : Node) (rel : List String)
      (es' : List (String × Node)), n.lookup q = some (.dir es') →
      (⟨rel ++ q, dirNames es', fileNames es'⟩ : WalkItem) ∈ walkTopDown rel n := by
  intro q
  induction q with
  | nil =>
    intro n rel es' h
    rw [Node.lookup] at h
    cases h
    rw [walkTopDown, List.append_nil]
    exact List.mem_cons_self _ _
  | cons s q' ih =>
    intro n rel es' h
    cases n with
    | file c => cases h
    | dir es =>
      rw [Node.lookup] at h
      cases hf : findEntry es s with
      | none => rw [hf] at h; cases h
      | some c =>
        rw [hf] at h
        have hit := ih c (rel ++ [s]) es' h
        rw [walkTopDown]
        refine List.mem_cons_of_mem _ (walkTopDown_mem_of_entry (findEntry_mem hf) ?_)
        rw [show rel ++ s :: q' = (rel ++ [s]) ++ q' by simp] at *
        exact hit

theorem walkBottomUp_complete :
    ∀ (q : List String) (n : Node) (rel : List String)
      (es' : List (String × Node)), n.lookup q = some (.dir es') →
      (⟨rel ++ q, dirNames es', fileNames es'⟩ : WalkItem) ∈ walkBottomUp rel n := by
  intro q
  induction q with
  | nil =>
    intro n rel es' h
    rw [Node.lookup] at h
    cases h
    rw [walkBottomUp, List.append_nil]
    exact List.mem_append.mpr (Or.inr (List.mem_singleton.mpr rfl))
  | cons s q' ih =>
    intro n rel es' h
    cases n with
    | file c => cases h
    | dir es =>
      rw [Node.lookup] at h
      cases hf : findEntry es s with
      | none => rw [hf] at h; cases h
      | some c =>
        rw [hf] at h
        have hit := ih c (rel ++ [s]) es' h
        rw [walkBottomUp]
        refine List.mem_append.mpr (Or.inl (walkBottomUp_mem_of_entry (findEntry_mem hf) ?_))
        rw [show rel ++ s :: q' = (rel ++ [s]) ++ q' by simp] at *
        exact hit

/-! ## View conversion and membership helper lemmas -/

theorem viewAt_eq_none_iff {n : Node} {q : List String} :
    viewAt n q = none ↔ n.lookup q = none := by
  cases h : n.lookup q with
  | none => simp [viewAt, h]
  | some v => cases v <;> simp [viewAt, h]

theorem viewAt_eq_dir_iff {n : Node} {q : List String} :
    viewAt n q = some none ↔ ∃ es, n.lookup q = some (.dir es) := by
  cases h : n.lookup q with
  | none => simp [viewAt, h]
  | some v => cases v <;> simp [viewAt, h]

theorem viewAt_eq_file_iff {n : Node} {q : List String} {c : String} :
    viewAt n q = some (some c) ↔ n.lookup q = some (.file c) := by
  cases h : n.lookup q with
  | none => simp [viewAt, h]
  | some v => cases v <;> simp [viewAt, h]

theorem viewIn_some (n : Node) (q : List String) :
    viewIn (some n) q = viewAt n q := rfl

theorem memStr_iff_mem {x : String} {l : List String} :
    memStr x l = true ↔ x ∈ l := by
  induction l with
  | nil => simp [memStr]
  | cons a t ih =>
    by_cases h : a = x
    · subst h
      simp [memStr]
    · rw [memStr, if_neg h, ih]
      constructor
      · exact fun hm => List.mem_cons_of_mem _ hm
      · intro hm
        rcases List.mem_cons.mp hm with h1 | h2
        · exact absurd h1.symm h
        · exact h2

theorem memStr_append (x : String) (l1 l2 : List String) :
    memStr x (l1 ++ l2) = (memStr x l1 || memStr x l2) := by
  induction l1 with
  | nil => rfl
  | cons a t ih =>
    rw [List.cons_append, memStr, memStr]
    split
    · rfl
    · exact ih

theorem nodupStr_append_single {l : List String} {s : String}
    (h : nodupStr l = true) (hm : memStr s l = false) :
    nodupStr (l ++ [s]) = true := by
  induction l with
  | nil => rfl
  | cons a t ih =>
    rw [nodupStr, Bool.and_eq_true] at h
    rw [memStr] at hm
    split at hm
    · cases hm
    · rename_i hne
      rw [List.cons_append, nodupStr, Bool.and_eq_true]
      refine ⟨?_, ih h.2 hm⟩
      rw [memStr_append]
      have h1 : memStr a t = false := by
        rcases hma : memStr a t with _ | _
        · rfl
        · rw [hma] at h; simp at h
      rw [h1]
      have h2 : memStr a [s] = false := by
        rw [memStr, if_neg (fun he => hne he.symm)]
        rfl
      rw [h2]
      rfl

theorem mem_fileNames {es : List (String × Node)} {f : String} :
    f ∈ fileNames es ↔ ∃ c, (f, Node.file c) ∈ es := by
  unfold fileNames
  rw [List.mem_filterMap]
  constructor
  · rintro ⟨⟨n, v⟩, hm, hv⟩
    cases v with
    | file c =>
      rw [Option.some_inj] at hv
      subst hv
      exact ⟨c, hm⟩
    | dir es2 => cases hv
  · rintro ⟨c, hm⟩
    exact ⟨(f, .file c), hm, rfl⟩

theorem mem_dirNames {es : List (String × Node)} {d : String} :
    d ∈ dirNames es ↔ ∃ es2, (d, Node.dir es2) ∈ es := by
  unfold dirNames
  rw [List.mem_filterMap]
  constructor
  · rintro ⟨⟨n, v⟩, hm, hv⟩
    cases v with
    | file c => cases hv
    | dir es2 =>
      rw [Option.some_inj] at hv
      subst hv
      exact ⟨es2, hm⟩
  · rintro ⟨es2, hm⟩
    exact ⟨(d, .dir es2), hm, rfl⟩

theorem findEntry_of_fileNames {es : List (String × Node)} {f : String}
    (hnd : nodupStr (es.map Prod.fst) = true) (hf : f ∈ fileNames es) :
    ∃ c, findEntry es f = some (.file c) := by
  obtain ⟨c, hm⟩ := mem_fileNames.mp hf
  exact ⟨c, findEntry_of_mem_nodup hnd hm⟩

theorem findEntry_of_dirNames {es : List (String × Node)} {d : String}
    (hnd : nodupStr (es.map Prod.fst) = true) (hd : d ∈ dirNames es) :
    ∃ es2, findEntry es d = some (.dir es2) := by
  obtain ⟨es2, hm⟩ := mem_dirNames.mp hd
  exact ⟨es2, findEntry_of_mem_nodup hnd hm⟩

theorem fileNames_ne_dirNames {es : List (String × Node)}
    (hnd : nodupStr (es.map Prod.fst) = true) {f d : String}
    (hf : f ∈ fileNames es) (hd : d ∈ dirNames es) : f ≠ d := by
  intro he
  subst he
  obtain ⟨c, hc⟩ := findEntry_of_fileNames hnd hf
  obtain ⟨es2, he2⟩ := findEntry_of_dirNames hnd hd
  rw [hc] at he2
  cases he2

theorem memStr_fileNames_sub : ∀ {es : List (String × Node)} {x : String},
    memStr x (fileNames es) = true → memStr x (es.map Prod.fst) = true := by
  intro es
  induction es with
  | nil => intro x h; cases h
  | cons e rest ih =>
    rcases e with ⟨n, v⟩
    intro x h
    rw [List.map_cons, memStr]
    by_cases hn : n = x
    · rw [if_pos hn]
    · rw [if_neg hn]
      cases v with
      | file c =>
        rw [show fileNames ((n, Node.file c) :: rest) = n :: fileNames rest from rfl,
          memStr, if_neg hn] at h
        exact ih h
      | dir es2 =>
        rw [show fileNames ((n, Node.dir es2) :: rest) = fileNames rest from rfl] at h
        exact ih h

theorem memStr_dirNames_sub : ∀ {es : List (String × Node)} {x : String},
    memStr x (dirNames es) = true → memStr x (es.map Prod.fst) = true := by
  intro es
  induction es with
  | nil => intro x h; cases h
  | cons e rest ih =>
    rcases e with ⟨n, v⟩
    intro x h
    rw [List.map_cons, memStr]
    by_cases hn : n = x
    · rw [if_pos hn]
    · rw [if_neg hn]
      cases v with
      | file c =>
        rw [show dirNames ((n, Node.file c) :: rest) = dirNames rest from rfl] at h
        exact ih h
      | dir es2 =>
        rw [show dirNames ((n, Node.dir es2) :: rest) = n :: dirNames rest from rfl,
          memStr, if_neg hn] at h
        exact ih h

theorem nodupStr_fileNames : ∀ {es : List (String × Node)},
    nodupStr (es.map Prod.fst) = true → nodupStr (fileNames es) = true := by
  intro es
  induction es with
  | nil => intro h; rfl
  | cons e rest ih =>
    rcases e with ⟨n, v⟩
    intro h
    rw [List.map_cons, nodupStr, Bool.and_eq_true] at h
    cases v with
    | file c =>
      rw [show fileNames ((n, Node.file c) :: rest) = n :: fileNames rest from rfl,
        nodupStr, Bool.and_eq_true]
      refine ⟨?_, ih h.2⟩
      rcases hm : memStr n (fileNames rest) with _ | _
      · rfl
      · have := memStr_fileNames_sub hm
        rw [this] at h
        rcases h with ⟨h1, _⟩
        simp at h1
    | dir es2 =>
      rw [show fileNames ((n, Node.dir es2) :: rest) = fileNames rest from rfl]
      exact ih h.2

theorem nodupStr_dirNames : ∀ {es : List (String × Node)},
    nodupStr (es.map Prod.fst) = true → nodupStr (dirNames es) = true := by
  intro es
  induction es with
  | nil => intro h; rfl
  | cons e rest ih =>
    rcases e with ⟨n, v⟩
    intro h
    rw [List.map_cons, nodupStr, Bool.and_eq_true] at h
    cases v with
    | dir es2 =>
      rw [show dirNames ((n, Node.dir es2) :: rest) = n :: dirNames rest from rfl,
        nodupStr, Bool.and_eq_true]
      refine ⟨?_, ih h.2⟩
      rcases hm : memStr n (dirNames rest) with _ | _
      · rfl
      · have := memStr_dirNames_sub hm
        rw [this] at h
        rcases h with ⟨h1, _⟩
        simp at h1
    | file c =>
      rw [show dirNames ((n, Node.file c) :: rest) = dirNames rest from rfl]
      exact ih h.2

/-! ## Well-formedness preservation lemmas -/

theorem wfbEntries_append (es fs : List (String × Node)) :
    wfbEntries (es ++ fs) = (wfbEntries es && wfbEntries fs) := by
  induction es with
  | nil => rfl
  | cons e rest ih =>
    rcases e with ⟨n, v⟩
    rw [List.cons_append, wfbEntries, wfbEntries, ih, Bool.and_assoc]

theorem wfbEntries_setEntry {es : List (String × Node)} {s : String} {v : Node}
    (h : wfbEntries es = true) (hv : v.wfb = true) :
    wfbEntries (setEntry es s v) = true := by
  induction es with
  | nil => rfl
  | cons e rest ih =>
    rcases e with ⟨n, u⟩
    rw [wfbEntries, Bool.and_eq_true] at h
    by_cases hn : n = s
    · rw [setEntry, if_pos hn, wfbEntries, Bool.and_eq_true]
      exact ⟨hv, h.2⟩
    · rw [setEntry, if_neg hn, wfbEntries, Bool.and_eq_true]
      exact ⟨h.1, ih h.2⟩

theorem wfbEntries_eraseEntry {es : List (String × Node)} {s : String}
    (h : wfbEntries es = true) : wfbEntries (eraseEntry es s) = true := by
  induction es with
  | nil => rfl
  | cons e rest ih =>
    rcases e with ⟨n, u⟩
    rw [wfbEntries, Bool.and_eq_true] at h
    by_cases hn : n = s
    · rw [eraseEntry, if_pos hn]
      exact h.2
    · rw [eraseEntry, if_neg hn, wfbEntries, Bool.and_eq_true]
      exact ⟨h.1, ih h.2⟩

theorem memStr_eraseEntry_sub : ∀ {es : List (String × Node)} {s x : String},
    memStr x ((eraseEntry es s).map Prod.fst) = true →
      memStr x (es.map Prod.fst) = true := by
  intro es
  induction es with
  | nil => intro s x h; cases h
  | cons e rest ih =>
    rcases e with ⟨n, u⟩
    intro s x h
    rw [List.map_cons, memStr]
    by_cases hn : n = x
    · rw [if_pos hn]
    · rw [if_neg hn]
      by_cases hs : n = s
      · rw [eraseEntry, if_pos hs] at h
        exact h
      · rw [eraseEntry, if_neg hs, List.map_cons, memStr, if_neg hn] at h
        exact ih h

theorem nodupStr_eraseEntry {es : List (String × Node)} {s : String}
    (h : nodupStr (es.map Prod.fst) = true) :
    nodupStr ((eraseEntry es s).map Prod.fst) = true := by
  induction es with
  | nil => rfl
  | cons e rest ih =>
    rcases e with ⟨n, u⟩
    rw [List.map_cons, nodupStr, Bool.and_eq_true] at h
    by_cases hs : n = s
    · rw [eraseEntry, if_pos hs]
      exact h.2
    · rw [eraseEntry, if_neg hs, List.map_cons, nodupStr, Bool.and_eq_true]
      refine ⟨?_, ih h.2⟩
      rcases hm : memStr n ((eraseEntry rest s).map Prod.fst) with _ | _
      · rfl
      · have := memStr_eraseEntry_sub hm
        rw [this] at h
        rcases h with ⟨h1, _⟩
        simp at h1

theorem wfb_dir (es : List (String × Node)) :
    (Node.dir es).wfb = (nodupStr (es.map Prod.fst) && wfbEntries es) := rfl

theorem wfb_lookup : ∀ (q : List String) (n : Node), n.wfb = true →
    ∀ v, n.lookup q = some v → v.wfb = true := by
  intro q
  induction q with
  | nil =>
    intro n hw v h
    rw [Node.lookup] at h
    cases h
    exact hw
  | cons s rest ih =>
    intro n hw v h
    cases n with
    | file c => cases h
    | dir es =>
      rw [Node.lookup] at h
      cases hf : findEntry es s with
      | none => rw [hf] at h; cases h
      | some c =>
        rw [hf] at h
        rw [wfb_dir, Bool.and_eq_true] at hw
        exact ih c (wfbEntries_eq_true_of_mem hw.2 (findEntry_mem hf)) v h

theorem lookup_dir_of_append {n : Node} {q r : List String} {v : Node}
    (h : n.lookup (q ++ r) = some v) (hr : r ≠ []) :
    ∃ es, n.lookup q = some (.dir es) := by
  rw [Node.lookup_append] at h
  cases hq : n.lookup q with
  | none => rw [hq] at h; cases h
  | some m =>
    rw [hq] at h
    cases m with
    | file c =>
      cases r with
      | nil => exact absurd rfl hr
      | cons a t =>
        rw [Option.some_bind] at h
        cases h
    | dir es => exact ⟨es, rfl⟩

/-! ## Per-operation specifications: deletion primitives -/

theorem viewAt_cons (es : List (String × Node)) (a : String) (t : List String) :
    viewAt (.dir es) (a :: t) =
      match findEntry es a with
      | some c => viewAt c t
      | none => none := by
  cases hf : findEntry es a with
  | none => simp [viewAt, Node.lookup, hf]
  | some c => simp [viewAt, Node.lookup, hf]

theorem memStr_map_fst_mem {es : List (String × Node)} {s : String}
    (h : memStr s (es.map Prod.fst) = true) : ∃ c, (s, c) ∈ es := by
  induction es with
  | nil => cases h
  | cons e rest ih =>
    rcases e with ⟨n, v⟩
    rw [List.map_cons, memStr] at h
    by_cases hn : n = s
    · subst hn
      exact ⟨v, List.mem_cons_self _ _⟩
    · rw [if_neg hn] at h
      obtain ⟨c, hc⟩ := ih h
      exact ⟨c, List.mem_cons_of_mem _ hc⟩

theorem findEntry_setOrAppend_self (es : List (String × Node)) (s : String)
    (v : Node) : findEntry (setOrAppend es s v) s = some v := by
  unfold setOrAppend
  cases hf : findEntry es s with
  | some c => exact findEntry_setEntry_self hf v
  | none =>
    rw [findEntry_append_single, hf, if_pos rfl]

theorem findEntry_setOrAppend_ne (es : List (String × Node)) {s x : String}
    (hx : x ≠ s) (v : Node) :
    findEntry (setOrAppend es s v) x = findEntry es x := by
  unfold setOrAppend
  cases hf : findEntry es s with
  | some c => exact findEntry_setEntry_ne hx v
  | none =>
    rw [findEntry_append_single, if_neg (fun he => hx he.symm)]
    cases findEntry es x <;> rfl

theorem unlinkF_ok : ∀ (p : List String) (n : Node) (c : String), p ≠ [] →
    n.lookup p = some (.file c) → ∃ n', unlinkF n p = .ok n' := by
  intro p
  induction p with
  | nil => intro n c h; exact absurd rfl h
  | cons s rest ih =>
    intro n c _ hl
    cases n with
    | file c2 => exact Option.noConfusion hl
    | dir es =>
      rw [Node.lookup] at hl
      cases hf : findEntry es s with
      | none => rw [hf] at hl; exact Option.noConfusion hl
      | some ch =>
        rw [hf] at hl
        have hl2 : ch.lookup rest = some (Node.file c) := hl
        cases rest with
        | nil =>
          have hch : ch = Node.file c := Option.some.inj hl2
          subst hch
          refine ⟨.dir (eraseEntry es s), ?_⟩
          simp only [unlinkF]
          rw [hf]
        | cons b t =>
          obtain ⟨n2, hn2⟩ := ih ch c (by simp) hl2
          refine ⟨.dir (setEntry es s n2), ?_⟩
          simp only [unlinkF]
          rw [hf]
          show (do
            let c2 ← unlinkF ch (b :: t)
            Except.ok (Node.dir (setEntry es s c2))) =
              Except.ok (Node.dir (setEntry es s n2))
          rw [hn2]
          rfl

theorem rmtreeF_ok : ∀ (p : List String) (n : Node) (es2 : List (String × Node)),
    p ≠ [] → n.lookup p = some (.dir es2) → ∃ n', rmtreeF n p = .ok n' := by
  intro p
  induction p with
  | nil => intro n es2 h; exact absurd rfl h
  | cons s rest ih =>
    intro n es2 _ hl
    cases n with
    | file c2 => exact Option.noConfusion hl
    | dir es =>
      rw [Node.lookup] at hl
      cases hf : findEntry es s with
      | none => rw [hf] at hl; exact Option.noConfusion hl
      | some ch =>
        rw [hf] at hl
        have hl2 : ch.lookup rest = some (Node.dir es2) := hl
        cases rest with
        | nil =>
          have hch : ch = Node.dir es2 := Option.some.inj hl2
          subst hch
          refine ⟨.dir (eraseEntry es s), ?_⟩
          simp only [rmtreeF]
          rw [hf]
        | cons b t =>
          obtain ⟨n2, hn2⟩ := ih ch es2 (by simp) hl2
          refine ⟨.dir (setEntry es s n2), ?_⟩
          simp only [rmtreeF]
          rw [hf]
          show (do
            let c2 ← rmtreeF ch (b :: t)
            Except.ok (Node.dir (setEntry es s c2))) =
              Except.ok (Node.dir (setEntry es s n2))
          rw [hn2]
          rfl

theorem unlinkF_view : ∀ (p : List String) (n n' : Node), n.wfb = true →
    unlinkF n p = .ok n' →
    ∀ q, viewAt n' q = if p <+: q then none else viewAt n q := by
  intro p
  induction p with
  | nil => intro n n' _ h; exact Except.noConfusion h
  | cons s rest ih =>
    intro n n' hw h q
    cases rest with
    | nil =>
      cases n with
      | file c => exact Except.noConfusion h
      | dir es =>
        rw [wfb_dir, Bool.and_eq_true] at hw
        simp only [unlinkF] at h
        cases hf : findEntry es s with
        | none => rw [hf] at h; exact Except.noConfusion h
        | some v =>
          rw [hf] at h
          cases v with
          | dir es2 => exact Except.noConfusion h
          | file c =>
            have h2 : Except.ok (Node.dir (eraseEntry es s)) = Except.ok n' := h
            have hn' : n' = .dir (eraseEntry es s) := (Except.ok.inj h2).symm
            subst hn'
            cases q with
            | nil =>
              rw [if_neg (by simp [List.prefix_nil])]
              rfl
            | cons a t =>
              by_cases ha : s = a
              · subst ha
                rw [if_pos ((List.cons_prefix_cons).mpr ⟨rfl, List.nil_prefix⟩)]
                rw [viewAt_cons, findEntry_eraseEntry_self hw.1]
              · rw [if_neg (fun hc => ha ((List.cons_prefix_cons).mp hc).1)]
                rw [viewAt_cons, viewAt_cons,
                  findEntry_eraseEntry_ne (fun he => ha he.symm)]
    | cons b t0 =>
      cases n with
      | file c => exact Except.noConfusion h
      | dir es =>
        rw [wfb_dir, Bool.and_eq_true] at hw
        simp only [unlinkF] at h
        cases hf : findEntry es s with
        | none => rw [hf] at h; exact Except.noConfusion h
        | some ch =>
          rw [hf] at h
          have h3 : (do
            let c2 ← unlinkF ch (b :: t0)
            Except.ok (Node.dir (setEntry es s c2))) = Except.ok n' := h
          rcases hu : unlinkF ch (b :: t0) with e | c1
          · rw [hu] at h3
            have h2 : (Except.error e : Except Unit Node) = Except.ok n' := h3
            exact Except.noConfusion h2
          · rw [hu] at h3
            have h2 : Except.ok (Node.dir (setEntry es s c1)) = Except.ok n' := h3
            have hn' := (Except.ok.inj h2).symm
            subst hn'
            have hchw : ch.wfb = true :=
              wfbEntries_eq_true_of_mem hw.2 (findEntry_mem hf)
            cases q with
            | nil =>
              rw [if_neg (by simp [List.prefix_nil])]
              rfl
            | cons a t =>
              by_cases ha : s = a
              · subst ha
                rw [viewAt_cons (setEntry es s c1) s t,
                  findEntry_setEntry_self hf]
                rw [viewAt_cons es s t, hf]
                show viewAt c1 t =
                  if s :: b :: t0 <+: s :: t then none else viewAt ch t
                rw [ih ch c1 hchw hu t]
                by_cases hp : (b :: t0) <+: t
                · rw [if_pos hp, if_pos ((List.cons_prefix_cons).mpr ⟨rfl, hp⟩)]
                · rw [if_neg hp,
                    if_neg (fun hc => hp ((List.cons_prefix_cons).mp hc).2)]
              · rw [if_neg (fun hc => ha ((List.cons_prefix_cons).mp hc).1)]
                rw [viewAt_cons, viewAt_cons,
                  findEntry_setEntry_ne (fun he => ha he.symm)]

theorem rmtreeF_view : ∀ (p : List String) (n n' : Node), n.wfb = true →
    rmtreeF n p = .ok n' →
    ∀ q, viewAt n' q = if p <+: q then none else viewAt n q := by
  intro p
  induction p with
  | nil => intro n n' _ h; exact Except.noConfusion h
  | cons s rest ih =>
    intro n n' hw h q
    cases rest with
    | nil =>
      cases n with
      | file c => exact Except.noConfusion h
      | dir es =>
        rw [wfb_dir, Bool.and_eq_true] at hw
        simp only [rmtreeF] at h
        cases hf : findEntry es s with
        | none => rw [hf] at h; exact Except.noConfusion h
        | some v =>
          rw [hf] at h
          cases v with
          | file c => exact Except.noConfusion h
          | dir es2 =>
            have h2 : Except.ok (Node.dir (eraseEntry es s)) = Except.ok n' := h
            have hn' : n' = .dir (eraseEntry es s) := (Except.ok.inj h2).symm
            subst hn'
            cases q with
            | nil =>
              rw [if_neg (by simp [List.prefix_nil])]
              rfl
            | cons a t =>
              by_cases ha : s = a
              · subst ha
                rw [if_pos ((List.cons_prefix_cons).mpr ⟨rfl, List.nil_prefix⟩)]
                rw [viewAt_cons, findEntry_eraseEntry_self hw.1]
              · rw [if_neg (fun hc => ha ((List.cons_prefix_cons).mp hc).1)]
                rw [viewAt_cons, viewAt_cons,
                  findEntry_eraseEntry_ne (fun he => ha he.symm)]
    | cons b t0 =>
      cases n with
      | file c => exact Except.noConfusion h
      | dir es =>
        rw [wfb_dir, Bool.and_eq_true] at hw
        simp only [rmtreeF] at h
        cases hf : findEntry es s with
        | none => rw [hf] at h; exact Except.noConfusion h
        | some ch =>
          rw [hf] at h
          have h3 : (do
            let c2 ← rmtreeF ch (b :: t0)
            Except.ok (Node.dir (setEntry es s c2))) = Except.ok n' := h
          rcases hu : rmtreeF ch (b :: t0) with e | c1
          · rw [hu] at h3
            have h2 : (Except.error e : Except Unit Node) = Except.ok n' := h3
            exact Except.noConfusion h2
          · rw [hu] at h3
            have h2 : Except.ok (Node.dir (setEntry es s c1)) = Except.ok n' := h3
            have hn' := (Except.ok.inj h2).symm
            subst hn'
            have hchw : ch.wfb = true :=
              wfbEntries_eq_true_of_mem hw.2 (findEntry_mem hf)
            cases q with
            | nil =>
              rw [if_neg (by simp [List.prefix_nil])]
              rfl
            | cons a t =>
              by_cases ha : s = a
              · subst ha
                rw [viewAt_cons (setEntry es s c1) s t,
                  findEntry_setEntry_self hf]
                rw [viewAt_cons es s t, hf]
                show viewAt c1 t =
                  if s :: b :: t0 <+: s :: t then none else viewAt ch t
                rw [ih ch c1 hchw hu t]
                by_cases hp : (b :: t0) <+: t
                · rw [if_pos hp, if_pos ((List.cons_prefix_cons).mpr ⟨rfl, hp⟩)]
                · rw [if_neg hp,
                    if_neg (fun hc => hp ((List.cons_prefix_cons).mp hc).2)]
              · rw [if_neg (fun hc => ha ((List.cons_prefix_cons).mp hc).1)]
                rw [viewAt_cons, viewAt_cons,
                  findEntry_setEntry_ne (fun he => ha he.symm)]

theorem unlinkF_lookup_frame : ∀ (p : List String) (n n' : Node),
    unlinkF n p = .ok n' →
    ∀ q, ¬ p <+: q → ¬ q <+: p → n'.lookup q = n.lookup q := by
  intro p
  induction p with
  | nil => intro n n' h; exact Except.noConfusion h
  | cons s rest ih =>
    intro n n' h q hq1 hq2
    cases rest with
    | nil =>
      cases n with
      | file c => exact Except.noConfusion h
      | dir es =>
        simp only [unlinkF] at h
        cases hf : findEntry es s with
        | none => rw [hf] at h; exact Except.noConfusion h
        | some v =>
          rw [hf] at h
          cases v with
          | dir es2 => exact Except.noConfusion h
          | file c =>
            have h2 : Except.ok (Node.dir (eraseEntry es s)) = Except.ok n' := h
            have hn' : n' = .dir (eraseEntry es s) := (Except.ok.inj h2).symm
            subst hn'
            cases q with
            | nil => exact absurd List.nil_prefix hq2
            | cons a t =>
              by_cases ha : s = a
              · subst ha
                exact absurd ((List.cons_prefix_cons).mpr
                  ⟨rfl, List.nil_prefix⟩) hq1
              · rw [Node.lookup, Node.lookup,
                  findEntry_eraseEntry_ne (fun he => ha he.symm)]
    | cons b t0 =>
      cases n with
      | file c => exact Except.noConfusion h
      | dir es =>
        simp only [unlinkF] at h
        cases hf : findEntry es s with
        | none => rw [hf] at h; exact Except.noConfusion h
        | some ch =>
          rw [hf] at h
          have h3 : (do
            let c2 ← unlinkF ch (b :: t0)
            Except.ok (Node.dir (setEntry es s c2))) = Except.ok n' := h
          rcases hu : unlinkF ch (b :: t0) with e | c1
          · rw [hu] at h3
            have h2 : (Except.error e : Except Unit Node) = Except.ok n' := h3
            exact Except.noConfusion h2
          · rw [hu] at h3
            have h2 : Except.ok (Node.dir (setEntry es s c1)) = Except.ok n' := h3
            have hn' := (Except.ok.inj h2).symm
            subst hn'
            cases q with
            | nil => exact absurd List.nil_prefix hq2
            | cons a t =>
              by_cases ha : s = a
              · subst ha
                have hp1 : ¬ (b :: t0) <+: t :=
                  fun hp => hq1 ((List.cons_prefix_cons).mpr ⟨rfl, hp⟩)
                have hp2 : ¬ t <+: (b :: t0) :=
                  fun hp => hq2 ((List.cons_prefix_cons).mpr ⟨rfl, hp⟩)
                rw [Node.lookup, Node.lookup, findEntry_setEntry_self hf, hf]
                show c1.lookup t = ch.lookup t
                exact ih ch c1 hu t hp1 hp2
              · rw [Node.lookup, Node.lookup,
                  findEntry_setEntry_ne (fun he => ha he.symm)]

theorem unlinkF_wf : ∀ (p : List String) (n n' : Node), n.wfb = true →
    unlinkF n p = .ok n' → n'.wfb = true := by
  intro p
  induction p with
  | nil => intro n n' _ h; exact Except.noConfusion h
  | cons s rest ih =>
    intro n n' hw h
    cases rest with
    | nil =>
      cases n with
      | file c => exact Except.noConfusion h
      | dir es =>
        rw [wfb_dir, Bool.and_eq_true] at hw
        simp only [unlinkF] at h
        cases hf : findEntry es s with
        | none => rw [hf] at h; exact Except.noConfusion h
        | some v =>
          rw [hf] at h
          cases v with
          | dir es2 => exact Except.noConfusion h
          | file c =>
            have h2 : Except.ok (Node.dir (eraseEntry es s)) = Except.ok n' := h
            have hn' : n' = .dir (eraseEntry es s) := (Except.ok.inj h2).symm
            subst hn'
            rw [wfb_dir, Bool.and_eq_true]
            exact ⟨nodupStr_eraseEntry hw.1, wfbEntries_eraseEntry hw.2⟩
    | cons b t0 =>
      cases n with
      | file c => exact Except.noConfusion h
      | dir es =>
        rw [wfb_dir, Bool.and_eq_true] at hw
        simp only [unlinkF] at h
        cases hf : findEntry es s with
        | none => rw [hf] at h; exact Except.noConfusion h
        | some ch =>
          rw [hf] at h
          have h3 : (do
            let c2 ← unlinkF ch (b :: t0)
            Except.ok (Node.dir (setEntry es s c2))) = Except.ok n' := h
          rcases hu : unlinkF ch (b :: t0) with e | c1
          · rw [hu] at h3
            have h2 : (Except.error e : Except Unit Node) = Except.ok n' := h3
            exact Except.noConfusion h2
          · rw [hu] at h3
            have h2 : Except.ok (Node.dir (setEntry es s c1)) = Except.ok n' := h3
            have hn' := (Except.ok.inj h2).symm
            subst hn'
            have hchw : ch.wfb = true :=
              wfbEntries_eq_true_of_mem hw.2 (findEntry_mem hf)
            have hc1 := ih ch c1 hchw hu
            rw [wfb_dir, Bool.and_eq_true]
            constructor
            · rw [map_fst_setEntry]
              exact hw.1
            · exact wfbEntries_setEntry hw.2 hc1

theorem rmtreeF_lookup_frame : ∀ (p : List String) (n n' : Node),
    rmtreeF n p = .ok n' →
    ∀ q, ¬ p <+: q → ¬ q <+: p → n'.lookup q = n.lookup q := by
  intro p
  induction p with
  | nil => intro n n' h; exact Except.noConfusion h
  | cons s rest ih =>
    intro n n' h q hq1 hq2
    cases rest with
    | nil =>
      cases n with
      | file c => exact Except.noConfusion h
      | dir es =>
        simp only [rmtreeF] at h
        cases hf : findEntry es s with
        | none => rw [hf] at h; exact Except.noConfusion h
        | some v =>
          rw [hf] at h
          cases v with
          | file c => exact Except.noConfusion h
          | dir es2 =>
            have h2 : Except.ok (Node.dir (eraseEntry es s)) = Except.ok n' := h
            have hn' : n' = .dir (eraseEntry es s) := (Except.ok.inj h2).symm
            subst hn'
            cases q with
            | nil => exact absurd List.nil_prefix hq2
            | cons a t =>
              by_cases ha : s = a
              · subst ha
                exact absurd ((List.cons_prefix_cons).mpr
                  ⟨rfl, List.nil_prefix⟩) hq1
              · rw [Node.lookup, Node.lookup,
                  findEntry_eraseEntry_ne (fun he => ha he.symm)]
    | cons b t0 =>
      cases n with
      | file c => exact Except.noConfusion h
      | dir es =>
        simp only [rmtreeF] at h
        cases hf : findEntry es s with
        | none => rw [hf] at h; exact Except.noConfusion h
        | some ch =>
          rw [hf] at h
          have h3 : (do
            let c2 ← rmtreeF ch (b :: t0)
            Except.ok (Node.dir (setEntry es s c2))) = Except.ok n' := h
          rcases hu : rmtreeF ch (b :: t0) with e | c1
          · rw [hu] at h3
            have h2 : (Except.error e : Except Unit Node) = Except.ok n' := h3
            exact Except.noConfusion h2
          · rw [hu] at h3
            have h2 : Except.ok (Node.dir (setEntry es s c1)) = Except.ok n' := h3
            have hn' := (Except.ok.inj h2).symm
            subst hn'
            cases q with
            | nil => exact absurd List.nil_prefix hq2
            | cons a t =>
              by_cases ha : s = a
              · subst ha
                have hp1 : ¬ (b :: t0) <+: t :=
                  fun hp => hq1 ((List.cons_prefix_cons).mpr ⟨rfl, hp⟩)
                have hp2 : ¬ t <+: (b :: t0) :=
                  fun hp => hq2 ((List.cons_prefix_cons).mpr ⟨rfl, hp⟩)
                rw [Node.lookup, Node.lookup, findEntry_setEntry_self hf, hf]
                show c1.lookup t = ch.lookup t
                exact ih ch c1 hu t hp1 hp2
              · rw [Node.lookup, Node.lookup,
                  findEntry_setEntry_ne (fun he => ha he.symm)]

theorem rmtreeF_wf : ∀ (p : List String) (n n' : Node), n.wfb = true →
    rmtreeF n p = .ok n' → n'.wfb = true := by
  intro p
  induction p with
  | nil => intro n n' _ h; exact Except.noConfusion h
  | cons s rest ih =>
    intro n n' hw h
    cases rest with
    | nil =>
      cases n with
      | file c => exact Except.noConfusion h
      | dir es =>
        rw [wfb_dir, Bool.and_eq_true] at hw
        simp only [rmtreeF] at h
        cases hf : findEntry es s with
        | none => rw [hf] at h; exact Except.noConfusion h
        | some v =>
          rw [hf] at h
          cases v with
          | file c => exact Except.noConfusion h
          | dir es2 =>
            have h2 : Except.ok (Node.dir (eraseEntry es s)) = Except.ok n' := h
            have hn' : n' = .dir (eraseEntry es s) := (Except.ok.inj h2).symm
            subst hn'
            rw [wfb_dir, Bool.and_eq_true]
            exact ⟨nodupStr_eraseEntry hw.1, wfbEntries_eraseEntry hw.2⟩
    | cons b t0 =>
      cases n with
      | file c => exact Except.noConfusion h
      | dir es =>
        rw [wfb_dir, Bool.and_eq_true] at hw
        simp only [rmtreeF] at h
        cases hf : findEntry es s with
        | none => rw [hf] at h; exact Except.noConfusion h
        | some ch =>
          rw [hf] at h
          have h3 : (do
            let c2 ← rmtreeF ch (b :: t0)
            Except.ok (Node.dir (setEntry es s c2))) = Except.ok n' := h
          rcases hu : rmtreeF ch (b :: t0) with e | c1
          · rw [hu] at h3
            have h2 : (Except.error e : Except Unit Node) = Except.ok n' := h3
            exact Except.noConfusion h2
          · rw [hu] at h3
            have h2 : Except.ok (Node.dir (setEntry es s c1)) = Except.ok n' := h3
            have hn' := (Except.ok.inj h2).symm
            subst hn'
            have hchw : ch.wfb = true :=
              wfbEntries_eq_true_of_mem hw.2 (findEntry_mem hf)
            have hc1 := ih ch c1 hchw hu
            rw [wfb_dir, Bool.and_eq_true]
            constructor
            · rw [map_fst_setEntry]
              exact hw.1
            · exact wfbEntries_setEntry hw.2 hc1

/-! ## Per-operation specifications: `mkdirp` -/

theorem mkdirp_view : ∀ (p : List String) (n n' : Node),
    mkdirp n p = .ok n' →
    ∀ q, viewAt n' q = if q <+: p then some none else viewAt n q := by
  intro p
  induction p with
  | nil =>
    intro n n' h q
    cases n with
    | file c => exact Except.noConfusion h
    | dir es =>
      have h2 : Except.ok (Node.dir es) = Except.ok n' := h
      have hn' := (Except.ok.inj h2).symm
      subst hn'
      cases q with
      | nil =>
        rw [if_pos (List.prefix_refl [])]
        rfl
      | cons a t => rw [if_neg (by simp [List.prefix_nil])]
  | cons s rest ih =>
    intro n n' h q
    cases n with
    | file c => exact Except.noConfusion h
    | dir es =>
      simp only [mkdirp] at h
      cases hf : findEntry es s with
      | some ch =>
        rw [hf] at h
        have h3 : (do
          let c2 ← mkdirp ch rest
          Except.ok (Node.dir (setEntry es s c2))) = Except.ok n' := h
        rcases hu : mkdirp ch rest with e | c1
        · rw [hu] at h3
          have h2 : (Except.error e : Except Unit Node) = Except.ok n' := h3
          exact Except.noConfusion h2
        · rw [hu] at h3
          have h2 : Except.ok (Node.dir (setEntry es s c1)) = Except.ok n' := h3
          have hn' := (Except.ok.inj h2).symm
          subst hn'
          cases q with
          | nil =>
            rw [if_pos List.nil_prefix]
            rfl
          | cons a t =>
            by_cases ha : s = a
            · subst ha
              rw [viewAt_cons (setEntry es s c1) s t, findEntry_setEntry_self hf]
              rw [viewAt_cons es s t, hf]
              show viewAt c1 t =
                if s :: t <+: s :: rest then some none else viewAt ch t
              rw [ih ch c1 hu t]
              by_cases hp : t <+: rest
              · rw [if_pos hp, if_pos ((List.cons_prefix_cons).mpr ⟨rfl, hp⟩)]
              · rw [if_neg hp,
                  if_neg (fun hc => hp ((List.cons_prefix_cons).mp hc).2)]
            · rw [if_neg (fun hc => ha ((List.cons_prefix_cons).mp hc).1.symm)]
              rw [viewAt_cons, viewAt_cons,
                findEntry_setEntry_ne (fun he => ha he.symm)]
      | none =>
        rw [hf] at h
        have h3 : (do
          let c2 ← mkdirp (Node.dir []) rest
          Except.ok (Node.dir (es ++ [(s, c2)]))) = Except.ok n' := h
        rcases hu : mkdirp (Node.dir []) rest with e | c1
        · rw [hu] at h3
          have h2 : (Except.error e : Except Unit Node) = Except.ok n' := h3
          exact Except.noConfusion h2
        · rw [hu] at h3
          have h2 : Except.ok (Node.dir (es ++ [(s, c1)])) = Except.ok n' := h3
          have hn' := (Except.ok.inj h2).symm
          subst hn'
          cases q with
          | nil =>
            rw [if_pos List.nil_prefix]
            rfl
          | cons a t =>
            by_cases ha : s = a
            · subst ha
              rw [viewAt_cons (es ++ [(s, c1)]) s t, findEntry_append_single, hf,
                if_pos rfl]
              rw [viewAt_cons es s t, hf]
              show viewAt c1 t = if s :: t <+: s :: rest then some none else none
              rw [ih (Node.dir []) c1 hu t]
              by_cases hp : t <+: rest
              · rw [if_pos hp, if_pos ((List.cons_prefix_cons).mpr ⟨rfl, hp⟩)]
              · rw [if_neg hp,
                  if_neg (fun hc => hp ((List.cons_prefix_cons).mp hc).2)]
                cases t with
                | nil => exact absurd List.nil_prefix hp
                | cons x xs => rfl
            · rw [if_neg (fun hc => ha ((List.cons_prefix_cons).mp hc).1.symm)]
              rw [viewAt_cons (es ++ [(s, c1)]) a t, viewAt_cons es a t,
                findEntry_append_single]
              cases hg : findEntry es a with
              | some c2 => rfl
              | none => rw [if_neg ha]

theorem mkdirp_ok : ∀ (p : List String) (n : Node),
    (∀ q, q <+: p → ∀ c, n.lookup q ≠ some (.file c)) →
    ∃ n', mkdirp n p = .ok n' := by
  intro p
  induction p with
  | nil =>
    intro n hnf
    cases n with
    | file c =>
      exact absurd (show (Node.file c).lookup [] = some (Node.file c) from rfl)
        (hnf [] (List.prefix_refl []) c)
    | dir es => exact ⟨.dir es, rfl⟩
  | cons s rest ih =>
    intro n hnf
    cases n with
    | file c =>
      exact absurd (show (Node.file c).lookup [] = some (Node.file c) from rfl)
        (hnf [] List.nil_prefix c)
    | dir es =>
      cases hf : findEntry es s with
      | some ch =>
        have hch : ∀ q, q <+: rest → ∀ c, ch.lookup q ≠ some (.file c) := by
          intro q hq c hl
          refine hnf (s :: q) ((List.cons_prefix_cons).mpr ⟨rfl, hq⟩) c ?_
          rw [Node.lookup, hf]
          exact hl
        obtain ⟨c1, hc1⟩ := ih ch hch
        refine ⟨.dir (setEntry es s c1), ?_⟩
        simp only [mkdirp]
        rw [hf]
        show (do
          let c2 ← mkdirp ch rest
          Except.ok (Node.dir (setEntry es s c2))) =
            Except.ok (Node.dir (setEntry es s c1))
        rw [hc1]
        rfl
      | none =>
        have hch : ∀ q, q <+: rest → ∀ c, (Node.dir []).lookup q ≠
            some (.file c) := by
          intro q _ c hl
          cases q with
          | nil => exact Node.noConfusion (Option.some.inj hl)
          | cons x xs => exact Option.noConfusion hl
        obtain ⟨c1, hc1⟩ := ih (Node.dir []) hch
        refine ⟨.dir (es ++ [(s, c1)]), ?_⟩
        simp only [mkdirp]
        rw [hf]
        show (do
          let c2 ← mkdirp (Node.dir []) rest
          Except.ok (Node.dir (es ++ [(s, c2)]))) =
            Except.ok (Node.dir (es ++ [(s, c1)]))
        rw [hc1]
        rfl

theorem mkdirp_wf : ∀ (p : List String) (n n' : Node), n.wfb = true →
    mkdirp n p = .ok n' → n'.wfb = true := by
  intro p
  induction p with
  | nil =>
    intro n n' hw h
    cases n with
    | file c => exact Except.noConfusion h
    | dir es =>
      have h2 : Except.ok (Node.dir es) = Except.ok n' := h
      have hn' := (Except.ok.inj h2).symm
      subst hn'
      exact hw
  | cons s rest ih =>
    intro n n' hw h
    cases n with
    | file c => exact Except.noConfusion h
    | dir es =>
      rw [wfb_dir, Bool.and_eq_true] at hw
      simp only [mkdirp] at h
      cases hf : findEntry es s with
      | some ch =>
        rw [hf] at h
        have h3 : (do
          let c2 ← mkdirp ch rest
          Except.ok (Node.dir (setEntry es s c2))) = Except.ok n' := h
        rcases hu : mkdirp ch rest with e | c1
        · rw [hu] at h3
          have h2 : (Except.error e : Except Unit Node) = Except.ok n' := h3
          exact Except.noConfusion h2
        · rw [hu] at h3
          have h2 : Except.ok (Node.dir (setEntry es s c1)) = Except.ok n' := h3
          have hn' := (Except.ok.inj h2).symm
          subst hn'
          have hchw : ch.wfb = true :=
            wfbEntries_eq_true_of_mem hw.2 (findEntry_mem hf)
          have hc1 := ih ch c1 hchw hu
          rw [wfb_dir, Bool.and_eq_true]
          constructor
          · rw [map_fst_setEntry]
            exact hw.1
          · exact wfbEntries_setEntry hw.2 hc1
      | none =>
        rw [hf] at h
        have h3 : (do
          let c2 ← mkdirp (Node.dir []) rest
          Except.ok (Node.dir (es ++ [(s, c2)]))) = Except.ok n' := h
        rcases hu : mkdirp (Node.dir []) rest with e | c1
        · rw [hu] at h3
          have h2 : (Except.error e : Except Unit Node) = Except.ok n' := h3
          exact Except.noConfusion h2
        · rw [hu] at h3
          have h2 : Except.ok (Node.dir (es ++ [(s, c1)])) = Except.ok n' := h3
          have hn' := (Except.ok.inj h2).symm
          subst hn'
          have hc1 := ih (Node.dir []) c1 rfl hu
          have hmem : memStr s (es.map Prod.fst) = false := by
            rcases hm : memStr s (es.map Prod.fst) with _ | _
            · rfl
            · obtain ⟨c, hcmem⟩ := memStr_map_fst_mem hm
              exact absurd hcmem (findEntry_eq_none_iff.mp hf c)
          rw [wfb_dir, Bool.and_eq_true]
          constructor
          · rw [List.map_append]
            show nodupStr (List.map Prod.fst es ++ [s]) = true
            exact nodupStr_append_single hw.1 hmem
          · rw [wfbEntries_append, Bool.and_eq_true]
            refine ⟨hw.2, ?_⟩
            show (c1.wfb && wfbEntries []) = true
            rw [hc1]
            rfl

/-! ## Per-operation specifications: `writeF` and `copy2` -/

theorem cons_ne_of_head {α : Type} {a b : α} {t u : List α} (h : ¬ a = b) :
    a :: t ≠ b :: u := by
  intro hc
  rw [List.cons.injEq] at hc
  exact h hc.1

theorem cons_ne_of_tail {α : Type} {a b : α} {t u : List α} (h : ¬ t = u) :
    a :: t ≠ b :: u := by
  intro hc
  rw [List.cons.injEq] at hc
  exact h hc.2

theorem writeF_view : ∀ (p : List String) (n n' : Node) (c : String),
    writeF n p c = .ok n' →
    ∀ q, viewAt n' q =
      if q = p then some (some c)
      else if p <+: q then none
      else viewAt n q := by
  intro p
  induction p with
  | nil => intro n n' c h; exact Except.noConfusion h
  | cons s rest ih =>
    intro n n' c h q
    cases rest with
    | nil =>
      cases n with
      | file c2 => exact Except.noConfusion h
      | dir es =>
        simp only [writeF] at h
        have hn' : n' = .dir (setOrAppend es s (.file c)) := by
          cases hf : findEntry es s with
          | none => rw [hf] at h; exact (Except.ok.inj h).symm
          | some v =>
            cases v with
            | file c2 => rw [hf] at h; exact (Except.ok.inj h).symm
            | dir es2 => rw [hf] at h; exact Except.noConfusion h
        subst hn'
        cases q with
        | nil =>
          rw [if_neg (fun hc => List.noConfusion hc),
            if_neg (by simp [List.prefix_nil])]
          rfl
        | cons a t =>
          by_cases ha : s = a
          · subst ha
            cases t with
            | nil =>
              rw [if_pos rfl, viewAt_cons, findEntry_setOrAppend_self]
              rfl
            | cons x xs =>
              rw [if_neg (cons_ne_of_tail (fun hc => List.noConfusion hc))]
              rw [if_pos ((List.cons_prefix_cons).mpr ⟨rfl, List.nil_prefix⟩)]
              rw [viewAt_cons, findEntry_setOrAppend_self]
              rfl
          · rw [if_neg (cons_ne_of_head (fun he => ha he.symm))]
            rw [if_neg (fun hc => ha ((List.cons_prefix_cons).mp hc).1)]
            rw [viewAt_cons, viewAt_cons,
              findEntry_setOrAppend_ne es (fun he => ha he.symm)]
    | cons b t0 =>
      cases n with
      | file c2 => exact Except.noConfusion h
      | dir es =>
        simp only [writeF] at h
        cases hf : findEntry es s with
        | none => rw [hf] at h; exact Except.noConfusion h
        | some ch =>
          rw [hf] at h
          have h3 : (do
            let c2 ← writeF ch (b :: t0) c
            Except.ok (Node.dir (setEntry es s c2))) = Except.ok n' := h
          rcases hu : writeF ch (b :: t0) c with e | c1
          · rw [hu] at h3
            have h2 : (Except.error e : Except Unit Node) = Except.ok n' := h3
            exact Except.noConfusion h2
          · rw [hu] at h3
            have h2 : Except.ok (Node.dir (setEntry es s c1)) = Except.ok n' := h3
            have hn' := (Except.ok.inj h2).symm
            subst hn'
            cases q with
            | nil =>
              rw [if_neg (fun hc => List.noConfusion hc),
                if_neg (by simp [List.prefix_nil])]
              rfl
            | cons a t =>
              by_cases ha : s = a
              · subst ha
                rw [viewAt_cons (setEntry es s c1) s t, findEntry_setEntry_self hf]
                rw [viewAt_cons es s t, hf]
                show viewAt c1 t =
                  if s :: t = s :: b :: t0 then some (some c)
                  else if s :: b :: t0 <+: s :: t then none
                  else viewAt ch t
                rw [ih ch c1 c hu t]
                by_cases h1 : t = b :: t0
                · rw [if_pos h1, if_pos (by rw [h1])]
                · rw [if_neg h1, if_neg (cons_ne_of_tail h1)]
                  by_cases h2 : (b :: t0) <+: t
                  · rw [if_pos h2, if_pos ((List.cons_prefix_cons).mpr ⟨rfl, h2⟩)]
                  · rw [if_neg h2,
                      if_neg (fun hc => h2 ((List.cons_prefix_cons).mp hc).2)]
              · rw [if_neg (cons_ne_of_head (fun he => ha he.symm))]
                rw [if_neg (fun hc => ha ((List.cons_prefix_cons).mp hc).1)]
                rw [viewAt_cons, viewAt_cons,
                  findEntry_setEntry_ne (fun he => ha he.symm)]

theorem writeF_ok : ∀ (inner : List String) (s : String) (n : Node) (c : String),
    (∃ es2, n.lookup inner = some (.dir es2)) →
    (∀ es2, n.lookup (inner ++ [s]) ≠ some (.dir es2)) →
    ∃ n', writeF n (inner ++ [s]) c = .ok n' := by
  intro inner
  induction inner with
  | nil =>
    intro s n c h1 h2
    obtain ⟨es2, hes⟩ := h1
    have hn : n = .dir es2 := Option.some.inj hes
    subst hn
    rw [List.nil_append]
    cases hf : findEntry es2 s with
    | none =>
      refine ⟨.dir (setOrAppend es2 s (.file c)), ?_⟩
      simp only [writeF]
      rw [hf]
    | some v =>
      cases v with
      | file c2 =>
        refine ⟨.dir (setOrAppend es2 s (.file c)), ?_⟩
        simp only [writeF]
        rw [hf]
      | dir es3 =>
        exfalso
        refine h2 es3 ?_
        show (Node.dir es2).lookup ([] ++ [s]) = some (.dir es3)
        rw [List.nil_append, Node.lookup, hf]
        rfl
  | cons a inner2 ih =>
    intro s n c h1 h2
    obtain ⟨es2, hes⟩ := h1
    cases n with
    | file c2 => exact Option.noConfusion hes
    | dir es =>
      rw [Node.lookup] at hes
      cases hf : findEntry es a with
      | none => rw [hf] at hes; exact Option.noConfusion hes
      | some ch =>
        rw [hf] at hes
        have hes2 : ch.lookup inner2 = some (.dir es2) := hes
        have h2b : ∀ es3, ch.lookup (inner2 ++ [s]) ≠ some (.dir es3) := by
          intro es3 hl
          refine h2 es3 ?_
          rw [List.cons_append, Node.lookup, hf]
          exact hl
        obtain ⟨c1, hc1⟩ := ih s ch c ⟨es2, hes2⟩ h2b
        refine ⟨.dir (setEntry es a c1), ?_⟩
        rw [List.cons_append]
        cases hrest : inner2 ++ [s] with
        | nil => exact absurd hrest (by simp)
        | cons b t =>
          rw [hrest] at hc1
          simp only [writeF]
          rw [hf]
          show (do
            let c2 ← writeF ch (b :: t) c
            Except.ok (Node.dir (setEntry es a c2))) =
              Except.ok (Node.dir (setEntry es a c1))
          rw [hc1]
          rfl

theorem writeF_wf : ∀ (p : List String) (n n' : Node) (c : String),
    n.wfb = true → writeF n p c = .ok n' → n'.wfb = true := by
  intro p
  induction p with
  | nil => intro n n' c _ h; exact Except.noConfusion h
  | cons s rest ih =>
    intro n n' c hw h
    cases rest with
    | nil =>
      cases n with
      | file c2 => exact Except.noConfusion h
      | dir es =>
        rw [wfb_dir, Bool.and_eq_true] at hw
        simp only [writeF] at h
        have hn' : n' = .dir (setOrAppend es s (.file c)) := by
          cases hf : findEntry es s with
          | none => rw [hf] at h; exact (Except.ok.inj h).symm
          | some v =>
            cases v with
            | file c2 => rw [hf] at h; exact (Except.ok.inj h).symm
            | dir es2 => rw [hf] at h; exact Except.noConfusion h
        subst hn'
        rw [wfb_dir, Bool.and_eq_true]
        unfold setOrAppend
        cases hf : findEntry es s with
        | some v =>
          constructor
          · rw [map_fst_setEntry]
            exact hw.1
          · exact wfbEntries_setEntry hw.2 rfl
        | none =>
          have hmem : memStr s (es.map Prod.fst) = false := by
            rcases hm : memStr s (es.map Prod.fst) with _ | _
            · rfl
            · obtain ⟨c0, hcmem⟩ := memStr_map_fst_mem hm
              exact absurd hcmem (findEntry_eq_none_iff.mp hf c0)
          constructor
          · rw [List.map_append]
            show nodupStr (List.map Prod.fst es ++ [s]) = true
            exact nodupStr_append_single hw.1 hmem
          · rw [wfbEntries_append, Bool.and_eq_true]
            exact ⟨hw.2, rfl⟩
    | cons b t0 =>
      cases n with
      | file c2 => exact Except.noConfusion h
      | dir es =>
        rw [wfb_dir, Bool.and_eq_true] at hw
        simp only [writeF] at h
        cases hf : findEntry es s with
        | none => rw [hf] at h; exact Except.noConfusion h
        | some ch =>
          rw [hf] at h
          have h3 : (do
            let c2 ← writeF ch (b :: t0) c
            Except.ok (Node.dir (setEntry es s c2))) = Except.ok n' := h
          rcases hu : writeF ch (b :: t0) c with e | c1
          · rw [hu] at h3
            have h2 : (Except.error e : Except Unit Node) = Except.ok n' := h3
            exact Except.noConfusion h2
          · rw [hu] at h3
            have h2 : Except.ok (Node.dir (setEntry es s c1)) = Except.ok n' := h3
            have hn' := (Except.ok.inj h2).symm
            subst hn'
            have hchw : ch.wfb = true :=
              wfbEntries_eq_true_of_mem hw.2 (findEntry_mem hf)
            have hc1 := ih ch c1 c hchw hu
            rw [wfb_dir, Bool.and_eq_true]
            constructor
            · rw [map_fst_setEntry]
              exact hw.1
            · exact wfbEntries_setEntry hw.2 hc1

theorem writeF_self : ∀ (p : List String) (n : Node) (c : String), p ≠ [] →
    n.lookup p = some (.file c) → writeF n p c = .ok n := by
  intro p
  induction p with
  | nil => intro n c h; exact absurd rfl h
  | cons s rest ih =>
    intro n c _ hl
    cases n with
    | file c2 => exact Option.noConfusion hl
    | dir es =>
      rw [Node.lookup] at hl
      cases hf : findEntry es s with
      | none => rw [hf] at hl; exact Option.noConfusion hl
      | some ch =>
        rw [hf] at hl
        have hl2 : ch.lookup rest = some (.file c) := hl
        cases rest with
        | nil =>
          have hch : ch = .file c := Option.some.inj hl2
          subst hch
          simp only [writeF]
          rw [hf]
          show Except.ok (Node.dir (setOrAppend es s (.file c))) =
            Except.ok (Node.dir es)
          unfold setOrAppend
          rw [hf, setEntry_self hf]
        | cons b t =>
          have hc1 := ih ch c (by simp) hl2
          simp only [writeF]
          rw [hf]
          show (do
            let c2 ← writeF ch (b :: t) c
            Except.ok (Node.dir (setEntry es s c2))) = Except.ok (Node.dir es)
          rw [hc1]
          show Except.ok (Node.dir (setEntry es s ch)) = Except.ok (Node.dir es)
          rw [setEntry_self hf]

theorem copy2_not_dir (n : Node) (p : List String) (f c : String)
    (h : ∀ es2, n.lookup p ≠ some (.dir es2)) :
    copy2 n p f c = writeF n p c := by
  unfold copy2
  cases hl : n.lookup p with
  | none => rfl
  | some v =>
    cases v with
    | file c2 => rfl
    | dir es2 => exact absurd hl (h es2)

/-! ## Path and state bridging helpers -/

theorem lookupIn_append (t : Option Node) (p r : List String) :
    lookupIn t (p ++ r) = (lookupIn t p).bind (fun m => m.lookup r) := by
  cases t with
  | none => rfl
  | some n => exact Node.lookup_append n p r

theorem lookupIn_prefix {t : Option Node} {p q : List String} {v : Node}
    (h : lookupIn t q = some v) (hp : p <+: q) : ∃ w, lookupIn t p = some w := by
  obtain ⟨r, hr⟩ := hp
  subst hr
  rw [lookupIn_append] at h
  cases hl : lookupIn t p with
  | none => rw [hl] at h; exact Option.noConfusion h
  | some w => exact ⟨w, rfl⟩

theorem existsAt_eq_false_iff {t : Option Node} {p : List String} :
    existsAt t p = false ↔ lookupIn t p = none := by
  unfold existsAt
  cases lookupIn t p <;> simp

theorem snoc_prefix_snoc_iff {rel : List String} {a b : String} :
    (rel ++ [a]) <+: (rel ++ [b]) ↔ a = b := by
  rw [List.prefix_append_right_inj]
  constructor
  · intro h
    exact ((List.cons_prefix_cons).mp h).1
  · intro h
    subst h
    exact List.prefix_refl _

theorem snoc_prefix_append_iff {rel r : List String} {a b : String} :
    (rel ++ [a]) <+: (rel ++ b :: r) ↔ a = b := by
  rw [List.prefix_append_right_inj, List.cons_prefix_cons]
  simp [List.nil_prefix]

theorem incomp_append {rel ext q : List String}
    (h1 : ¬ rel <+: q) (h2 : ¬ q <+: rel) :
    ¬ (rel ++ ext) <+: q ∧ ¬ q <+: (rel ++ ext) := by
  constructor
  · intro hc
    exact h1 ((List.prefix_append rel ext).trans hc)
  · intro hc
    rcases List.prefix_or_prefix_of_prefix hc (List.prefix_append rel ext) with h | h
    · exact h2 h
    · exact h1 h

theorem doMut_exec {op : MutOp} {g : Node → Except Unit Node} {st : MirrorState}
    {n0 n1 : Node} (hf : st.failed = false) (hd : st.dst = some n0)
    (hok : g n0 = .ok n1) :
    doMut false op (onRoot g) st =
      { st with
          dst := some n1
          logs := st.logs ++ [op]
          muts := st.muts ++ [op] } := by
  unfold doMut
  rw [hf, hd]
  simp only [Bool.false_eq_true, if_false]
  have hroot : onRoot g (some n0) = .ok (some n1) := by
    simp only [onRoot]
    rw [hok]
    rfl
  rw [hroot]

/-! ## Delete pass: the files loop -/

theorem delFiles (ign : List RE) (src : Option Node) (rel : List String) :
    ∀ (fs : List String) (st st' : MirrorState),
    st.failed = false → wfOpt st.dst = true → nodupStr fs = true →
    (∀ f, f ∈ fs → ∃ c, viewIn st.dst (rel ++ [f]) = some (some c)) →
    st' = fs.foldl (fun st f =>
      if existsAt src (rel ++ [f]) then st
      else doMut false (.rm (rel ++ [f]))
        (onRoot (unlinkF · (rel ++ [f]))) st) st →
    st'.failed = false ∧ wfOpt st'.dst = true ∧
    (∀ q, (∀ f, f ∈ fs → ¬ (rel ++ [f]) <+: q) →
      viewIn st'.dst q = viewIn st.dst q) ∧
    (∀ q, (∀ f, f ∈ fs → ¬ (rel ++ [f]) <+: q ∧ ¬ q <+: (rel ++ [f])) →
      lookupIn st'.dst q = lookupIn st.dst q) ∧
    (∀ q, viewIn st'.dst q = viewIn st.dst q ∨ viewIn st'.dst q = none) ∧
    (∀ q v, lookupIn src q = some v → viewIn st'.dst q = viewIn st.dst q) ∧
    (∀ f, f ∈ fs → existsAt src (rel ++ [f]) = false →
      ∀ q, (rel ++ [f]) <+: q → viewIn st'.dst q = none) := by
  intro fs
  induction fs with
  | nil =>
    intro st st' h1 h2 _ _ hst'
    subst hst'
    exact ⟨h1, h2, fun q _ => rfl, fun q _ => rfl, fun q => Or.inl rfl,
      fun q v _ => rfl, fun f hf => absurd hf (List.not_mem_nil f)⟩
  | cons f0 rest ih =>
    intro st st' h1 h2 h3 h4 hst'
    rw [List.foldl_cons] at hst'
    rw [nodupStr, Bool.and_eq_true] at h3
    obtain ⟨h3a, h3b⟩ := h3
    have h31 : memStr f0 rest = false := by
      rcases hm2 : memStr f0 rest with _ | _
      · rfl
      · rw [hm2] at h3a
        simp at h3a
    rcases hex : existsAt src (rel ++ [f0]) with _ | _
    · rw [if_neg (by rw [hex]; exact Bool.false_ne_true)] at hst'
      obtain ⟨c, hv⟩ := h4 f0 (List.mem_cons_self f0 rest)
      rcases hd0 : st.dst with _ | n0
      · rw [hd0] at hv
        exact Option.noConfusion hv
      · rw [hd0, viewIn_some] at hv
        have hlk : n0.lookup (rel ++ [f0]) = some (.file c) :=
          viewAt_eq_file_iff.mp hv
        have hwf0 : n0.wfb = true := by
          rw [hd0] at h2
          exact h2
        obtain ⟨n1, hok⟩ := unlinkF_ok (rel ++ [f0]) n0 c (by simp) hlk
        rw [doMut_exec h1 hd0 hok] at hst'
        have hst1view : ∀ q, viewIn (some n1 : Option Node) q =
            if (rel ++ [f0]) <+: q then none
            else viewIn (some n0 : Option Node) q := by
          intro q
          rw [viewIn_some, unlinkF_view (rel ++ [f0]) n0 n1 hwf0 hok q,
            viewIn_some]
        have hst1lk : ∀ q, ¬ (rel ++ [f0]) <+: q → ¬ q <+: (rel ++ [f0]) →
            lookupIn (some n1 : Option Node) q =
              lookupIn (some n0 : Option Node) q := by
          intro q hq1 hq2
          show n1.lookup q = n0.lookup q
          exact unlinkF_lookup_frame (rel ++ [f0]) n0 n1 hok q hq1 hq2
        have hwf1 : wfOpt (some n1 : Option Node) = true :=
          unlinkF_wf (rel ++ [f0]) n0 n1 hwf0 hok
        have key := ih { st with
            dst := some n1
            logs := st.logs ++ [MutOp.rm (rel ++ [f0])]
            muts := st.muts ++ [MutOp.rm (rel ++ [f0])] } st'
          h1 hwf1 h3b ?pre hst'
        case pre =>
          intro f hf
          obtain ⟨cf, hcf⟩ := h4 f (List.mem_cons_of_mem f0 hf)
          refine ⟨cf, ?_⟩
          rw [hd0] at hcf
          show viewIn (some n1) (rel ++ [f]) = some (some cf)
          rw [hst1view (rel ++ [f]), if_neg]
          · exact hcf
          · intro hc
            have hff : f0 = f := snoc_prefix_snoc_iff.mp hc
            subst hff
            have hm := memStr_iff_mem.mpr hf
            rw [hm] at h31
            exact Bool.noConfusion h31
        obtain ⟨k1, k2, k3, k4, k5, k6, k7⟩ := key
        refine ⟨k1, k2, ?_, ?_, ?_, ?_, ?_⟩
        · intro q hq
          rw [k3 q (fun f hf => hq f (List.mem_cons_of_mem f0 hf))]
          show viewIn (some n1) q = viewIn (some n0) q
          rw [hst1view q, if_neg (hq f0 (List.mem_cons_self f0 rest))]
        · intro q hq
          rw [k4 q (fun f hf => hq f (List.mem_cons_of_mem f0 hf))]
          show lookupIn (some n1) q = lookupIn (some n0) q
          obtain ⟨hq1, hq2⟩ := hq f0 (List.mem_cons_self f0 rest)
          exact hst1lk q hq1 hq2
        · intro q
          rcases k5 q with h | h
          · rw [h]
            show viewIn (some n1) q = viewIn (some n0) q ∨
              viewIn (some n1) q = none
            rw [hst1view q]
            by_cases hp : (rel ++ [f0]) <+: q
            · rw [if_pos hp]
              exact Or.inr rfl
            · rw [if_neg hp]
              exact Or.inl rfl
          · exact Or.inr h
        · intro q v hsrc
          rw [k6 q v hsrc]
          show viewIn (some n1) q = viewIn (some n0) q
          rw [hst1view q, if_neg]
          intro hp
          obtain ⟨w, hw⟩ := lookupIn_prefix hsrc hp
          rw [existsAt_eq_false_iff] at hex
          rw [hex] at hw
          exact Option.noConfusion hw
        · intro f hf hexf q hq
          rcases List.mem_cons.mp hf with h | h
          · subst h
            rcases k5 q with hh | hh
            · rw [hh]
              show viewIn (some n1) q = none
              rw [hst1view q, if_pos hq]
            · exact hh
          · exact k7 f h hexf q hq
    · rw [if_pos hex] at hst'
      have key := ih st st' h1 h2 h3b
        (fun f hf => h4 f (List.mem_cons_of_mem f0 hf)) hst'
      obtain ⟨k1, k2, k3, k4, k5, k6, k7⟩ := key
      refine ⟨k1, k2,
        fun q hq => k3 q (fun f hf => hq f (List.mem_cons_of_mem f0 hf)),
        fun q hq => k4 q (fun f hf => hq f (List.mem_cons_of_mem f0 hf)),
        k5, k6, ?_⟩
      intro f hf hexf q hq
      rcases List.mem_cons.mp hf with h | h
      · subst h
        rw [hex] at hexf
        exact Bool.noConfusion hexf
      · exact k7 f h hexf q hq

/-! ## Delete pass: the dirs loop -/

theorem delDirs (ign : List RE) (src : Option Node) (rel : List String) :
    ∀ (ds : List String) (st st' : MirrorState),
    st.failed = false → wfOpt st.dst = true → nodupStr ds = true →
    (∀ d, d ∈ ds → viewIn st.dst (rel ++ [d]) = some none) →
    st' = ds.foldl (fun st d =>
      if should_ignore ign [d] then st
      else if existsAt src (rel ++ [d]) then st
      else doMut false (.rmdir (rel ++ [d]))
        (onRoot (rmtreeF · (rel ++ [d]))) st) st →
    st'.failed = false ∧ wfOpt st'.dst = true ∧
    (∀ q, (∀ d, d ∈ ds → ¬ (rel ++ [d]) <+: q) →
      viewIn st'.dst q = viewIn st.dst q) ∧
    (∀ q, (∀ d, d ∈ ds → ¬ (rel ++ [d]) <+: q ∧ ¬ q <+: (rel ++ [d])) →
      lookupIn st'.dst q = lookupIn st.dst q) ∧
    (∀ q, viewIn st'.dst q = viewIn st.dst q ∨ viewIn st'.dst q = none) ∧
    (∀ q v, lookupIn src q = some v → viewIn st'.dst q = viewIn st.dst q) ∧
    (∀ d, d ∈ ds → should_ignore ign [d] = false →
      existsAt src (rel ++ [d]) = false →
      ∀ q, (rel ++ [d]) <+: q → viewIn st'.dst q = none) := by
  intro ds
  induction ds with
  | nil =>
    intro st st' h1 h2 _ _ hst'
    subst hst'
    exact ⟨h1, h2, fun q _ => rfl, fun q _ => rfl, fun q => Or.inl rfl,
      fun q v _ => rfl, fun d hd => absurd hd (List.not_mem_nil d)⟩
  | cons d0 rest ih =>
    intro st st' h1 h2 h3 h4 hst'
    rw [List.foldl_cons] at hst'
    rw [nodupStr, Bool.and_eq_true] at h3
    obtain ⟨h3a, h3b⟩ := h3
    have h31 : memStr d0 rest = false := by
      rcases hm2 : memStr d0 rest with _ | _
      · rfl
      · rw [hm2] at h3a
        simp at h3a
    rcases hign : should_ignore ign [d0] with _ | _
    · rw [if_neg (by rw [hign]; exact Bool.false_ne_true)] at hst'
      rcases hex : existsAt src (rel ++ [d0]) with _ | _
      · rw [if_neg (by rw [hex]; exact Bool.false_ne_true)] at hst'
        have hv := h4 d0 (List.mem_cons_self d0 rest)
        rcases hd0 : st.dst with _ | n0
        · rw [hd0] at hv
          exact Option.noConfusion hv
        · rw [hd0, viewIn_some] at hv
          obtain ⟨es2, hlk⟩ := viewAt_eq_dir_iff.mp hv
          have hwf0 : n0.wfb = true := by
            rw [hd0] at h2
            exact h2
          obtain ⟨n1, hok⟩ := rmtreeF_ok (rel ++ [d0]) n0 es2 (by simp) hlk
          rw [doMut_exec h1 hd0 hok] at hst'
          have hst1view : ∀ q, viewIn (some n1 : Option Node) q =
              if (rel ++ [d0]) <+: q then none
              else viewIn (some n0 : Option Node) q := by
            intro q
            rw [viewIn_some, rmtreeF_view (rel ++ [d0]) n0 n1 hwf0 hok q,
              viewIn_some]
          have hst1lk : ∀ q, ¬ (rel ++ [d0]) <+: q → ¬ q <+: (rel ++ [d0]) →
              lookupIn (some n1 : Option Node) q =
                lookupIn (some n0 : Option Node) q := by
            intro q hq1 hq2
            show n1.lookup q = n0.lookup q
            exact rmtreeF_lookup_frame (rel ++ [d0]) n0 n1 hok q hq1 hq2
          have hwf1 : wfOpt (some n1 : Option Node) = true :=
            rmtreeF_wf (rel ++ [d0]) n0 n1 hwf0 hok
          have key := ih { st with
              dst := some n1
              logs := st.logs ++ [MutOp.rmdir (rel ++ [d0])]
              muts := st.muts ++ [MutOp.rmdir (rel ++ [d0])] } st'
            h1 hwf1 h3b ?pre hst'
          case pre =>
            intro d hd
            have hcf := h4 d (List.mem_cons_of_mem d0 hd)
            rw [hd0] at hcf
            show viewIn (some n1) (rel ++ [d]) = some none
            rw [hst1view (rel ++ [d]), if_neg]
            · exact hcf
            · intro hc
              have hdd : d0 = d := snoc_prefix_snoc_iff.mp hc
              subst hdd
              have hm := memStr_iff_mem.mpr hd
              rw [hm] at h31
              exact Bool.noConfusion h31
          obtain ⟨k1, k2, k3, k4, k5, k6, k7⟩ := key
          refine ⟨k1, k2, ?_, ?_, ?_, ?_, ?_⟩
          · intro q hq
            rw [k3 q (fun d hd => hq d (List.mem_cons_of_mem d0 hd))]
            show viewIn (some n1) q = viewIn (some n0) q
            rw [hst1view q, if_neg (hq d0 (List.mem_cons_self d0 rest))]
          · intro q hq
            rw [k4 q (fun d hd => hq d (List.mem_cons_of_mem d0 hd))]
            show lookupIn (some n1) q = lookupIn (some n0) q
            obtain ⟨hq1, hq2⟩ := hq d0 (List.mem_cons_self d0 rest)
            exact hst1lk q hq1 hq2
          · intro q
            rcases k5 q with h | h
            · rw [h]
              show viewIn (some n1) q = viewIn (some n0) q ∨
                viewIn (some n1) q = none
              rw [hst1view q]
              by_cases hp : (rel ++ [d0]) <+: q
              · rw [if_pos hp]
                exact Or.inr rfl
              · rw [if_neg hp]
                exact Or.inl rfl
            · exact Or.inr h
          · intro q v hsrc
            rw [k6 q v hsrc]
            show viewIn (some n1) q = viewIn (some n0) q
            rw [hst1view q, if_neg]
            intro hp
            obtain ⟨w, hw⟩ := lookupIn_prefix hsrc hp
            rw [existsAt_eq_false_iff] at hex
            rw [hex] at hw
            exact Option.noConfusion hw
          · intro d hd hignd hexd q hq
            rcases List.mem_cons.mp hd with h | h
            · subst h
              rcases k5 q with hh | hh
              · rw [hh]
                show viewIn (some n1) q = none
                rw [hst1view q, if_pos hq]
              · exact hh
            · exact k7 d h hignd hexd q hq
      · rw [if_pos hex] at hst'
        have key := ih st st' h1 h2 h3b
          (fun d hd => h4 d (List.mem_cons_of_mem d0 hd)) hst'
        obtain ⟨k1, k2, k3, k4, k5, k6, k7⟩ := key
        refine ⟨k1, k2,
          fun q hq => k3 q (fun d hd => hq d (List.mem_cons_of_mem d0 hd)),
          fun q hq => k4 q (fun d hd => hq d (List.mem_cons_of_mem d0 hd)),
          k5, k6, ?_⟩
        intro d hd hignd hexd q hq
        rcases List.mem_cons.mp hd with h | h
        · subst h
          rw [hex] at hexd
          exact Bool.noConfusion hexd
        · exact k7 d h hignd hexd q hq
    · rw [if_pos hign] at hst'
      have key := ih st st' h1 h2 h3b
        (fun d hd => h4 d (List.mem_cons_of_mem d0 hd)) hst'
      obtain ⟨k1, k2, k3, k4, k5, k6, k7⟩ := key
      refine ⟨k1, k2,
        fun q hq => k3 q (fun d hd => hq d (List.mem_cons_of_mem d0 hd)),
        fun q hq => k4 q (fun d hd => hq d (List.mem_cons_of_mem d0 hd)),
        k5, k6, ?_⟩
      intro d hd hignd hexd q hq
      rcases List.mem_cons.mp hd with h | h
      · subst h
        rw [hign] at hignd
        exact Bool.noConfusion hignd
      · exact k7 d h hignd hexd q hq

/-! ## More bridging helpers -/

theorem viewIn_eq_match (t : Option Node) (q : List String) :
    viewIn t q = match lookupIn t q with
      | some (.file c) => some (some c)
      | some (.dir _) => some none
      | none => none := by
  cases t with
  | none => rfl
  | some n => rfl

theorem viewIn_eq_of_lookupIn_eq {t t' : Option Node} {q q' : List String}
    (h : lookupIn t q = lookupIn t' q') : viewIn t q = viewIn t' q' := by
  rw [viewIn_eq_match, viewIn_eq_match, h]

theorem not_snoc_prefix_self {rel : List String} {s : String} :
    ¬ (rel ++ [s]) <+: rel := by
  intro h
  have := h.length_le
  simp at this

theorem should_ignore_cons (ign : List RE) (x : String) (xs : List String) :
    should_ignore ign (x :: xs) =
      (should_ignore ign [x] || should_ignore ign xs) := by
  simp [should_ignore]

theorem lookup_file_nonempty (c : String) : ∀ (p : List String), p ≠ [] →
    (Node.file c).lookup p = none := by
  intro p hp
  cases p with
  | nil => exact absurd rfl hp
  | cons a t => rfl

/-! ## Delete pass: folding over the bottom-up walks of an entry list -/

theorem delWalkEntries (ign : List RE) (dstPath : List String) (src : Option Node)
    (hd : should_ignore ign dstPath = false) (rel : List String)
    (hrel : should_ignore ign rel = false) :
    ∀ (es2 : List (String × Node)),
    (∀ s c, (s, c) ∈ es2 →
      ∀ (st st' : MirrorState), st.failed = false → wfOpt st.dst = true →
      should_ignore ign (rel ++ [s]) = false →
      (∀ suf, lookupIn st.dst ((rel ++ [s]) ++ suf) = c.lookup suf) →
      st' = (walkBottomUp (rel ++ [s]) c).foldl
        (deleteBody ign dstPath false src) st →
      st'.failed = false ∧ wfOpt st'.dst = true ∧
      (∀ q, ¬ (rel ++ [s]) <+: q → ¬ q <+: (rel ++ [s]) →
        lookupIn st'.dst q = lookupIn st.dst q) ∧
      (∀ q, q <+: (rel ++ [s]) → viewIn st'.dst q = viewIn st.dst q) ∧
      (∀ q, viewIn st'.dst q = viewIn st.dst q ∨ viewIn st'.dst q = none) ∧
      (∀ q v, lookupIn src q = some v → viewIn st'.dst q = viewIn st.dst q) ∧
      (∀ suf, suf ≠ [] → should_ignore ign suf = false →
        lookupIn src ((rel ++ [s]) ++ suf) = none →
        viewIn st'.dst ((rel ++ [s]) ++ suf) = none) ∧
      (∀ inner f, should_ignore ign inner = false →
        lookupIn src ((rel ++ [s]) ++ inner ++ [f]) = none →
        viewIn st'.dst ((rel ++ [s]) ++ inner ++ [f]) = none ∨
        viewIn st'.dst ((rel ++ [s]) ++ inner ++ [f]) = some none)) →
    nodupStr (es2.map Prod.fst) = true →
    ∀ (st st' : MirrorState), st.failed = false → wfOpt st.dst = true →
    (∀ s c, (s, c) ∈ es2 → ∀ suf,
      lookupIn st.dst ((rel ++ [s]) ++ suf) = c.lookup suf) →
    st' = (walkBottomUpEntries rel es2).foldl
      (deleteBody ign dstPath false src) st →
    st'.failed = false ∧ wfOpt st'.dst = true ∧
    (∀ q, (∀ s c, (s, c) ∈ es2 → ¬ (rel ++ [s]) <+: q ∧ ¬ q <+: (rel ++ [s])) →
      lookupIn st'.dst q = lookupIn st.dst q) ∧
    (∀ q, (∀ s c, (s, c) ∈ es2 → (rel ++ [s]) <+: q → q = rel ++ [s]) →
      viewIn st'.dst q = viewIn st.dst q) ∧
    (∀ q, viewIn st'.dst q = viewIn st.dst q ∨ viewIn st'.dst q = none) ∧
    (∀ q v, lookupIn src q = some v → viewIn st'.dst q = viewIn st.dst q) ∧
    (∀ s c, (s, c) ∈ es2 → should_ignore ign [s] = false →
      ∀ suf, suf ≠ [] → should_ignore ign suf = false →
      lookupIn src ((rel ++ [s]) ++ suf) = none →
      viewIn st'.dst ((rel ++ [s]) ++ suf) = none) ∧
    (∀ s c, (s, c) ∈ es2 → should_ignore ign [s] = false →
      ∀ inner f, should_ignore ign inner = false →
      lookupIn src ((rel ++ [s]) ++ inner ++ [f]) = none →
      viewIn st'.dst ((rel ++ [s]) ++ inner ++ [f]) = none ∨
      viewIn st'.dst ((rel ++ [s]) ++ inner ++ [f]) = some none) := by
  intro es2
  induction es2 with
  | nil =>
    intro _ _ st st' h1 h2 _ hst'
    subst hst'
    exact ⟨h1, h2, fun q _ => rfl, fun q _ => rfl, fun q => Or.inl rfl,
      fun q v _ => rfl,
      fun s c hm => absurd hm (List.not_mem_nil _),
      fun s c hm => absurd hm (List.not_mem_nil _)⟩
  | cons e rest ih =>
    rcases e with ⟨s0, c0⟩
    intro hP hnd st st' h1 h2 hag hst'
    rw [walkBottomUpEntries, List.foldl_append] at hst'
    rw [List.map_cons, nodupStr, Bool.and_eq_true] at hnd
    obtain ⟨hnda, hndb⟩ := hnd
    have h31 : memStr s0 (rest.map Prod.fst) = false := by
      rcases hm2 : memStr s0 (rest.map Prod.fst) with _ | _
      · rfl
      · rw [hm2] at hnda
        simp at hnda
    rcases hig : should_ignore ign [s0] with _ | _
    · have hrel2 : should_ignore ign (rel ++ [s0]) = false := by
        rw [should_ignore_append, hrel, hig]
        rfl
      have hchild := hP s0 c0 (List.mem_cons_self _ _) st
        ((walkBottomUp (rel ++ [s0]) c0).foldl
          (deleteBody ign dstPath false src) st)
        h1 h2 hrel2 (hag s0 c0 (List.mem_cons_self _ _)) rfl
      obtain ⟨a1, a2, a3, a4, a5, a6, a7, a8⟩ := hchild
      have hagrest : ∀ s c, (s, c) ∈ rest → ∀ suf,
          lookupIn ((walkBottomUp (rel ++ [s0]) c0).foldl
            (deleteBody ign dstPath false src) st).dst
            ((rel ++ [s]) ++ suf) = c.lookup suf := by
        intro s c hm suf
        have hne : s0 ≠ s := by
          intro he
          subst he
          rw [mem_map_fst_memStr hm] at h31
          exact Bool.noConfusion h31
        rw [a3 ((rel ++ [s]) ++ suf) ?p1 ?p2]
        · exact hag s c (List.mem_cons_of_mem _ hm) suf
        case p1 =>
          intro hc
          rw [List.append_assoc] at hc
          exact hne (snoc_prefix_append_iff.mp hc)
        case p2 =>
          intro hc
          have hc2 : (rel ++ [s]) <+: (rel ++ [s0]) :=
            (List.prefix_append (rel ++ [s]) suf).trans hc
          exact hne (snoc_prefix_snoc_iff.mp hc2).symm
      have hrest := ih (fun s c hm => hP s c (List.mem_cons_of_mem _ hm)) hndb
        ((walkBottomUp (rel ++ [s0]) c0).foldl
          (deleteBody ign dstPath false src) st) st' a1 a2 hagrest hst'
      obtain ⟨k1, k2, k3, k4, k5, k6, k7, k8⟩ := hrest
      refine ⟨k1, k2, ?_, ?_, ?_, ?_, ?_, ?_⟩
      · intro q hq
        rw [k3 q (fun s c hm => hq s c (List.mem_cons_of_mem _ hm))]
        obtain ⟨hq1, hq2⟩ := hq s0 c0 (List.mem_cons_self _ _)
        exact a3 q hq1 hq2
      · intro q hq
        rw [k4 q (fun s c hm => hq s c (List.mem_cons_of_mem _ hm))]
        by_cases hp : (rel ++ [s0]) <+: q
        · have heq := hq s0 c0 (List.mem_cons_self _ _) hp
          subst heq
          exact a4 (rel ++ [s0]) (List.prefix_refl _)
        · by_cases hp2 : q <+: (rel ++ [s0])
          · exact a4 q hp2
          · exact viewIn_eq_of_lookupIn_eq (a3 q hp hp2)
      · intro q
        rcases k5 q with h | h
        · rw [h]
          exact a5 q
        · exact Or.inr h
      · intro q v hsrc
        rw [k6 q v hsrc]
        exact a6 q v hsrc
      · intro s c hm hig2 suf hsuf hsufign hsrc
        rcases List.mem_cons.mp hm with hh | hh
        · rw [Prod.mk.injEq] at hh
          obtain ⟨hs, hc⟩ := hh
          subst hs
          subst hc
          have hnone := a7 suf hsuf hsufign hsrc
          rcases k5 ((rel ++ [s]) ++ suf) with h | h
          · rw [h]
            exact hnone
          · exact h
        · exact k7 s c hh hig2 suf hsuf hsufign hsrc
      · intro s c hm hig2 inner f hinn hsrc
        rcases List.mem_cons.mp hm with hh | hh
        · rw [Prod.mk.injEq] at hh
          obtain ⟨hs, hc⟩ := hh
          subst hs
          subst hc
          have hval := a8 inner f hinn hsrc
          rcases k5 ((rel ++ [s]) ++ inner ++ [f]) with h | h
          · rw [h]
            exact hval
          · exact Or.inl h
        · exact k8 s c hh hig2 inner f hinn hsrc
    · have hchild : (walkBottomUp (rel ++ [s0]) c0).foldl
          (deleteBody ign dstPath false src) st = st := by
        refine foldl_id _ _ _ fun st2 w hw => ?_
        obtain ⟨suf, hsuf⟩ := walkBottomUp_rel_ext c0 (rel ++ [s0]) w hw
        refine deleteBody_skip ?_
        rw [hsuf]
        have hre : dstPath ++ ((rel ++ [s0]) ++ suf) =
            (dstPath ++ rel) ++ ([s0] ++ suf) := by
          simp
        rw [hre, should_ignore_append, should_ignore_append ign [s0] suf, hig]
        simp
      rw [hchild] at hst'
      have hrest := ih (fun s c hm => hP s c (List.mem_cons_of_mem _ hm)) hndb
        st st' h1 h2 (fun s c hm => hag s c (List.mem_cons_of_mem _ hm)) hst'
      obtain ⟨k1, k2, k3, k4, k5, k6, k7, k8⟩ := hrest
      refine ⟨k1, k2,
        fun q hq => k3 q (fun s c hm => hq s c (List.mem_cons_of_mem _ hm)),
        fun q hq => k4 q (fun s c hm => hq s c (List.mem_cons_of_mem _ hm)),
        k5, k6, ?_, ?_⟩
      · intro s c hm hig2 suf hsuf hsufign hsrc
        rcases List.mem_cons.mp hm with hh | hh
        · rw [Prod.mk.injEq] at hh
          obtain ⟨hs, hc⟩ := hh
          subst hs
          rw [hig] at hig2
          exact Bool.noConfusion hig2
        · exact k7 s c hh hig2 suf hsuf hsufign hsrc
      · intro s c hm hig2 inner f hinn hsrc
        rcases List.mem_cons.mp hm with hh | hh
        · rw [Prod.mk.injEq] at hh
          obtain ⟨hs, hc⟩ := hh
          subst hs
          rw [hig] at hig2
          exact Bool.noConfusion hig2
        · exact k8 s c hh hig2 inner f hinn hsrc

/-! ## Delete pass: one walk item, and the full walk -/

theorem deleteBody_run (ign : List RE) (dstPath : List String) (src : Option Node)
    (st : MirrorState) (rel ds fs : List String)
    (h1 : st.failed = false)
    (hig : should_ignore ign (dstPath ++ rel) = false) :
    deleteBody ign dstPath false src st ⟨rel, ds, fs⟩ =
      ds.foldl (fun st d =>
        if should_ignore ign [d] then st
        else if existsAt src (rel ++ [d]) then st
        else doMut false (.rmdir (rel ++ [d]))
          (onRoot (rmtreeF · (rel ++ [d]))) st)
        (fs.foldl (fun st f =>
          if existsAt src (rel ++ [f]) then st
          else doMut false (.rm (rel ++ [f]))
            (onRoot (unlinkF · (rel ++ [f]))) st) st) := by
  have hig2 : should_ignore ign
      (dstPath ++ (⟨rel, ds, fs⟩ : WalkItem).rel) = false := hig
  unfold deleteBody
  rw [h1]
  rw [if_neg (by exact Bool.false_ne_true)]
  rw [if_neg (by rw [hig2]; exact Bool.false_ne_true)]

theorem delWalk (ign : List RE) (dstPath : List String) (src : Option Node)
    (hd : should_ignore ign dstPath = false) :
    ∀ (m : Node) (rel : List String) (st st' : MirrorState),
    st.failed = false → wfOpt st.dst = true →
    should_ignore ign rel = false →
    (∀ suf, lookupIn st.dst (rel ++ suf) = m.lookup suf) →
    st' = (walkBottomUp rel m).foldl (deleteBody ign dstPath false src) st →
    st'.failed = false ∧ wfOpt st'.dst = true ∧
    (∀ q, ¬ rel <+: q → ¬ q <+: rel →
      lookupIn st'.dst q = lookupIn st.dst q) ∧
    (∀ q, q <+: rel → viewIn st'.dst q = viewIn st.dst q) ∧
    (∀ q, viewIn st'.dst q = viewIn st.dst q ∨ viewIn st'.dst q = none) ∧
    (∀ q v, lookupIn src q = some v → viewIn st'.dst q = viewIn st.dst q) ∧
    (∀ suf, suf ≠ [] → should_ignore ign suf = false →
      lookupIn src (rel ++ suf) = none → viewIn st'.dst (rel ++ suf) = none) ∧
    (∀ inner f, should_ignore ign inner = false →
      lookupIn src (rel ++ inner ++ [f]) = none →
      viewIn st'.dst (rel ++ inner ++ [f]) = none ∨
      viewIn st'.dst (rel ++ inner ++ [f]) = some none) := by
  refine Node.indOn ?_ ?_
  · intro c rel st st' h1 h2 hrel hag hst'
    rw [walkBottomUp, List.foldl_nil] at hst'
    subst hst'
    refine ⟨h1, h2, fun q _ _ => rfl, fun q _ => rfl, fun q => Or.inl rfl,
      fun q v _ => rfl, ?_, ?_⟩
    · intro suf hsuf _ _
      rw [viewIn_eq_match, hag suf, lookup_file_nonempty c suf hsuf]
    · intro inner f _ _
      refine Or.inl ?_
      rw [viewIn_eq_match, List.append_assoc, hag (inner ++ [f]),
        lookup_file_nonempty c (inner ++ [f]) (by simp)]
  · intro es ihP rel st st' h1 h2 hrel hag hst'
    have hag0 : lookupIn st.dst rel = some (Node.dir es) := by
      have h := hag []
      rw [List.append_nil] at h
      exact h
    have hmwf : (Node.dir es).wfb = true := by
      rcases hroot : st.dst with _ | root
      · rw [hroot] at hag0
        exact Option.noConfusion hag0
      · rw [hroot] at hag0
        have hrw : root.wfb = true := by
          rw [hroot] at h2
          exact h2
        exact wfb_lookup rel root hrw _ hag0
    rw [wfb_dir, Bool.and_eq_true] at hmwf
    obtain ⟨hnd, hwfes⟩ := hmwf
    rw [walkBottomUp, List.foldl_append, List.foldl_cons, List.foldl_nil] at hst'
    have hE := delWalkEntries ign dstPath src hd rel hrel es
      (fun s c hm => ihP s c hm (rel ++ [s])) hnd st
      ((walkBottomUpEntries rel es).foldl (deleteBody ign dstPath false src) st)
      h1 h2 ?hagE rfl
    case hagE =>
      intro s c hm suf
      rw [List.append_assoc, hag ([s] ++ suf)]
      show (Node.dir es).lookup (s :: suf) = c.lookup suf
      rw [Node.lookup, findEntry_of_mem_nodup hnd hm]
    obtain ⟨e1, e2, e3, e4, e5, e6, e7, e8⟩ := hE
    rw [deleteBody_run ign dstPath src _ rel (dirNames es) (fileNames es) e1
      (by rw [should_ignore_append, hd, hrel]; rfl)] at hst'
    have hF := delFiles ign src rel (fileNames es) _ _ e1 e2
      (nodupStr_fileNames hnd) ?hFpre rfl
    case hFpre =>
      intro f hf
      obtain ⟨cf, hcf⟩ := findEntry_of_fileNames hnd hf
      refine ⟨cf, ?_⟩
      rw [e4 (rel ++ [f]) ?condF1]
      case condF1 =>
        intro s c hm hp
        rw [snoc_prefix_snoc_iff.mp hp]
      rw [viewIn_eq_match, hag [f], Node.lookup, hcf]
      rfl
    obtain ⟨f1, f2, f3, f4, f5, f6, f7⟩ := hF
    have hD := delDirs ign src rel (dirNames es) _ st' f1 f2
      (nodupStr_dirNames hnd) ?hDpre hst'
    case hDpre =>
      intro d hdm
      obtain ⟨es2, hde⟩ := findEntry_of_dirNames hnd hdm
      rw [f3 (rel ++ [d]) ?condD1]
      case condD1 =>
        intro f hf hp
        exact (fileNames_ne_dirNames hnd hf hdm) (snoc_prefix_snoc_iff.mp hp)
      rw [e4 (rel ++ [d]) ?condD2]
      case condD2 =>
        intro s c hm hp
        rw [snoc_prefix_snoc_iff.mp hp]
      rw [viewIn_eq_match, hag [d], Node.lookup, hde]
      rfl
    obtain ⟨d1, d2, d3, d4, d5, d6, d7⟩ := hD
    refine ⟨d1, d2, ?_, ?_, ?_, ?_, ?_, ?_⟩
    · intro q hq1 hq2
      rw [d4 q (fun d _ => incomp_append hq1 hq2)]
      rw [f4 q (fun f _ => incomp_append hq1 hq2)]
      exact e3 q (fun s c _ => incomp_append hq1 hq2)
    · intro q hq
      rw [d3 q (fun d _ hp => not_snoc_prefix_self (hp.trans hq))]
      rw [f3 q (fun f _ hp => not_snoc_prefix_self (hp.trans hq))]
      exact e4 q (fun s c _ hp => absurd (hp.trans hq) not_snoc_prefix_self)
    · intro q
      rcases d5 q with h | h
      · rw [h]
        rcases f5 q with h2 | h2
        · rw [h2]
          exact e5 q
        · exact Or.inr h2
      · exact Or.inr h
    · intro q v hsrc
      rw [d6 q v hsrc, f6 q v hsrc]
      exact e6 q v hsrc
    · intro suf hsuf hsufign hsrc
      cases suf with
      | nil => exact absurd rfl hsuf
      | cons s suf' =>
        rw [should_ignore_cons] at hsufign
        have hsign : should_ignore ign [s] = false := by
          rcases hres : should_ignore ign [s] with _ | _
          · rfl
          · rw [hres] at hsufign
            exact Bool.noConfusion hsufign
        have hsufign2 : should_ignore ign suf' = false := by
          rcases hres : should_ignore ign suf' with _ | _
          · rfl
          · rw [hres, hsign] at hsufign
            exact Bool.noConfusion hsufign
        cases hfe : findEntry es s with
        | none =>
          have hst0 : viewIn st.dst (rel ++ s :: suf') = none := by
            rw [viewIn_eq_match, hag (s :: suf'), Node.lookup, hfe]
          rcases d5 (rel ++ s :: suf') with h | h
          · rw [h]
            rcases f5 (rel ++ s :: suf') with h2 | h2
            · rw [h2]
              rcases e5 (rel ++ s :: suf') with h3 | h3
              · rw [h3]
                exact hst0
              · exact h3
            · exact h2
          · exact h
        | some v =>
          cases v with
          | file cf =>
            cases suf' with
            | nil =>
              have hmemf : s ∈ fileNames es :=
                mem_fileNames.mpr ⟨cf, findEntry_mem hfe⟩
              have hexf : existsAt src (rel ++ [s]) = false := by
                rw [existsAt_eq_false_iff]
                exact hsrc
              have hdel := f7 s hmemf hexf (rel ++ [s]) (List.prefix_refl _)
              rcases d5 (rel ++ [s]) with h | h
              · rw [h]
                exact hdel
              · exact h
            | cons x xs =>
              have hst0 : viewIn st.dst (rel ++ s :: x :: xs) = none := by
                rw [viewIn_eq_match, hag (s :: x :: xs), Node.lookup, hfe]
                rfl
              rcases d5 (rel ++ s :: x :: xs) with h | h
              · rw [h]
                rcases f5 (rel ++ s :: x :: xs) with h2 | h2
                · rw [h2]
                  rcases e5 (rel ++ s :: x :: xs) with h3 | h3
                  · rw [h3]
                    exact hst0
                  · exact h3
                · exact h2
              · exact h
          | dir cs =>
            have hmemd : s ∈ dirNames es :=
              mem_dirNames.mpr ⟨cs, findEntry_mem hfe⟩
            cases hsrc0 : lookupIn src (rel ++ [s]) with
            | none =>
              have hexd : existsAt src (rel ++ [s]) = false := by
                rw [existsAt_eq_false_iff]
                exact hsrc0
              refine d7 s hmemd hsign hexd (rel ++ s :: suf') ?_
              rw [List.prefix_append_right_inj]
              exact (List.cons_prefix_cons).mpr ⟨rfl, List.nil_prefix⟩
            | some w =>
              cases suf' with
              | nil =>
                rw [hsrc] at hsrc0
                exact Option.noConfusion hsrc0
              | cons x xs =>
                have hch := e7 s (.dir cs) (findEntry_mem hfe) hsign (x :: xs)
                  (by simp) hsufign2 ?hsrc2
                case hsrc2 =>
                  rw [List.append_assoc]
                  exact hsrc
                rw [show rel ++ s :: x :: xs = (rel ++ [s]) ++ (x :: xs) from
                  (List.append_assoc rel [s] (x :: xs)).symm]
                rcases d5 ((rel ++ [s]) ++ (x :: xs)) with h | h
                · rw [h]
                  rcases f5 ((rel ++ [s]) ++ (x :: xs)) with h2 | h2
                  · rw [h2]
                    exact hch
                  · exact h2
                · exact h
    · intro inner f hinn hsrc
      cases inner with
      | nil =>
        rw [List.append_nil] at hsrc
        rw [List.append_nil]
        cases hfe : findEntry es f with
        | none =>
          refine Or.inl ?_
          have hst0 : viewIn st.dst (rel ++ [f]) = none := by
            rw [viewIn_eq_match, hag [f], Node.lookup, hfe]
          rcases d5 (rel ++ [f]) with h | h
          · rw [h]
            rcases f5 (rel ++ [f]) with h2 | h2
            · rw [h2]
              rcases e5 (rel ++ [f]) with h3 | h3
              · rw [h3]
                exact hst0
              · exact h3
            · exact h2
          · exact h
        | some v =>
          cases v with
          | file cf =>
            refine Or.inl ?_
            have hmemf : f ∈ fileNames es :=
              mem_fileNames.mpr ⟨cf, findEntry_mem hfe⟩
            have hexf : existsAt src (rel ++ [f]) = false := by
              rw [existsAt_eq_false_iff]
              exact hsrc
            have hdel := f7 f hmemf hexf (rel ++ [f]) (List.prefix_refl _)
            rcases d5 (rel ++ [f]) with h | h
            · rw [h]
              exact hdel
            · exact h
          | dir cs =>
            have hstE : viewIn ((walkBottomUpEntries rel es).foldl
                (deleteBody ign dstPath false src) st).dst (rel ++ [f]) =
                some none := by
              rw [e4 (rel ++ [f]) ?condC1]
              case condC1 =>
                intro s c hm hp
                rw [snoc_prefix_snoc_iff.mp hp]
              rw [viewIn_eq_match, hag [f], Node.lookup, hfe]
              rfl
            have hst1v := f3 (rel ++ [f]) ?condC2
            case condC2 =>
              intro f2 hf2 hp
              exact (fileNames_ne_dirNames hnd hf2
                (mem_dirNames.mpr ⟨cs, findEntry_mem hfe⟩))
                (snoc_prefix_snoc_iff.mp hp)
            rcases d5 (rel ++ [f]) with h | h
            · rw [h, hst1v, hstE]
              exact Or.inr rfl
            · exact Or.inl h
      | cons s inner2 =>
        rw [should_ignore_cons] at hinn
        have hsign : should_ignore ign [s] = false := by
          rcases hres : should_ignore ign [s] with _ | _
          · rfl
          · rw [hres] at hinn
            exact Bool.noConfusion hinn
        have hinn2 : should_ignore ign inner2 = false := by
          rcases hres : should_ignore ign inner2 with _ | _
          · rfl
          · rw [hres, hsign] at hinn
            exact Bool.noConfusion hinn
        cases hfe : findEntry es s with
        | none =>
          refine Or.inl ?_
          have hlk : (Node.dir es).lookup ((s :: inner2) ++ [f]) = none := by
            show (Node.dir es).lookup (s :: (inner2 ++ [f])) = none
            rw [Node.lookup, hfe]
          have hst0 : viewIn st.dst ((rel ++ s :: inner2) ++ [f]) = none := by
            rw [List.append_assoc, viewIn_eq_match, hag ((s :: inner2) ++ [f]),
              hlk]
          rcases d5 ((rel ++ s :: inner2) ++ [f]) with h | h
          · rw [h]
            rcases f5 ((rel ++ s :: inner2) ++ [f]) with h2 | h2
            · rw [h2]
              rcases e5 ((rel ++ s :: inner2) ++ [f]) with h3 | h3
              · rw [h3]
                exact hst0
              · exact h3
            · exact h2
          · exact h
        | some v =>
          cases v with
          | file cf =>
            refine Or.inl ?_
            have hlk : (Node.dir es).lookup ((s :: inner2) ++ [f]) = none := by
              show (Node.dir es).lookup (s :: (inner2 ++ [f])) = none
              rw [Node.lookup, hfe]
              exact lookup_file_nonempty cf (inner2 ++ [f]) (by simp)
            have hst0 : viewIn st.dst ((rel ++ s :: inner2) ++ [f]) = none := by
              rw [List.append_assoc, viewIn_eq_match,
                hag ((s :: inner2) ++ [f]), hlk]
            rcases d5 ((rel ++ s :: inner2) ++ [f]) with h | h
            · rw [h]
              rcases f5 ((rel ++ s :: inner2) ++ [f]) with h2 | h2
              · rw [h2]
                rcases e5 ((rel ++ s :: inner2) ++ [f]) with h3 | h3
                · rw [h3]
                  exact hst0
                · exact h3
              · exact h2
            · exact h
          | dir cs =>
            have hch := e8 s (.dir cs) (findEntry_mem hfe) hsign inner2 f
              hinn2 ?hsrc3
            case hsrc3 =>
              rw [show (rel ++ [s]) ++ inner2 = rel ++ s :: inner2 from by simp]
              exact hsrc
            rw [show (rel ++ s :: inner2) ++ [f] =
              ((rel ++ [s]) ++ inner2) ++ [f] from by simp]
            rcases d5 (((rel ++ [s]) ++ inner2) ++ [f]) with h | h
            · rw [h]
              rcases f5 (((rel ++ [s]) ++ inner2) ++ [f]) with h2 | h2
              · rw [h2]
                exact hch
              · exact Or.inl h2
            · exact Or.inl h

/-! ## Copy pass: helpers -/

theorem viewIn_eq_none_iff {t : Option Node} {q : List String} :
    viewIn t q = none ↔ lookupIn t q = none := by
  cases t with
  | none => simp [viewIn, lookupIn]
  | some n => exact viewAt_eq_none_iff

theorem viewIn_eq_dir_iff {t : Option Node} {q : List String} :
    viewIn t q = some none ↔ ∃ es, lookupIn t q = some (.dir es) := by
  cases t with
  | none => simp [viewIn, lookupIn]
  | some n => exact viewAt_eq_dir_iff

theorem viewIn_eq_file_iff {t : Option Node} {q : List String} {c : String} :
    viewIn t q = some (some c) ↔ lookupIn t q = some (.file c) := by
  cases t with
  | none => simp [viewIn, lookupIn]
  | some n => exact viewAt_eq_file_iff

theorem prefix_snoc_iff {q rel : List String} {d : String} :
    q <+: rel ++ [d] ↔ q = rel ++ [d] ∨ q <+: rel := by
  constructor
  · intro h
    rcases List.prefix_or_prefix_of_prefix h (List.prefix_append rel [d])
      with h2 | h2
    · exact Or.inr h2
    · rcases Nat.lt_or_ge q.length (rel ++ [d]).length with hl | hl
      · refine Or.inr ?_
        have hlen : rel.length = q.length := by
          have hle := h2.length_le
          simp [List.length_append] at hl
          omega
        have heq : rel = q := h2.eq_of_length hlen
        rw [← heq]
      · exact Or.inl (h.eq_of_length (Nat.le_antisymm h.length_le hl))
  · rintro (h | h)
    · subst h
      exact List.prefix_refl _
    · exact h.trans (List.prefix_append rel [d])

theorem snoc_ne_self {rel : List String} {d : String} : rel ++ [d] ≠ rel := by
  intro h
  have h2 : (rel ++ [d]).length = rel.length := by rw [h]
  simp at h2

theorem copyBody_run (ign : List RE) (srcPath : List String) (src : Option Node)
    (st : MirrorState) (rel ds fs : List String)
    (h1 : st.failed = false)
    (hig : should_ignore ign (srcPath ++ rel) = false) :
    copyBody ign srcPath false src st ⟨rel, ds, fs⟩ =
      fs.foldl (fun st f =>
        if should_ignore ign [f] then st
        else
          let c :=
            match lookupIn src (rel ++ [f]) with
            | some (.file c) => c
            | _ => ""
          doMut false (.copy (rel ++ [f]) c)
            (onRoot (copy2 · (rel ++ [f]) f c)) st)
        (ds.foldl (fun st d =>
          if should_ignore ign [d] then st
          else if existsAt st.dst (rel ++ [d]) then st
          else doMut false (.mkdir (rel ++ [d]))
            (onRoot (mkdirp · (rel ++ [d]))) st) st) := by
  have hig2 : should_ignore ign
      (srcPath ++ (⟨rel, ds, fs⟩ : WalkItem).rel) = false := hig
  unfold copyBody
  rw [h1]
  rw [if_neg (by exact Bool.false_ne_true)]
  rw [if_neg (by rw [hig2]; exact Bool.false_ne_true)]

theorem viewIn_prefix_dir {t : Option Node} {rel q : List String}
    (h : viewIn t rel = some none) (hq : q <+: rel) : viewIn t q = some none := by
  rw [viewIn_eq_dir_iff] at h
  obtain ⟨es0, hes⟩ := h
  obtain ⟨r, hr⟩ := hq
  subst hr
  rw [viewIn_eq_dir_iff]
  cases hl : lookupIn t q with
  | none =>
    rw [lookupIn_append, hl] at hes
    exact Option.noConfusion hes
  | some w =>
    cases w with
    | dir es2 => exact ⟨es2, rfl⟩
    | file c =>
      rw [lookupIn_append, hl] at hes
      cases r with
      | nil => exact Node.noConfusion (Option.some.inj hes)
      | cons a t2 => exact Option.noConfusion hes

/-! ## Copy pass: the dirs loop -/

theorem cpDirs (ign : List RE) (src dst0 : Option Node)
    (hpc : pcompat src dst0) (rel : List String)
    (hrel : should_ignore ign rel = false) :
    ∀ (ds : List String) (st st' : MirrorState),
    st.failed = false → wfOpt st.dst = true → nodupStr ds = true →
    prov ign src dst0 st.dst →
    viewIn st.dst rel = some none →
    (∀ d, d ∈ ds → should_ignore ign [d] = false →
      viewIn src (rel ++ [d]) = some none) →
    st' = ds.foldl (fun st d =>
      if should_ignore ign [d] then st
      else if existsAt st.dst (rel ++ [d]) then st
      else doMut false (.mkdir (rel ++ [d]))
        (onRoot (mkdirp · (rel ++ [d]))) st) st →
    st'.failed = false ∧ wfOpt st'.dst = true ∧
    prov ign src dst0 st'.dst ∧
    (∀ q, (∀ d, d ∈ ds → q ≠ rel ++ [d]) →
      viewIn st'.dst q = viewIn st.dst q) ∧
    (∀ d, d ∈ ds → should_ignore ign [d] = false →
      viewIn st'.dst (rel ++ [d]) = some none) := by
  intro ds
  induction ds with
  | nil =>
    intro st st' h1 h2 _ hprov _ _ hst'
    subst hst'
    exact ⟨h1, h2, hprov, fun q _ => rfl,
      fun d hd => absurd hd (List.not_mem_nil d)⟩
  | cons d0 rest ih =>
    intro st st' h1 h2 h3 hprov hdirat h4 hst'
    rw [List.foldl_cons] at hst'
    rw [nodupStr, Bool.and_eq_true] at h3
    obtain ⟨h3a, h3b⟩ := h3
    have h31 : memStr d0 rest = false := by
      rcases hm2 : memStr d0 rest with _ | _
      · rfl
      · rw [hm2] at h3a
        simp at h3a
    have hne_rest : ∀ d, d ∈ rest → rel ++ [d0] ≠ rel ++ [d] := by
      intro d hd he
      have hdd : d0 = d := snoc_prefix_snoc_iff.mp
        (show (rel ++ [d0]) <+: (rel ++ [d]) by rw [he])
      subst hdd
      rw [memStr_iff_mem.mpr hd] at h31
      exact Bool.noConfusion h31
    rcases hig : should_ignore ign [d0] with _ | _
    · rw [if_neg (by rw [hig]; exact Bool.false_ne_true)] at hst'
      have hfree : should_ignore ign (rel ++ [d0]) = false := by
        rw [should_ignore_append, hrel, hig]
        rfl
      rcases hex : existsAt st.dst (rel ++ [d0]) with _ | _
      · -- target missing: create it
        rw [if_neg (by rw [hex]; exact Bool.false_ne_true)] at hst'
        obtain ⟨es0, hlkrel⟩ := viewIn_eq_dir_iff.mp hdirat
        rcases hd0 : st.dst with _ | n0
        · rw [hd0] at hlkrel
          exact Option.noConfusion hlkrel
        · rw [hd0] at hlkrel
          have hlkrel2 : n0.lookup rel = some (.dir es0) := hlkrel
          rw [existsAt_eq_false_iff, hd0] at hex
          have hex2 : n0.lookup (rel ++ [d0]) = none := hex
          have hwf0 : n0.wfb = true := by
            rw [hd0] at h2
            exact h2
          have hmkok : ∃ n1, mkdirp n0 (rel ++ [d0]) = .ok n1 := by
            refine mkdirp_ok (rel ++ [d0]) n0 ?_
            intro q hq c hlq
            rcases prefix_snoc_iff.mp hq with hq2 | hq2
            · subst hq2
              rw [hlq] at hex2
              exact Option.noConfusion hex2
            · obtain ⟨r, hr⟩ := hq2
              subst hr
              cases r with
              | nil =>
                rw [List.append_nil] at hlkrel2
                rw [hlq] at hlkrel2
                exact Node.noConfusion (Option.some.inj hlkrel2)
              | cons a t2 =>
                obtain ⟨es3, hes3⟩ := lookup_dir_of_append hlkrel2 (by simp)
                rw [hlq] at hes3
                exact Node.noConfusion (Option.some.inj hes3)
          obtain ⟨n1, hok⟩ := hmkok
          rw [doMut_exec h1 hd0 hok] at hst'
          have hview1 : ∀ q, viewIn (some n1 : Option Node) q =
              if q <+: rel ++ [d0] then some none
              else viewIn (some n0 : Option Node) q := by
            intro q
            rw [viewIn_some, mkdirp_view (rel ++ [d0]) n0 n1 hok q, viewIn_some]
          have hwf1 : wfOpt (some n1 : Option Node) = true :=
            mkdirp_wf (rel ++ [d0]) n0 n1 hwf0 hok
          have hdir0 : viewIn (some n0 : Option Node) rel = some none := by
            rw [← hd0]
            exact hdirat
          have hprov0 : prov ign src dst0 (some n0) := by
            rw [← hd0]
            exact hprov
          have hprov1 : prov ign src dst0 (some n1) := by
            intro q
            by_cases hq : q <+: rel ++ [d0]
            · rcases prefix_snoc_iff.mp hq with hq2 | hq2
              · subst hq2
                refine Or.inr (Or.inl ⟨hfree, ?_,
                  h4 d0 (List.mem_cons_self _ _) hig⟩)
                rw [hview1, if_pos hq]
              · have hold : viewIn (some n0 : Option Node) q = some none :=
                  viewIn_prefix_dir hdir0 hq2
                have hnew : viewIn (some n1 : Option Node) q = some none := by
                  rw [hview1, if_pos hq]
                rw [hnew]
                have hpq := hprov0 q
                rw [hold] at hpq
                exact hpq
            · rw [hview1 q, if_neg hq]
              exact hprov0 q
          have hdir1 : viewIn (some n1 : Option Node) rel = some none := by
            rw [hview1, if_pos (List.prefix_append rel [d0])]
          have key := ih { st with
              dst := some n1
              logs := st.logs ++ [MutOp.mkdir (rel ++ [d0])]
              muts := st.muts ++ [MutOp.mkdir (rel ++ [d0])] } st'
            h1 hwf1 h3b hprov1 hdir1
            (fun d hd hig2 => h4 d (List.mem_cons_of_mem _ hd) hig2) hst'
          obtain ⟨k1, k2, k3, k4, k5⟩ := key
          refine ⟨k1, k2, k3, ?_, ?_⟩
          · intro q hq
            rw [k4 q (fun d hd => hq d (List.mem_cons_of_mem _ hd))]
            show viewIn (some n1) q = viewIn (some n0) q
            by_cases hp : q <+: rel ++ [d0]
            · rcases prefix_snoc_iff.mp hp with hp2 | hp2
              · exact absurd hp2 (hq d0 (List.mem_cons_self _ _))
              · rw [hview1, if_pos hp, viewIn_prefix_dir hdir0 hp2]
            · rw [hview1, if_neg hp]
          · intro d hd hig2
            rcases List.mem_cons.mp hd with hh | hh
            · subst hh
              rw [k4 (rel ++ [d]) hne_rest]
              show viewIn (some n1) (rel ++ [d]) = some none
              rw [hview1, if_pos (List.prefix_refl _)]
            · exact k5 d hh hig2
      · -- target already exists: it must be a directory
        rw [if_pos hex] at hst'
        have hd0view : viewIn st.dst (rel ++ [d0]) = some none := by
          have hsrcd := h4 d0 (List.mem_cons_self _ _) hig
          rcases hprov (rel ++ [d0]) with hp | hp | hp
          · cases hv0 : viewIn dst0 (rel ++ [d0]) with
            | none =>
              rw [hv0, viewIn_eq_none_iff] at hp
              have hexf : existsAt st.dst (rel ++ [d0]) = false :=
                existsAt_eq_false_iff.mpr hp
              rw [hexf] at hex
              exact Bool.noConfusion hex
            | some o =>
              cases o with
              | none =>
                rw [hv0] at hp
                exact hp
              | some c => exact absurd hv0 ((hpc (rel ++ [d0])).1 hsrcd c)
          · exact hp.2.1
          · obtain ⟨hfree2, c, hview, hsrcfile⟩ := hp
            rw [hsrcd] at hsrcfile
            exact Option.noConfusion (Option.some.inj hsrcfile)
        have key := ih st st' h1 h2 h3b hprov hdirat
          (fun d hd hig2 => h4 d (List.mem_cons_of_mem _ hd) hig2) hst'
        obtain ⟨k1, k2, k3, k4, k5⟩ := key
        refine ⟨k1, k2, k3,
          fun q hq => k4 q (fun d hd => hq d (List.mem_cons_of_mem _ hd)), ?_⟩
        intro d hd hig2
        rcases List.mem_cons.mp hd with hh | hh
        · subst hh
          rw [k4 (rel ++ [d]) hne_rest]
          exact hd0view
        · exact k5 d hh hig2
    · rw [if_pos hig] at hst'
      have key := ih st st' h1 h2 h3b hprov hdirat
        (fun d hd hig2 => h4 d (List.mem_cons_of_mem _ hd) hig2) hst'
      obtain ⟨k1, k2, k3, k4, k5⟩ := key
      refine ⟨k1, k2, k3,
        fun q hq => k4 q (fun d hd => hq d (List.mem_cons_of_mem _ hd)), ?_⟩
      intro d hd hig2
      rcases List.mem_cons.mp hd with hh | hh
      · subst hh
        rw [hig] at hig2
        exact Bool.noConfusion hig2
      · exact k5 d hh hig2

/-! ## Copy pass: the files loop -/

theorem viewIn_below_nondir {t : Option Node} {p q : List String}
    (hnd : ∀ es2, lookupIn t p ≠ some (.dir es2)) (hpq : p <+: q)
    (hne : q ≠ p) : viewIn t q = none := by
  obtain ⟨r, hr⟩ := hpq
  subst hr
  rw [viewIn_eq_none_iff, lookupIn_append]
  cases hl : lookupIn t p with
  | none => rfl
  | some w =>
    cases w with
    | dir es2 => exact absurd hl (hnd es2)
    | file c =>
      cases r with
      | nil => exact absurd (List.append_nil p) hne
      | cons a t2 => rfl

theorem cpFiles (ign : List RE) (src dst0 : Option Node)
    (hpc : pcompat src dst0) (rel : List String)
    (hrel : should_ignore ign rel = false) :
    ∀ (fs : List String) (st st' : MirrorState),
    st.failed = false → wfOpt st.dst = true → nodupStr fs = true →
    prov ign src dst0 st.dst →
    viewIn st.dst rel = some none →
    (∀ f, f ∈ fs → should_ignore ign [f] = false →
      ∃ c, viewIn src (rel ++ [f]) = some (some c)) →
    st' = fs.foldl (fun st f =>
      if should_ignore ign [f] then st
      else
        let c :=
          match lookupIn src (rel ++ [f]) with
          | some (.file c) => c
          | _ => ""
        doMut false (.copy (rel ++ [f]) c)
          (onRoot (copy2 · (rel ++ [f]) f c)) st) st →
    st'.failed = false ∧ wfOpt st'.dst = true ∧
    prov ign src dst0 st'.dst ∧
    (∀ q, (∀ f, f ∈ fs → q ≠ rel ++ [f]) →
      viewIn st'.dst q = viewIn st.dst q) ∧
    (∀ f, f ∈ fs → should_ignore ign [f] = false →
      ∀ c, viewIn src (rel ++ [f]) = some (some c) →
      viewIn st'.dst (rel ++ [f]) = some (some c)) := by
  intro fs
  induction fs with
  | nil =>
    intro st st' h1 h2 _ hprov _ _ hst'
    subst hst'
    exact ⟨h1, h2, hprov, fun q _ => rfl,
      fun f hf => absurd hf (List.not_mem_nil f)⟩
  | cons f0 rest ih =>
    intro st st' h1 h2 h3 hprov hdirat h4 hst'
    rw [List.foldl_cons] at hst'
    rw [nodupStr, Bool.and_eq_true] at h3
    obtain ⟨h3a, h3b⟩ := h3
    have h31 : memStr f0 rest = false := by
      rcases hm2 : memStr f0 rest with _ | _
      · rfl
      · rw [hm2] at h3a
        simp at h3a
    have hne_rest : ∀ f, f ∈ rest → rel ++ [f0] ≠ rel ++ [f] := by
      intro f hf he
      have hdd : f0 = f := snoc_prefix_snoc_iff.mp
        (show (rel ++ [f0]) <+: (rel ++ [f]) by rw [he])
      subst hdd
      rw [memStr_iff_mem.mpr hf] at h31
      exact Bool.noConfusion h31
    rcases hig : should_ignore ign [f0] with _ | _
    · rw [if_neg (by rw [hig]; exact Bool.false_ne_true)] at hst'
      have hfree : should_ignore ign (rel ++ [f0]) = false := by
        rw [should_ignore_append, hrel, hig]
        rfl
      obtain ⟨cf, hsrcf⟩ := h4 f0 (List.mem_cons_self _ _) hig
      have hlksrc : lookupIn src (rel ++ [f0]) = some (.file cf) :=
        viewIn_eq_file_iff.mp hsrcf
      rw [hlksrc] at hst'
      have hst2 : st' = rest.foldl (fun st f =>
          if should_ignore ign [f] then st
          else
            let c :=
              match lookupIn src (rel ++ [f]) with
              | some (.file c) => c
              | _ => ""
            doMut false (.copy (rel ++ [f]) c)
              (onRoot (copy2 · (rel ++ [f]) f c)) st)
          (doMut false (.copy (rel ++ [f0]) cf)
            (onRoot (copy2 · (rel ++ [f0]) f0 cf)) st) := hst'
      have hnotdirview : viewIn st.dst (rel ++ [f0]) ≠ some none := by
        intro hvd
        rcases hprov (rel ++ [f0]) with hp | hp | hp
        · rw [hvd] at hp
          exact (hpc (rel ++ [f0])).2 cf hsrcf hp.symm
        · obtain ⟨_, _, hps⟩ := hp
          rw [hsrcf] at hps
          exact Option.noConfusion (Option.some.inj hps)
        · obtain ⟨_, c, hpd, _⟩ := hp
          rw [hvd] at hpd
          exact Option.noConfusion (Option.some.inj hpd)
      obtain ⟨es0, hlkrel⟩ := viewIn_eq_dir_iff.mp hdirat
      rcases hd0 : st.dst with _ | n0
      · rw [hd0] at hlkrel
        exact Option.noConfusion hlkrel
      · rw [hd0] at hlkrel
        have hlkrel2 : n0.lookup rel = some (.dir es0) := hlkrel
        have hwf0 : n0.wfb = true := by
          rw [hd0] at h2
          exact h2
        have hnotdir : ∀ es2, n0.lookup (rel ++ [f0]) ≠ some (.dir es2) := by
          intro es2 hl
          refine hnotdirview ?_
          rw [hd0, viewIn_some, viewAt_eq_dir_iff]
          exact ⟨es2, hl⟩
        obtain ⟨n1, hwok⟩ := writeF_ok rel f0 n0 cf ⟨es0, hlkrel2⟩ hnotdir
        have hok : copy2 n0 (rel ++ [f0]) f0 cf = .ok n1 := by
          rw [copy2_not_dir n0 (rel ++ [f0]) f0 cf hnotdir]
          exact hwok
        rw [doMut_exec h1 hd0 hok] at hst2
        have hview1 : ∀ q, viewIn (some n1 : Option Node) q =
            if q = rel ++ [f0] then some (some cf)
            else if rel ++ [f0] <+: q then none
            else viewIn (some n0 : Option Node) q := by
          intro q
          rw [viewIn_some, writeF_view (rel ++ [f0]) n0 n1 cf hwok q,
            viewIn_some]
        have hwf1 : wfOpt (some n1 : Option Node) = true :=
          writeF_wf (rel ++ [f0]) n0 n1 cf hwf0 hwok
        have hdir0 : viewIn (some n0 : Option Node) rel = some none := by
          rw [← hd0]
          exact hdirat
        have hprov0 : prov ign src dst0 (some n0) := by
          rw [← hd0]
          exact hprov
        have hnotdir0 : ∀ es2,
            lookupIn (some n0 : Option Node) (rel ++ [f0]) ≠
              some (.dir es2) := hnotdir
        have hbelow : ∀ q, rel ++ [f0] <+: q → q ≠ rel ++ [f0] →
            viewIn (some n0 : Option Node) q = none := by
          intro q hp hne
          exact viewIn_below_nondir hnotdir0 hp hne
        have hprov1 : prov ign src dst0 (some n1) := by
          intro q
          by_cases hq1 : q = rel ++ [f0]
          · subst hq1
            refine Or.inr (Or.inr ⟨hfree, cf, ?_, hsrcf⟩)
            rw [hview1, if_pos rfl]
          · by_cases hq2 : rel ++ [f0] <+: q
            · have hold := hbelow q hq2 hq1
              have hnew : viewIn (some n1 : Option Node) q = none := by
                rw [hview1, if_neg hq1, if_pos hq2]
              rw [hnew]
              have hpq := hprov0 q
              rw [hold] at hpq
              exact hpq
            · rw [hview1 q, if_neg hq1, if_neg hq2]
              exact hprov0 q
        have hdir1 : viewIn (some n1 : Option Node) rel = some none := by
          rw [hview1, if_neg (fun he => snoc_ne_self he.symm),
            if_neg not_snoc_prefix_self]
          exact hdir0
        have key := ih { st with
            dst := some n1
            logs := st.logs ++ [MutOp.copy (rel ++ [f0]) cf]
            muts := st.muts ++ [MutOp.copy (rel ++ [f0]) cf] } st'
          h1 hwf1 h3b hprov1 hdir1
          (fun f hf hig2 => h4 f (List.mem_cons_of_mem _ hf) hig2) hst2
        obtain ⟨k1, k2, k3, k4, k5⟩ := key
        refine ⟨k1, k2, k3, ?_, ?_⟩
        · intro q hq
          rw [k4 q (fun f hf => hq f (List.mem_cons_of_mem _ hf))]
          show viewIn (some n1) q = viewIn (some n0) q
          have hq1 : q ≠ rel ++ [f0] := hq f0 (List.mem_cons_self _ _)
          by_cases hq2 : rel ++ [f0] <+: q
          · rw [hview1, if_neg hq1, if_pos hq2, hbelow q hq2 hq1]
          · rw [hview1, if_neg hq1, if_neg hq2]
        · intro f hf hig2 c hsc
          rcases List.mem_cons.mp hf with hh | hh
          · subst hh
            have hcc : c = cf := by
              rw [hsrcf] at hsc
              exact (Option.some.inj (Option.some.inj hsc)).symm
            subst hcc
            rw [k4 (rel ++ [f]) hne_rest]
            show viewIn (some n1) (rel ++ [f]) = some (some c)
            rw [hview1, if_pos rfl]
          · exact k5 f hh hig2 c hsc
    · rw [if_pos hig] at hst'
      have key := ih st st' h1 h2 h3b hprov hdirat
        (fun f hf hig2 => h4 f (List.mem_cons_of_mem _ hf) hig2) hst'
      obtain ⟨k1, k2, k3, k4, k5⟩ := key
      refine ⟨k1, k2, k3,
        fun q hq => k4 q (fun f hf => hq f (List.mem_cons_of_mem _ hf)), ?_⟩
      intro f hf hig2 c hsc
      rcases List.mem_cons.mp hf with hh | hh
      · subst hh
        rw [hig] at hig2
        exact Bool.noConfusion hig2
      · exact k5 f hh hig2 c hsc

/-! ## Copy pass: folding over the top-down walks of an entry list -/

theorem wfOpt_lookupIn {t : Option Node} {q : List String} {v : Node}
    (hw : wfOpt t = true) (h : lookupIn t q = some v) : v.wfb = true := by
  cases t with
  | none => exact Option.noConfusion h
  | some n => exact wfb_lookup q n hw v h

theorem lookupIn_snoc_entry {t : Option Node} {rel : List String}
    {es : List (String × Node)} {s : String} {c : Node}
    (h : lookupIn t rel = some (.dir es)) (hf : findEntry es s = some c) :
    lookupIn t (rel ++ [s]) = some c := by
  rw [lookupIn_append, h]
  show (Node.dir es).lookup [s] = some c
  rw [Node.lookup, hf]
  rfl

theorem copyWalkEntries (ign : List RE) (srcPath : List String)
    (src dst0 : Option Node) (hs : should_ignore ign srcPath = false)
    (hpc : pcompat src dst0) (rel : List String)
    (hrel : should_ignore ign rel = false) :
    ∀ (es2 : List (String × Node)),
    (∀ s c, (s, c) ∈ es2 →
      ∀ (st st' : MirrorState), st.failed = false → wfOpt st.dst = true →
      should_ignore ign (rel ++ [s]) = false →
      lookupIn src (rel ++ [s]) = some c →
      viewIn st.dst (rel ++ [s]) = some none →
      prov ign src dst0 st.dst →
      st' = (walkTopDown (rel ++ [s]) c).foldl
        (copyBody ign srcPath false src) st →
      st'.failed = false ∧ wfOpt st'.dst = true ∧
      prov ign src dst0 st'.dst ∧
      (∀ q, ((rel ++ [s]) <+: q → q = rel ++ [s]) →
        viewIn st'.dst q = viewIn st.dst q) ∧
      (∀ suf v, suf ≠ [] → should_ignore ign suf = false →
        c.lookup suf = some v →
        viewIn st'.dst ((rel ++ [s]) ++ suf) = nodeView v)) →
    nodupStr (es2.map Prod.fst) = true →
    ∀ (st st' : MirrorState), st.failed = false → wfOpt st.dst = true →
    prov ign src dst0 st.dst →
    (∀ s c, (s, c) ∈ es2 → lookupIn src (rel ++ [s]) = some c) →
    (∀ s es3, (s, Node.dir es3) ∈ es2 → should_ignore ign [s] = false →
      viewIn st.dst (rel ++ [s]) = some none) →
    st' = (walkTopDownEntries rel es2).foldl
      (copyBody ign srcPath false src) st →
    st'.failed = false ∧ wfOpt st'.dst = true ∧
    prov ign src dst0 st'.dst ∧
    (∀ q, (∀ s c, (s, c) ∈ es2 → (rel ++ [s]) <+: q → q = rel ++ [s]) →
      viewIn st'.dst q = viewIn st.dst q) ∧
    (∀ s c, (s, c) ∈ es2 → should_ignore ign [s] = false →
      ∀ suf v, suf ≠ [] → should_ignore ign suf = false →
      c.lookup suf = some v →
      viewIn st'.dst ((rel ++ [s]) ++ suf) = nodeView v) := by
  intro es2
  induction es2 with
  | nil =>
    intro _ _ st st' h1 h2 hprov _ _ hst'
    subst hst'
    exact ⟨h1, h2, hprov, fun q _ => rfl,
      fun s c hm => absurd hm (List.not_mem_nil _)⟩
  | cons e rest ih =>
    rcases e with ⟨s0, c0⟩
    intro hP hnd st st' h1 h2 hprov hsrcent hdirv hst'
    rw [walkTopDownEntries, List.foldl_append] at hst'
    rw [List.map_cons, nodupStr, Bool.and_eq_true] at hnd
    obtain ⟨hnda, hndb⟩ := hnd
    have h31 : memStr s0 (rest.map Prod.fst) = false := by
      rcases hm2 : memStr s0 (rest.map Prod.fst) with _ | _
      · rfl
      · rw [hm2] at hnda
        simp at hnda
    have hne : ∀ s c, (s, c) ∈ rest → s0 ≠ s := by
      intro s c hm he
      subst he
      rw [mem_map_fst_memStr hm] at h31
      exact Bool.noConfusion h31
    cases c0 with
    | file cc =>
      rw [walkTopDown, List.foldl_nil] at hst'
      have key := ih (fun s c hm => hP s c (List.mem_cons_of_mem _ hm)) hndb
        st st' h1 h2 hprov
        (fun s c hm => hsrcent s c (List.mem_cons_of_mem _ hm))
        (fun s es3 hm hig => hdirv s es3 (List.mem_cons_of_mem _ hm) hig) hst'
      obtain ⟨k1, k2, k3, k4, k5⟩ := key
      refine ⟨k1, k2, k3,
        fun q hq => k4 q (fun s c hm => hq s c (List.mem_cons_of_mem _ hm)),
        ?_⟩
      intro s c hm hig suf v hsuf hsufign hlk
      rcases List.mem_cons.mp hm with hh | hh
      · rw [Prod.mk.injEq] at hh
        obtain ⟨hhs, hhc⟩ := hh
        subst hhs
        subst hhc
        rw [lookup_file_nonempty cc suf hsuf] at hlk
        exact Option.noConfusion hlk
      · exact k5 s c hh hig suf v hsuf hsufign hlk
    | dir cs =>
      rcases hig : should_ignore ign [s0] with _ | _
      · have hrel2 : should_ignore ign (rel ++ [s0]) = false := by
          rw [should_ignore_append, hrel, hig]
          rfl
        have hchild := hP s0 (.dir cs) (List.mem_cons_self _ _) st
          ((walkTopDown (rel ++ [s0]) (.dir cs)).foldl
            (copyBody ign srcPath false src) st)
          h1 h2 hrel2 (hsrcent s0 _ (List.mem_cons_self _ _))
          (hdirv s0 cs (List.mem_cons_self _ _) hig) hprov rfl
        obtain ⟨a1, a2, a3, a4, a5⟩ := hchild
        have key := ih (fun s c hm => hP s c (List.mem_cons_of_mem _ hm)) hndb
          ((walkTopDown (rel ++ [s0]) (.dir cs)).foldl
            (copyBody ign srcPath false src) st) st' a1 a2 a3
          (fun s c hm => hsrcent s c (List.mem_cons_of_mem _ hm)) ?hdirv2 hst'
        case hdirv2 =>
          intro s es3 hm hig2
          rw [a4 (rel ++ [s]) ?c1]
          case c1 =>
            intro hp
            exact absurd (snoc_prefix_snoc_iff.mp hp)
              (hne s (.dir es3) hm)
          exact hdirv s es3 (List.mem_cons_of_mem _ hm) hig2
        obtain ⟨k1, k2, k3, k4, k5⟩ := key
        refine ⟨k1, k2, k3, ?_, ?_⟩
        · intro q hq
          rw [k4 q (fun s c hm => hq s c (List.mem_cons_of_mem _ hm))]
          exact a4 q (hq s0 (.dir cs) (List.mem_cons_self _ _))
        · intro s c hm hig2 suf v hsuf hsufign hlk
          rcases List.mem_cons.mp hm with hh | hh
          · rw [Prod.mk.injEq] at hh
            obtain ⟨hhs, hhc⟩ := hh
            subst hhs
            subst hhc
            rw [k4 ((rel ++ [s]) ++ suf) ?c2]
            case c2 =>
              intro s2 c2 hm2 hp
              rw [List.append_assoc] at hp
              exact absurd (snoc_prefix_append_iff.mp hp).symm (hne s2 c2 hm2)
            exact a5 suf v hsuf hsufign hlk
          · exact k5 s c hh hig2 suf v hsuf hsufign hlk
      · have hchild : (walkTopDown (rel ++ [s0]) (Node.dir cs)).foldl
            (copyBody ign srcPath false src) st = st := by
          refine foldl_id _ _ _ fun st2 w hw => ?_
          obtain ⟨suf, hsuf⟩ := walkTopDown_rel_ext (.dir cs) (rel ++ [s0]) w hw
          refine copyBody_skip ?_
          rw [hsuf]
          have hre : srcPath ++ ((rel ++ [s0]) ++ suf) =
              (srcPath ++ rel) ++ ([s0] ++ suf) := by
            simp
          rw [hre, should_ignore_append, should_ignore_append ign [s0] suf, hig]
          simp
        rw [hchild] at hst'
        have key := ih (fun s c hm => hP s c (List.mem_cons_of_mem _ hm)) hndb
          st st' h1 h2 hprov
          (fun s c hm => hsrcent s c (List.mem_cons_of_mem _ hm))
          (fun s es3 hm hig2 => hdirv s es3 (List.mem_cons_of_mem _ hm) hig2)
          hst'
        obtain ⟨k1, k2, k3, k4, k5⟩ := key
        refine ⟨k1, k2, k3,
          fun q hq => k4 q (fun s c hm => hq s c (List.mem_cons_of_mem _ hm)),
          ?_⟩
        intro s c hm hig2 suf v hsuf hsufign hlk
        rcases List.mem_cons.mp hm with hh | hh
        · rw [Prod.mk.injEq] at hh
          obtain ⟨hhs, hhc⟩ := hh
          subst hhs
          rw [hig] at hig2
          exact Bool.noConfusion hig2
        · exact k5 s c hh hig2 suf v hsuf hsufign hlk

/-! ## Copy pass: the full walk -/

theorem copyWalk (ign : List RE) (srcPath : List String)
    (src dst0 : Option Node) (hs : should_ignore ign srcPath = false)
    (hpc : pcompat src dst0) (hwsrc : wfOpt src = true) :
    ∀ (n : Node) (rel : List String) (st st' : MirrorState),
    st.failed = false → wfOpt st.dst = true →
    should_ignore ign rel = false →
    lookupIn src rel = some n →
    viewIn st.dst rel = some none →
    prov ign src dst0 st.dst →
    st' = (walkTopDown rel n).foldl (copyBody ign srcPath false src) st →
    st'.failed = false ∧ wfOpt st'.dst = true ∧
    prov ign src dst0 st'.dst ∧
    (∀ q, (rel <+: q → q = rel) → viewIn st'.dst q = viewIn st.dst q) ∧
    (∀ suf v, suf ≠ [] → should_ignore ign suf = false →
      n.lookup suf = some v → viewIn st'.dst (rel ++ suf) = nodeView v) := by
  refine Node.indOn ?_ ?_
  · intro c rel st st' h1 h2 hrel hsub hdirat hprov hst'
    rw [walkTopDown, List.foldl_nil] at hst'
    subst hst'
    refine ⟨h1, h2, hprov, fun q _ => rfl, ?_⟩
    intro suf v hsuf _ hlk
    rw [lookup_file_nonempty c suf hsuf] at hlk
    exact Option.noConfusion hlk
  · intro es ihP rel st st' h1 h2 hrel hsub hdirat hprov hst'
    have hnwf : (Node.dir es).wfb = true := wfOpt_lookupIn hwsrc hsub
    rw [wfb_dir, Bool.and_eq_true] at hnwf
    obtain ⟨hnd, _⟩ := hnwf
    rw [walkTopDown, List.foldl_cons] at hst'
    rw [copyBody_run ign srcPath src st rel (dirNames es) (fileNames es) h1
      (by rw [should_ignore_append, hs, hrel]; rfl)] at hst'
    have hsrcd : ∀ d, d ∈ dirNames es → should_ignore ign [d] = false →
        viewIn src (rel ++ [d]) = some none := by
      intro d hdm _
      obtain ⟨es2, hde⟩ := findEntry_of_dirNames hnd hdm
      rw [viewIn_eq_dir_iff]
      exact ⟨es2, lookupIn_snoc_entry hsub hde⟩
    have hsrcf : ∀ f, f ∈ fileNames es → should_ignore ign [f] = false →
        ∃ c, viewIn src (rel ++ [f]) = some (some c) := by
      intro f hfm _
      obtain ⟨cf, hfe⟩ := findEntry_of_fileNames hnd hfm
      refine ⟨cf, ?_⟩
      rw [viewIn_eq_file_iff]
      exact lookupIn_snoc_entry hsub hfe
    have hDirs := cpDirs ign src dst0 hpc rel hrel (dirNames es) st _ h1 h2
      (nodupStr_dirNames hnd) hprov hdirat hsrcd rfl
    obtain ⟨b1, b2, b3, b4, b5⟩ := hDirs
    have hdiratB := b4 rel (fun d _ he => snoc_ne_self he.symm)
    rw [hdirat] at hdiratB
    have hFiles := cpFiles ign src dst0 hpc rel hrel (fileNames es) _ _ b1 b2
      (nodupStr_fileNames hnd) b3 hdiratB hsrcf rfl
    obtain ⟨c1, c2, c3, c4, c5⟩ := hFiles
    have hdirvC : ∀ s es3, (s, Node.dir es3) ∈ es →
        should_ignore ign [s] = false →
        viewIn ((fileNames es).foldl (fun st f =>
          if should_ignore ign [f] then st
          else
            let c :=
              match lookupIn src (rel ++ [f]) with
              | some (.file c) => c
              | _ => ""
            doMut false (.copy (rel ++ [f]) c)
              (onRoot (copy2 · (rel ++ [f]) f c)) st)
          ((dirNames es).foldl (fun st d =>
            if should_ignore ign [d] then st
            else if existsAt st.dst (rel ++ [d]) then st
            else doMut false (.mkdir (rel ++ [d]))
              (onRoot (mkdirp · (rel ++ [d]))) st) st)).dst (rel ++ [s]) =
          some none := by
      intro s es3 hm hig2
      have hsd : s ∈ dirNames es := mem_dirNames.mpr ⟨es3, hm⟩
      rw [c4 (rel ++ [s]) ?cf1]
      case cf1 =>
        intro f hfm he
        have heq : s = f := snoc_prefix_snoc_iff.mp
          (show (rel ++ [s]) <+: (rel ++ [f]) by rw [he])
        exact (fileNames_ne_dirNames hnd hfm hsd) heq.symm
      exact b5 s hsd hig2
    have hEnt := copyWalkEntries ign srcPath src dst0 hs hpc rel hrel es
      (fun s c hm => ihP s c hm (rel ++ [s])) hnd _ st' c1 c2 c3
      (fun s c hm => lookupIn_snoc_entry hsub (findEntry_of_mem_nodup hnd hm))
      hdirvC hst'
    obtain ⟨k1, k2, k3, k4, k5⟩ := hEnt
    refine ⟨k1, k2, k3, ?_, ?_⟩
    · intro q hq
      rw [k4 q ?ce1]
      case ce1 =>
        intro s c hm hp
        have hrq : rel <+: q := (List.prefix_append rel [s]).trans hp
        have hqrel := hq hrq
        subst hqrel
        exact absurd hp not_snoc_prefix_self
      rw [c4 q ?ce2]
      case ce2 =>
        intro f hfm he
        subst he
        exact snoc_ne_self (hq (List.prefix_append rel [f]))
      rw [b4 q ?ce3]
      case ce3 =>
        intro d hdm he
        subst he
        exact snoc_ne_self (hq (List.prefix_append rel [d]))
    · intro suf v hsuf hsufign hlk
      cases suf with
      | nil => exact absurd rfl hsuf
      | cons x suf2 =>
        rw [should_ignore_cons] at hsufign
        have hxig : should_ignore ign [x] = false := by
          rcases hres : should_ignore ign [x] with _ | _
          · rfl
          · rw [hres] at hsufign
            exact Bool.noConfusion hsufign
        have hsuf2ig : should_ignore ign suf2 = false := by
          rcases hres : should_ignore ign suf2 with _ | _
          · rfl
          · rw [hres, hxig] at hsufign
            exact Bool.noConfusion hsufign
        rw [Node.lookup] at hlk
        cases hfe : findEntry es x with
        | none =>
          rw [hfe] at hlk
          exact Option.noConfusion hlk
        | some cx =>
          rw [hfe] at hlk
          have hlk2 : cx.lookup suf2 = some v := hlk
          cases suf2 with
          | nil =>
            have hvx : cx = v := Option.some.inj hlk2
            subst hvx
            cases hcx : cx with
            | file cfx =>
              have hfe2 : findEntry es x = some (.file cfx) := by
                rw [hfe, hcx]
              have hsv : viewIn src (rel ++ [x]) = some (some cfx) := by
                rw [viewIn_eq_file_iff]
                exact lookupIn_snoc_entry hsub hfe2
              have hxmem : x ∈ fileNames es :=
                mem_fileNames.mpr ⟨cfx, findEntry_mem hfe2⟩
              have hpost := c5 x hxmem hxig cfx hsv
              rw [k4 (rel ++ [x]) ?kp1]
              case kp1 =>
                intro s c hm hp
                rw [snoc_prefix_snoc_iff.mp hp]
              exact hpost
            | dir esx =>
              have hfe2 : findEntry es x = some (.dir esx) := by
                rw [hfe, hcx]
              have hxmem : x ∈ dirNames es :=
                mem_dirNames.mpr ⟨esx, findEntry_mem hfe2⟩
              rw [k4 (rel ++ [x]) ?kp2]
              case kp2 =>
                intro s c hm hp
                rw [snoc_prefix_snoc_iff.mp hp]
              rw [c4 (rel ++ [x]) ?kp3]
              case kp3 =>
                intro f hfm he
                have heq : x = f := snoc_prefix_snoc_iff.mp
                  (show (rel ++ [x]) <+: (rel ++ [f]) by rw [he])
                exact (fileNames_ne_dirNames hnd hfm hxmem) heq.symm
              exact b5 x hxmem hxig
          | cons y suf3 =>
            have hres := k5 x cx (findEntry_mem hfe) hxig (y :: suf3) v
              (by simp) hsuf2ig hlk2
            rw [show rel ++ x :: y :: suf3 = (rel ++ [x]) ++ (y :: suf3) from
              (List.append_assoc rel [x] (y :: suf3)).symm]
            exact hres

/-! ## Pointwise compatibility and pass characterizations -/

theorem compatEntries_findEntry {es fs : List (String × Node)} {s : String}
    {c d : Node} (hc : compatEntries es fs = true)
    (ha : findEntry es s = some c) (hb : findEntry fs s = some d) :
    compatN c d = true := by
  induction es with
  | nil => cases ha
  | cons e rest ih =>
    rcases e with ⟨n, v⟩
    rw [compatEntries, Bool.and_eq_true] at hc
    by_cases hn : n = s
    · subst hn
      rw [findEntry, if_pos rfl] at ha
      have hvc : v = c := Option.some.inj ha
      subst hvc
      have h1 := hc.1
      rw [hb] at h1
      exact h1
    · rw [findEntry, if_neg hn] at ha
      exact ih hc.2 ha

theorem compatN_view : ∀ (q : List String) (a b : Node), compatN a b = true →
    ((viewAt a q = some none → ∀ c, viewAt b q ≠ some (some c)) ∧
     (∀ c, viewAt a q = some (some c) → viewAt b q ≠ some none)) := by
  intro q
  induction q with
  | nil =>
    intro a b hc
    cases a with
    | file ca =>
      cases b with
      | file cb => refine ⟨?_, ?_⟩ <;> simp [viewAt, Node.lookup]
      | dir eb => exact Bool.noConfusion hc
    | dir ea =>
      cases b with
      | file cb => exact Bool.noConfusion hc
      | dir eb => refine ⟨?_, ?_⟩ <;> simp [viewAt, Node.lookup]
  | cons s q2 ih =>
    intro a b hc
    cases a with
    | file ca => refine ⟨?_, ?_⟩ <;> simp [viewAt, Node.lookup]
    | dir ea =>
      cases b with
      | file cb =>
        refine ⟨?_, ?_⟩ <;> simp [viewAt, Node.lookup]
      | dir eb =>
        cases hfa : findEntry ea s with
        | none => refine ⟨?_, ?_⟩ <;> simp [viewAt_cons, hfa]
        | some ca2 =>
          cases hfb : findEntry eb s with
          | none => refine ⟨?_, ?_⟩ <;> simp [viewAt_cons, hfb]
          | some cb2 =>
            have hcc : compatN ca2 cb2 = true :=
              compatEntries_findEntry hc hfa hfb
            have hih := ih ca2 cb2 hcc
            refine ⟨?_, ?_⟩
            · intro ha c hb
              rw [viewAt_cons, hfa] at ha
              rw [viewAt_cons, hfb] at hb
              exact hih.1 ha c hb
            · intro c ha hb
              rw [viewAt_cons, hfa] at ha
              rw [viewAt_cons, hfb] at hb
              exact hih.2 c ha hb

theorem compatOpt_pcompat {a b : Option Node} (h : compatOpt a b = true) :
    pcompat a b := by
  intro q
  cases a with
  | none =>
    refine ⟨?_, ?_⟩ <;> simp [viewIn]
  | some na =>
    cases b with
    | none =>
      refine ⟨?_, ?_⟩ <;> simp [viewIn]
    | some nb =>
      have hN : compatN na nb = true := h
      exact compatN_view q na nb hN

theorem pcompat_fresh_root {src : Option Node} {esS : List (String × Node)}
    (h : src = some (.dir esS)) : pcompat src (some (.dir [])) := by
  subst h
  intro q
  cases q with
  | nil =>
    refine ⟨?_, ?_⟩ <;> simp [viewIn, viewAt, Node.lookup]
  | cons a t =>
    refine ⟨?_, ?_⟩ <;> simp [viewIn, viewAt_cons, findEntry]

theorem copyPass_run (ign : List RE) (srcPath : List String) (dry : Bool)
    (n : Node) (st : MirrorState) :
    copyPass ign srcPath dry (some n) st =
      (walkTopDown [] n).foldl (copyBody ign srcPath dry (some n)) st := rfl

theorem deletePass_run (ign : List RE) (dstPath : List String)
    (src : Option Node) (st : MirrorState) (m : Node)
    (h1 : st.failed = false) (hd : st.dst = some m) :
    deletePass ign dstPath false src st =
      (walkBottomUp [] m).foldl (deleteBody ign dstPath false src) st := by
  unfold deletePass
  rw [h1, hd]
  rfl

theorem lookupIn_nil_eq {t : Option Node} {v : Node}
    (h : lookupIn t [] = some v) : t = some v := by
  cases t with
  | none => exact Option.noConfusion h
  | some n =>
    have hn : n = v := Option.some.inj h
    rw [hn]

/-- Both mirror passes, from a well-formed state whose destination root is
a directory: the run does not fail, keeps the destination well-formed and
rooted at a directory, realises the source view at every ignore-free path,
and leaves no plain file at any path whose directory part is ignore-free
but which is absent from the source. -/
theorem mirror_exact_core (ign : List RE) (srcPath dstPath : List String)
    (src : Option Node) (stA : MirrorState)
    (hs : should_ignore ign srcPath = false)
    (hd : should_ignore ign dstPath = false)
    (hws : wfOpt src = true)
    (h1 : stA.failed = false) (h2 : wfOpt stA.dst = true)
    (hroot : viewIn stA.dst [] = some none)
    (hpc : ∀ esS, src = some (.dir esS) → pcompat src stA.dst) :
    (deletePass ign dstPath false src
      (copyPass ign srcPath false src stA)).failed = false ∧
    wfOpt (deletePass ign dstPath false src
      (copyPass ign srcPath false src stA)).dst = true ∧
    viewIn (deletePass ign dstPath false src
      (copyPass ign srcPath false src stA)).dst [] = some none ∧
    (∀ q, q ≠ [] → should_ignore ign q = false →
      viewIn (deletePass ign dstPath false src
        (copyPass ign srcPath false src stA)).dst q = viewIn src q) ∧
    (∀ inner f, should_ignore ign inner = false →
      lookupIn src (inner ++ [f]) = none →
      viewIn (deletePass ign dstPath false src
        (copyPass ign srcPath false src stA)).dst (inner ++ [f]) = none ∨
      viewIn (deletePass ign dstPath false src
        (copyPass ign srcPath false src stA)).dst (inner ++ [f]) = some none) := by
  cases src with
  | none =>
    obtain ⟨esm, hm⟩ := viewIn_eq_dir_iff.mp hroot
    have hmeq : stA.dst = some (.dir esm) := lookupIn_nil_eq hm
    have hDel := delWalk ign dstPath none hd (.dir esm) [] stA _ h1 h2 rfl
      (fun suf => by rw [List.nil_append, hmeq]; rfl)
      (deletePass_run ign dstPath none
        (copyPass ign srcPath false none stA) (.dir esm) h1 hmeq)
    obtain ⟨d1, d2, d3, d4, d5, d6, d7, d8⟩ := hDel
    refine ⟨d1, d2, ?_, ?_, ?_⟩
    · rw [d4 [] (List.prefix_refl [])]
      exact hroot
    · intro q hq hqig
      have hdel := d7 q hq hqig (by rfl)
      rw [List.nil_append] at hdel
      rw [hdel]
      rfl
    · intro inner f hfree hsrc
      have hdel := d8 inner f hfree (by rw [List.nil_append]; rfl)
      rw [List.nil_append] at hdel
      exact hdel
  | some srcT =>
    cases srcT with
    | file cf =>
      obtain ⟨esm, hm⟩ := viewIn_eq_dir_iff.mp hroot
      have hmeq : stA.dst = some (.dir esm) := lookupIn_nil_eq hm
      have hDel := delWalk ign dstPath (some (.file cf)) hd (.dir esm) [] stA _
        h1 h2 rfl
        (fun suf => by rw [List.nil_append, hmeq]; rfl)
        (deletePass_run ign dstPath (some (.file cf))
          (copyPass ign srcPath false (some (.file cf)) stA) (.dir esm) h1 hmeq)
      obtain ⟨d1, d2, d3, d4, d5, d6, d7, d8⟩ := hDel
      refine ⟨d1, d2, ?_, ?_, ?_⟩
      · rw [d4 [] (List.prefix_refl [])]
        exact hroot
      · intro q hq hqig
        have hsrcq : lookupIn (some (Node.file cf)) q = none :=
          lookup_file_nonempty cf q hq
        have hdel := d7 q hq hqig (by rw [List.nil_append]; exact hsrcq)
        rw [List.nil_append] at hdel
        rw [hdel, viewIn_eq_match, hsrcq]
      · intro inner f hfree hsrc
        have hdel := d8 inner f hfree (by rw [List.nil_append]; exact hsrc)
        rw [List.nil_append] at hdel
        exact hdel
    | dir esS =>
      have hpc2 : pcompat (some (.dir esS)) stA.dst := hpc esS rfl
      have hprov0 : prov ign (some (.dir esS)) stA.dst stA.dst :=
        fun q => Or.inl rfl
      have hCopy := copyWalk ign srcPath (some (.dir esS)) stA.dst hs hpc2 hws
        (.dir esS) [] stA _ h1 h2 rfl rfl hroot hprov0
        (copyPass_run ign srcPath false (.dir esS) stA)
      obtain ⟨k1, k2, k3, k4, k5⟩ := hCopy
      have hrootB : viewIn (copyPass ign srcPath false
          (some (.dir esS)) stA).dst [] = some none := by
        rw [k4 [] (fun _ => rfl)]
        exact hroot
      obtain ⟨esB, hmB⟩ := viewIn_eq_dir_iff.mp hrootB
      have hmBeq : (copyPass ign srcPath false (some (.dir esS)) stA).dst =
          some (.dir esB) := lookupIn_nil_eq hmB
      have hDel := delWalk ign dstPath (some (.dir esS)) hd (.dir esB) []
        (copyPass ign srcPath false (some (.dir esS)) stA) _ k1 k2 rfl
        (fun suf => by rw [List.nil_append, hmBeq]; rfl)
        (deletePass_run ign dstPath (some (.dir esS))
          (copyPass ign srcPath false (some (.dir esS)) stA) (.dir esB)
          k1 hmBeq)
      obtain ⟨d1, d2, d3, d4, d5, d6, d7, d8⟩ := hDel
      refine ⟨d1, d2, ?_, ?_, ?_⟩
      · rw [d4 [] (List.prefix_refl [])]
        exact hrootB
      · intro q hq hqig
        cases hsq : lookupIn (some (Node.dir esS)) q with
        | some v =>
          have hB := k5 q v hq hqig hsq
          rw [List.nil_append] at hB
          have hkeep := d6 q v hsq
          rw [hkeep, hB, viewIn_eq_match, hsq]
          cases v <;> rfl
        | none =>
          have hdel := d7 q hq hqig (by rw [List.nil_append]; exact hsq)
          rw [List.nil_append] at hdel
          rw [hdel, viewIn_eq_match, hsq]
      · intro inner f hfree hsrc
        have hdel := d8 inner f hfree (by rw [List.nil_append]; exact hsrc)
        rw [List.nil_append] at hdel
        exact hdel

/-- C1 (corrected — mirror exactness): `FileSyncUtil.run` with `dry=false`
makes the destination view agree with the source view at every non-empty
ignore-free relative path — files exist on one side iff on the other with
identical content, likewise directories — PROVIDED neither root path carries
an ignore-matching segment, both trees are well-formed, and no path holds a
file on one side and a directory on the other (the code's `copy2`/`mkdir`
calls fail on such type clashes, and a rule matching a root-path segment
makes `should_ignore` skip everything, leaving stale destination content:
see the counterexample). -/
theorem C1_mirror_exactness_amended (ign : List RE) (srcPath dstPath : List String)
    (src dst : Option Node)
    (hs : should_ignore ign srcPath = false)
    (hd : should_ignore ign dstPath = false)
    (hws : wfOpt src = true) (hwd : wfOpt dst = true)
    (hc : compatOpt src dst = true) :
    ∀ q, q ≠ [] → should_ignore ign q = false →
      viewIn (FileSyncUtil.run ign srcPath dstPath false src dst).dst q =
        viewIn src q := by
  intro q hq hqig
  cases dst with
  | none =>
    have hcore := mirror_exact_core ign srcPath dstPath src
      ⟨some (.dir []), [.mkroot], [.mkroot], false⟩ hs hd hws rfl rfl rfl
      (fun esS hes => pcompat_fresh_root hes)
    exact hcore.2.2.2.1 q hq hqig
  | some dn =>
    cases dn with
    | dir esn =>
      have hcore := mirror_exact_core ign srcPath dstPath src
        ⟨some (.dir esn), [], [], false⟩ hs hd hws rfl hwd rfl
        (fun esS hes => compatOpt_pcompat hc)
      exact hcore.2.2.2.1 q hq hqig
    | file cfn =>
      cases src with
      | none =>
        have hrun : FileSyncUtil.run ign srcPath dstPath false none
            (some (.file cfn)) = ⟨some (.file cfn), [], [], false⟩ := rfl
        rw [hrun]
        cases q with
        | nil => exact absurd rfl hq
        | cons a t => rfl
      | some srcT =>
        cases srcT with
        | file cfs =>
          have hrun : FileSyncUtil.run ign srcPath dstPath false
              (some (.file cfs)) (some (.file cfn)) =
              ⟨some (.file cfn), [], [], false⟩ := rfl
          rw [hrun]
          cases q with
          | nil => exact absurd rfl hq
          | cons a t => rfl
        | dir esS =>
          have hcf : compatOpt (some (Node.dir esS)) (some (Node.file cfn)) =
              false := rfl
          rw [hcf] at hc
          exact Bool.noConfusion hc

theorem C1_mirror_exactness_amended_witness :
    should_ignore [reLit "skip"] ["S"] = false ∧
    should_ignore [reLit "skip"] ["D"] = false ∧
    wfOpt (some (Node.dir [("a", Node.file "hello"),
      ("skip", Node.dir [("secret", Node.file "s")]),
      ("sub", Node.dir [("b", Node.file "bee")])])) = true ∧
    wfOpt (some (Node.dir [("stale", Node.file "old")])) = true ∧
    compatOpt (some (Node.dir [("a", Node.file "hello"),
      ("skip", Node.dir [("secret", Node.file "s")]),
      ("sub", Node.dir [("b", Node.file "bee")])]))
      (some (Node.dir [("stale", Node.file "old")])) = true ∧
    (["sub", "b"] : List String) ≠ [] ∧
    should_ignore [reLit "skip"] ["sub", "b"] = false ∧
    viewIn (FileSyncUtil.run [reLit "skip"] ["S"] ["D"] false
      (some (Node.dir [("a", Node.file "hello"),
        ("skip", Node.dir [("secret", Node.file "s")]),
        ("sub", Node.dir [("b", Node.file "bee")])]))
      (some (Node.dir [("stale", Node.file "old")]))).dst ["sub", "b"] =
      viewIn (some (Node.dir [("a", Node.file "hello"),
        ("skip", Node.dir [("secret", Node.file "s")]),
        ("sub", Node.dir [("b", Node.file "bee")])])) ["sub", "b"] :=
  ⟨by decide, by decide, by decide, by decide, by decide, by decide, by decide,
   C1_mirror_exactness_amended [reLit "skip"] ["S"] ["D"]
     (some (Node.dir [("a", Node.file "hello"),
       ("skip", Node.dir [("secret", Node.file "s")]),
       ("sub", Node.dir [("b", Node.file "bee")])]))
     (some (Node.dir [("stale", Node.file "old")]))
     (by decide) (by decide) (by decide) (by decide) (by decide)
     ["sub", "b"] (by decide) (by decide)⟩

theorem doMut_muts_mem (dry : Bool) (op : MutOp)
    (f : Option Node → Except Unit (Option Node)) (st : MirrorState) :
    ∀ m, m ∈ (doMut dry op f st).muts → m ∈ st.muts ∨ m = op := by
  intro m hm
  by_cases hf : st.failed = true
  · have he : doMut dry op f st = st := by
      unfold doMut; rw [if_pos hf]
    rw [he] at hm; exact Or.inl hm
  rw [Bool.not_eq_true] at hf
  by_cases hdry : dry = true
  · have he : doMut dry op f st = { st with logs := st.logs ++ [op] } := by
      unfold doMut; rw [hf, hdry]
      rfl
    rw [he] at hm; exact Or.inl hm
  rw [Bool.not_eq_true] at hdry
  cases hres : f st.dst with
  | ok d =>
    have he : doMut dry op f st =
        { st with
          dst := d
          logs := st.logs ++ [op]
          muts := st.muts ++ [op] } := by
      unfold doMut; rw [hf, hdry, hres]
      rfl
    rw [he] at hm
    have hm2 : m ∈ st.muts ++ [op] := hm
    rcases List.mem_append.mp hm2 with h | h
    · exact Or.inl h
    · exact Or.inr (List.mem_singleton.mp h)
  | error e =>
    have he : doMut dry op f st =
        { st with
          logs := st.logs ++ [op]
          failed := true } := by
      unfold doMut; rw [hf, hdry, hres]
      rfl
    rw [he] at hm; exact Or.inl hm

theorem foldl_muts_mem {α : Type} {P : MutOp → Prop}
    (g : MirrorState → α → MirrorState)
    (hstep : ∀ st x m, m ∈ (g st x).muts → m ∈ st.muts ∨ P m)
    (xs : List α) (st : MirrorState) (m : MutOp)
    (hm : m ∈ (xs.foldl g st).muts) : m ∈ st.muts ∨ P m := by
  induction xs generalizing st with
  | nil => exact Or.inl hm
  | cons x rest ih =>
    rw [List.foldl_cons] at hm
    rcases ih (g st x) hm with h | h
    · exact hstep st x m h
    · exact Or.inr h

theorem copyBody_mutOk (ign : List RE) (srcPath dstPath : List String)
    (dry : Bool) (src : Option Node) (w : WalkItem) :
    ∀ st m, m ∈ (copyBody ign srcPath dry src st w).muts →
      m ∈ st.muts ∨ mutOk ign srcPath dstPath m = true := by
  intro st m hm
  by_cases hf : st.failed = true
  · have he : copyBody ign srcPath dry src st w = st := by
      unfold copyBody; rw [if_pos hf]
    rw [he] at hm; exact Or.inl hm
  rw [Bool.not_eq_true] at hf
  by_cases hig : should_ignore ign (srcPath ++ w.rel) = true
  · have he : copyBody ign srcPath dry src st w = st := by
      unfold copyBody; rw [hf, hig]
      rfl
    rw [he] at hm; exact Or.inl hm
  rw [Bool.not_eq_true] at hig
  have he : copyBody ign srcPath dry src st w =
      w.files.foldl (fun st f =>
        if should_ignore ign [f] then st
        else
          doMut dry (.copy (w.rel ++ [f])
              (match lookupIn src (w.rel ++ [f]) with
               | some (.file c) => c
               | _ => ""))
            (onRoot (copy2 · (w.rel ++ [f]) f
              (match lookupIn src (w.rel ++ [f]) with
               | some (.file c) => c
               | _ => ""))) st)
        (w.dirs.foldl (fun st d =>
          if should_ignore ign [d] then st
          else if existsAt st.dst (w.rel ++ [d]) then st
          else doMut dry (.mkdir (w.rel ++ [d]))
            (onRoot (mkdirp · (w.rel ++ [d]))) st) st) := by
    unfold copyBody; rw [hf, hig]
    rfl
  rw [he] at hm
  have hstepF : ∀ st x m,
      m ∈ (if should_ignore ign [x] then st
        else
          doMut dry (.copy (w.rel ++ [x])
              (match lookupIn src (w.rel ++ [x]) with
               | some (.file c) => c
               | _ => ""))
            (onRoot (copy2 · (w.rel ++ [x]) x
              (match lookupIn src (w.rel ++ [x]) with
               | some (.file c) => c
               | _ => ""))) st).muts →
      m ∈ st.muts ∨ mutOk ign srcPath dstPath m = true := by
    intro st' x m' hm'
    by_cases h1 : should_ignore ign [x] = true
    · rw [if_pos h1] at hm'; exact Or.inl hm'
    rw [Bool.not_eq_true] at h1
    rw [if_neg (by rw [h1]; exact Bool.false_ne_true)] at hm'
    rcases doMut_muts_mem dry _ _ st' m' hm' with h | h
    · exact Or.inl h
    · refine Or.inr ?_
      rw [h]
      show (!(w.rel ++ [x]).isEmpty &&
        !should_ignore ign (srcPath ++ (w.rel ++ [x]))) = true
      have hp : (w.rel ++ [x]).isEmpty = false := by
        cases hw : w.rel with
        | nil => rfl
        | cons a t => rfl
      have hig2 : should_ignore ign (srcPath ++ (w.rel ++ [x])) = false := by
        have hre : srcPath ++ (w.rel ++ [x]) = (srcPath ++ w.rel) ++ [x] := by
          simp
        rw [hre, should_ignore_append, hig, h1]
        rfl
      rw [hp, hig2]
      rfl
  have hstepD : ∀ st x m,
      m ∈ (if should_ignore ign [x] then st
        else if existsAt st.dst (w.rel ++ [x]) then st
        else doMut dry (.mkdir (w.rel ++ [x]))
          (onRoot (mkdirp · (w.rel ++ [x]))) st).muts →
      m ∈ st.muts ∨ mutOk ign srcPath dstPath m = true := by
    intro st' x m' hm'
    by_cases h1 : should_ignore ign [x] = true
    · rw [if_pos h1] at hm'; exact Or.inl hm'
    rw [Bool.not_eq_true] at h1
    rw [if_neg (by rw [h1]; exact Bool.false_ne_true)] at hm'
    by_cases h2 : existsAt st'.dst (w.rel ++ [x]) = true
    · rw [if_pos h2] at hm'; exact Or.inl hm'
    · rw [if_neg h2] at hm'
      rcases doMut_muts_mem dry _ _ st' m' hm' with h | h
      · exact Or.inl h
      · refine Or.inr ?_
        rw [h]
        show (!(w.rel ++ [x]).isEmpty &&
          !should_ignore ign (srcPath ++ (w.rel ++ [x]))) = true
        have hp : (w.rel ++ [x]).isEmpty = false := by
          cases hw : w.rel with
          | nil => rfl
          | cons a t => rfl
        have hig2 : should_ignore ign (srcPath ++ (w.rel ++ [x])) = false := by
          have hre : srcPath ++ (w.rel ++ [x]) = (srcPath ++ w.rel) ++ [x] := by
            simp
          rw [hre, should_ignore_append, hig, h1]
          rfl
        rw [hp, hig2]
        rfl
  rcases foldl_muts_mem _ hstepF w.files _ m hm with h | h
  · rcases foldl_muts_mem _ hstepD w.dirs st m h with h2 | h2
    · exact Or.inl h2
    · exact Or.inr h2
  · exact Or.inr h

theorem deleteBody_mutOk (ign : List RE) (srcPath dstPath : List String)
    (dry : Bool) (src : Option Node) (w : WalkItem) :
    ∀ st m, m ∈ (deleteBody ign dstPath dry src st w).muts →
      m ∈ st.muts ∨ mutOk ign srcPath dstPath m = true := by
  intro st m hm
  by_cases hf : st.failed = true
  · have he : deleteBody ign dstPath dry src st w = st := by
      unfold deleteBody; rw [if_pos hf]
    rw [he] at hm; exact Or.inl hm
  rw [Bool.not_eq_true] at hf
  by_cases hig : should_ignore ign (dstPath ++ w.rel) = true
  · have he : deleteBody ign dstPath dry src st w = st := by
      unfold deleteBody; rw [hf, hig]
      rfl
    rw [he] at hm; exact Or.inl hm
  rw [Bool.not_eq_true] at hig
  have he : deleteBody ign dstPath dry src st w =
      w.dirs.foldl (fun st d =>
        if should_ignore ign [d] then st
        else if existsAt src (w.rel ++ [d]) then st
        else doMut dry (.rmdir (w.rel ++ [d]))
          (onRoot (rmtreeF · (w.rel ++ [d]))) st)
        (w.files.foldl (fun st f =>
          if existsAt src (w.rel ++ [f]) then st
          else doMut dry (.rm (w.rel ++ [f]))
            (onRoot (unlinkF · (w.rel ++ [f]))) st) st) := by
    unfold deleteBody; rw [hf, hig]
    rfl
  rw [he] at hm
  have hstepF : ∀ st x m,
      m ∈ (if existsAt src (w.rel ++ [x]) then st
        else doMut dry (.rm (w.rel ++ [x]))
          (onRoot (unlinkF · (w.rel ++ [x]))) st).muts →
      m ∈ st.muts ∨ mutOk ign srcPath dstPath m = true := by
    intro st' x m' hm'
    by_cases h2 : existsAt src (w.rel ++ [x]) = true
    · rw [if_pos h2] at hm'; exact Or.inl hm'
    · rw [if_neg h2] at hm'
      rcases doMut_muts_mem dry _ _ st' m' hm' with h | h
      · exact Or.inl h
      · refine Or.inr ?_
        rw [h]
        show (!(w.rel ++ [x]).isEmpty &&
          !should_ignore ign (dstPath ++ (w.rel ++ [x]).dropLast)) = true
        have hp : (w.rel ++ [x]).isEmpty = false := by
          cases hw : w.rel with
          | nil => rfl
          | cons a t => rfl
        have hdl : (w.rel ++ [x]).dropLast = w.rel := by
          simp
        rw [hp, hdl, hig]
        rfl
  have hstepD : ∀ st x m,
      m ∈ (if should_ignore ign [x] then st
        else if existsAt src (w.rel ++ [x]) then st
        else doMut dry (.rmdir (w.rel ++ [x]))
          (onRoot (rmtreeF · (w.rel ++ [x]))) st).muts →
      m ∈ st.muts ∨ mutOk ign srcPath dstPath m = true := by
    intro st' x m' hm'
    by_cases h1 : should_ignore ign [x] = true
    · rw [if_pos h1] at hm'; exact Or.inl hm'
    rw [Bool.not_eq_true] at h1
    rw [if_neg (by rw [h1]; exact Bool.false_ne_true)] at hm'
    by_cases h2 : existsAt src (w.rel ++ [x]) = true
    · rw [if_pos h2] at hm'; exact Or.inl hm'
    · rw [if_neg h2] at hm'
      rcases doMut_muts_mem dry _ _ st' m' hm' with h | h
      · exact Or.inl h
      · refine Or.inr ?_
        rw [h]
        show (!(w.rel ++ [x]).isEmpty &&
          !should_ignore ign (dstPath ++ (w.rel ++ [x]))) = true
        have hp : (w.rel ++ [x]).isEmpty = false := by
          cases hw : w.rel with
          | nil => rfl
          | cons a t => rfl
        have hig2 : should_ignore ign (dstPath ++ (w.rel ++ [x])) = false := by
          have hre : dstPath ++ (w.rel ++ [x]) = (dstPath ++ w.rel) ++ [x] := by
            simp
          rw [hre, should_ignore_append, hig, h1]
          rfl
        rw [hp, hig2]
        rfl
  rcases foldl_muts_mem _ hstepD w.dirs _ m hm with h | h
  · rcases foldl_muts_mem _ hstepF w.files st m h with h2 | h2
    · exact Or.inl h2
    · exact Or.inr h2
  · exact Or.inr h

theorem copyPass_mutOk (ign : List RE) (srcPath dstPath : List String)
    (dry : Bool) (src : Option Node) (st : MirrorState) :
    ∀ m, m ∈ (copyPass ign srcPath dry src st).muts →
      m ∈ st.muts ∨ mutOk ign srcPath dstPath m = true := by
  intro m hm
  have hm2 : m ∈ ((match src with
      | some n => walkTopDown [] n
      | none => ([] : List WalkItem)).foldl
        (copyBody ign srcPath dry src) st).muts := hm
  exact foldl_muts_mem _
    (fun st x m => copyBody_mutOk ign srcPath dstPath dry src x st m)
    _ st m hm2

theorem deletePass_mutOk (ign : List RE) (srcPath dstPath : List String)
    (dry : Bool) (src : Option Node) (st : MirrorState) :
    ∀ m, m ∈ (deletePass ign dstPath dry src st).muts →
      m ∈ st.muts ∨ mutOk ign srcPath dstPath m = true := by
  intro m hm
  have hm2 : m ∈ ((if st.failed then []
      else match st.dst with
        | some n => walkBottomUp [] n
        | none => ([] : List WalkItem)).foldl
        (deleteBody ign dstPath dry src) st).muts := hm
  exact foldl_muts_mem _
    (fun st x m => deleteBody_mutOk ign srcPath dstPath dry src x st m)
    _ st m hm2

/-- C2 (corrected — ignore containment): every mutation `FileSyncUtil.run`
performs satisfies the weakened containment predicate `mutOk`: `mkdir` and
`copy` targets never contain an ignore-matching segment (root-path segments
included), and `rmdir` targets never do either — but for a file deletion
(`rm`) only the DIRECTORY part of the target is checked: the delete pass
has no per-file-name ignore test, so a destination file whose own name
matches an ignore rule is still deleted when absent from the source (see
the counterexample); likewise `rmdir` of a non-ignored directory removes
its entire subtree including any ignored descendants. -/
theorem C2_ignore_containment_amended (ign : List RE)
    (srcPath dstPath : List String) (dry : Bool) (src dst : Option Node) :
    ∀ m ∈ (FileSyncUtil.run ign srcPath dstPath dry src dst).muts,
      mutOk ign srcPath dstPath m = true := by
  intro m hm
  cases dst with
  | none =>
    have hm2 : m ∈ (deletePass ign dstPath dry src
        (copyPass ign srcPath dry src
          (doMut dry .mkroot (fun _ => Except.ok (some (.dir [])))
            ⟨none, [], [], false⟩))).muts := hm
    rcases deletePass_mutOk ign srcPath dstPath dry src _ m hm2 with h | h
    · rcases copyPass_mutOk ign srcPath dstPath dry src _ m h with h2 | h2
      · rcases doMut_muts_mem dry .mkroot _ ⟨none, [], [], false⟩ m h2 with
          h3 | h3
        · exact absurd h3 (List.not_mem_nil m)
        · rw [h3]
          rfl
      · exact h2
    · exact h
  | some dn =>
    have hm2 : m ∈ (deletePass ign dstPath dry src
        (copyPass ign srcPath dry src
          (⟨some dn, [], [], false⟩ : MirrorState))).muts := hm
    rcases deletePass_mutOk ign srcPath dstPath dry src _ m hm2 with h | h
    · rcases copyPass_mutOk ign srcPath dstPath dry src _ m h with h2 | h2
      · exact absurd h2 (List.not_mem_nil m)
      · exact h2
    · exact h

theorem C2_ignore_containment_amended_witness :
    MutOp.rm ["G"] ∈ (FileSyncUtil.run [reLit "G"] ["S"] ["D"] false
      (some (.dir [])) (some (.dir [("G", .file "z")]))).muts ∧
    mutOk [reLit "G"] ["S"] ["D"] (MutOp.rm ["G"]) = true :=
  ⟨by decide,
   C2_ignore_containment_amended [reLit "G"] ["S"] ["D"] false
     (some (.dir [])) (some (.dir [("G", .file "z")]))
     (MutOp.rm ["G"]) (by decide)⟩

theorem foldl_self {α β : Type} (g : β → α → β) :
    ∀ (xs : List α) (st : β), (∀ x ∈ xs, g st x = st) → xs.foldl g st = st := by
  intro xs
  induction xs with
  | nil => intro st _; rfl
  | cons x rest ih =>
    intro st h
    rw [List.foldl_cons, h x (List.mem_cons_self x rest)]
    exact ih st (fun y hy => h y (List.mem_cons_of_mem x hy))

/-- A copy-pass body step on a destination that already realises the source
view: directory creations are all skipped (the directory exists), and each
file copy rewrites the identical content, leaving the tree untouched. -/
theorem copyBodyIdem (ign : List RE) (srcPath : List String)
    (nS nD : Node) (hwS : nS.wfb = true)
    (hE : ∀ p, p ≠ [] → should_ignore ign p = false →
      viewIn (some nD) p = viewIn (some nS) p)
    (q : List String) (es : List (String × Node))
    (hlk : Node.lookup nS q = some (.dir es)) :
    ∀ st, st.failed = false → st.dst = some nD →
      (copyBody ign srcPath false (some nS) st
        ⟨q, dirNames es, fileNames es⟩).failed = false ∧
      (copyBody ign srcPath false (some nS) st
        ⟨q, dirNames es, fileNames es⟩).dst = some nD ∧
      ∀ m ∈ (copyBody ign srcPath false (some nS) st
        ⟨q, dirNames es, fileNames es⟩).muts,
        m ∈ st.muts ∨ m.isCopy = true := by
  intro st a b
  by_cases hig : should_ignore ign (srcPath ++ q) = true
  · have hig2 : should_ignore ign
        (srcPath ++ (⟨q, dirNames es, fileNames es⟩ : WalkItem).rel) = true := hig
    have he : copyBody ign srcPath false (some nS) st
        ⟨q, dirNames es, fileNames es⟩ = st := by
      unfold copyBody
      rw [a, hig2]
      rfl
    rw [he]
    exact ⟨a, b, fun m hm => Or.inl hm⟩
  rw [Bool.not_eq_true] at hig
  have higq : should_ignore ign q = false := by
    rcases hv : should_ignore ign q with _ | _
    · rfl
    · rw [should_ignore_append, hv, Bool.or_true] at hig
      exact Bool.noConfusion hig
  have hlkq : lookupIn (some nS) q = some (.dir es) := hlk
  have hnd : nodupStr (es.map Prod.fst) = true := by
    have hwes : Node.wfb (.dir es) = true :=
      @wfOpt_lookupIn (some nS) q (Node.dir es) hwS hlkq
    rw [Node.wfb, Bool.and_eq_true] at hwes
    exact hwes.1
  have hbody := copyBody_run ign srcPath (some nS) st q
    (dirNames es) (fileNames es) a hig
  have hdirs : (dirNames es).foldl (fun st d =>
      if should_ignore ign [d] then st
      else if existsAt st.dst (q ++ [d]) then st
      else doMut false (.mkdir (q ++ [d]))
        (onRoot (mkdirp · (q ++ [d]))) st) st = st := by
    refine foldl_self _ (dirNames es) st ?_
    intro d hmd
    show (if should_ignore ign [d] then st
      else if existsAt st.dst (q ++ [d]) then st
      else doMut false (.mkdir (q ++ [d]))
        (onRoot (mkdirp · (q ++ [d]))) st) = st
    by_cases h1 : should_ignore ign [d] = true
    · rw [if_pos h1]
    rw [Bool.not_eq_true] at h1
    obtain ⟨es2, hfe⟩ := findEntry_of_dirNames hnd hmd
    have hlkS2 : lookupIn (some nS) (q ++ [d]) = some (.dir es2) :=
      lookupIn_snoc_entry hlkq hfe
    have hne : q ++ [d] ≠ [] := by simp
    have hpig : should_ignore ign (q ++ [d]) = false := by
      rw [should_ignore_append, higq, h1]
      rfl
    have hviewD : viewIn (some nD) (q ++ [d]) = some none := by
      rw [hE _ hne hpig]
      exact viewIn_eq_dir_iff.mpr ⟨es2, hlkS2⟩
    obtain ⟨es3, hlkD3⟩ := viewIn_eq_dir_iff.mp hviewD
    have hex : existsAt st.dst (q ++ [d]) = true := by
      rw [b]
      unfold existsAt
      rw [hlkD3]
      rfl
    rw [if_neg (by rw [h1]; exact Bool.false_ne_true), if_pos hex]
  have hfiles : ∀ fs : List String, (∀ f ∈ fs, f ∈ fileNames es) →
      ∀ st2 : MirrorState, st2.failed = false → st2.dst = some nD →
      ((fs.foldl (fun st f =>
          if should_ignore ign [f] then st
          else
            let c :=
              match lookupIn (some nS) (q ++ [f]) with
              | some (.file c) => c
              | _ => ""
            doMut false (.copy (q ++ [f]) c)
              (onRoot (copy2 · (q ++ [f]) f c)) st) st2).failed = false ∧
       (fs.foldl (fun st f =>
          if should_ignore ign [f] then st
          else
            let c :=
              match lookupIn (some nS) (q ++ [f]) with
              | some (.file c) => c
              | _ => ""
            doMut false (.copy (q ++ [f]) c)
              (onRoot (copy2 · (q ++ [f]) f c)) st) st2).dst = some nD ∧
       ∀ m ∈ (fs.foldl (fun st f =>
          if should_ignore ign [f] then st
          else
            let c :=
              match lookupIn (some nS) (q ++ [f]) with
              | some (.file c) => c
              | _ => ""
            doMut false (.copy (q ++ [f]) c)
              (onRoot (copy2 · (q ++ [f]) f c)) st) st2).muts,
         m ∈ st2.muts ∨ m.isCopy = true) := by
    intro fs
    induction fs with
    | nil => intro _ st2 a2 b2; exact ⟨a2, b2, fun m hm => Or.inl hm⟩
    | cons f rest ih =>
      intro hmem st2 a2 b2
      rw [List.foldl_cons]
      by_cases h1f : should_ignore ign [f] = true
      · rw [if_pos h1f]
        exact ih (fun y hy => hmem y (List.mem_cons_of_mem f hy)) st2 a2 b2
      · rw [Bool.not_eq_true] at h1f
        have hfmem : f ∈ fileNames es := hmem f (List.mem_cons_self f rest)
        obtain ⟨cf, hfe⟩ := findEntry_of_fileNames hnd hfmem
        have hlkS : lookupIn (some nS) (q ++ [f]) = some (.file cf) :=
          lookupIn_snoc_entry hlkq hfe
        have hne : q ++ [f] ≠ [] := by simp
        have hqig : should_ignore ign (q ++ [f]) = false := by
          rw [should_ignore_append, higq, h1f]
          rfl
        have hviewD : viewIn (some nD) (q ++ [f]) = some (some cf) := by
          rw [hE _ hne hqig]
          exact viewIn_eq_file_iff.mpr hlkS
        have hlkD2 : Node.lookup nD (q ++ [f]) = some (.file cf) :=
          viewIn_eq_file_iff.mp hviewD
        have hcp2 : copy2 nD (q ++ [f]) f cf = .ok nD := by
          unfold copy2
          rw [hlkD2]
          exact writeF_self (q ++ [f]) nD cf hne hlkD2
        have hcmatch : (match lookupIn (some nS) (q ++ [f]) with
            | some (.file c) => c
            | _ => "") = cf := by
          rw [hlkS]
        rw [if_neg (by rw [h1f]; exact Bool.false_ne_true), hcmatch]
        have hstep : (let c := cf
            doMut false (.copy (q ++ [f]) c)
              (onRoot (copy2 · (q ++ [f]) f c)) st2) =
            { st2 with
              dst := some nD
              logs := st2.logs ++ [.copy (q ++ [f]) cf]
              muts := st2.muts ++ [.copy (q ++ [f]) cf] } := by
          show doMut false (.copy (q ++ [f]) cf)
            (onRoot (copy2 · (q ++ [f]) f cf)) st2 = _
          unfold doMut
          rw [a2]
          have happ : onRoot (fun x => copy2 x (q ++ [f]) f cf) st2.dst =
              Except.ok (some nD) := by
            rw [b2]
            show (copy2 nD (q ++ [f]) f cf).map some = Except.ok (some nD)
            rw [hcp2]
            rfl
          rw [happ]
          rfl
        rw [hstep]
        obtain ⟨r1, r2, r3⟩ := ih (fun y hy => hmem y (List.mem_cons_of_mem f hy))
          ({ st2 with
             dst := some nD
             logs := st2.logs ++ [.copy (q ++ [f]) cf]
             muts := st2.muts ++ [.copy (q ++ [f]) cf] }) a2 rfl
        refine ⟨r1, r2, fun m hm => ?_⟩
        rcases r3 m hm with h | h
        · have h2 : m ∈ st2.muts ++ [MutOp.copy (q ++ [f]) cf] := h
          rcases List.mem_append.mp h2 with h3 | h3
          · exact Or.inl h3
          · refine Or.inr ?_
            rw [List.mem_singleton.mp h3]
            rfl
        · exact Or.inr h
  rw [hbody, hdirs]
  exact hfiles (fileNames es) (fun f hf => hf) st a b

/-- The copy pass folded over any sub-collection of the source walk is a
no-op on a destination tree that already realises the source view: it only
appends `copy` mutations and leaves the tree equal. -/
theorem copyIdem (ign : List RE) (srcPath : List String)
    (nS nD : Node) (hwS : nS.wfb = true)
    (hE : ∀ p, p ≠ [] → should_ignore ign p = false →
      viewIn (some nD) p = viewIn (some nS) p) :
    ∀ xs : List WalkItem, (∀ it ∈ xs, it ∈ walkTopDown [] nS) →
    ∀ st, st.failed = false → st.dst = some nD →
      ((xs.foldl (copyBody ign srcPath false (some nS)) st).failed = false ∧
       (xs.foldl (copyBody ign srcPath false (some nS)) st).dst = some nD ∧
       ∀ m ∈ (xs.foldl (copyBody ign srcPath false (some nS)) st).muts,
         m ∈ st.muts ∨ m.isCopy = true) := by
  intro xs
  induction xs with
  | nil => intro _ st a b; exact ⟨a, b, fun m hm => Or.inl hm⟩
  | cons it rest ih =>
    intro hmem st a b
    obtain ⟨q, es, hrel, hlk, hdn, hfn⟩ :=
      walkTopDown_mem_char nS hwS [] it (hmem it (List.mem_cons_self it rest))
    have hit : it = ⟨q, dirNames es, fileNames es⟩ := by
      obtain ⟨r, ds, fs⟩ := it
      have e1 : r = q := by rw [List.nil_append] at hrel; exact hrel
      have e2 : ds = dirNames es := hdn
      have e3 : fs = fileNames es := hfn
      rw [e1, e2, e3]
    obtain ⟨p1, p2, p3⟩ := copyBodyIdem ign srcPath nS nD hwS hE q es hlk st a b
    rw [List.foldl_cons, hit]
    obtain ⟨r1, r2, r3⟩ := ih (fun y hy => hmem y (List.mem_cons_of_mem it hy))
      (copyBody ign srcPath false (some nS) st ⟨q, dirNames es, fileNames es⟩)
      p1 p2
    refine ⟨r1, r2, fun m hm => ?_⟩
    rcases r3 m hm with h | h
    · rcases p3 m h with h2 | h2
      · exact Or.inl h2
      · exact Or.inr h2
    · exact Or.inr h

/-- A delete-pass body step is a complete no-op when the destination tree
realises the source view at ignore-free paths and holds no plain file at a
source-absent path with ignore-free directory part. -/
theorem deleteBodyIdem (ign : List RE) (dstPath : List String)
    (src : Option Node) (nD : Node)
    (hE : ∀ p, p ≠ [] → should_ignore ign p = false →
      viewIn (some nD) p = viewIn src p)
    (hS : ∀ inner f, should_ignore ign inner = false →
      lookupIn src (inner ++ [f]) = none →
      viewIn (some nD) (inner ++ [f]) = none ∨
      viewIn (some nD) (inner ++ [f]) = some none)
    (hwDn : nD.wfb = true)
    (q : List String) (es : List (String × Node))
    (hlk : Node.lookup nD q = some (.dir es)) :
    ∀ st, st.failed = false → st.dst = some nD →
      deleteBody ign dstPath false src st ⟨q, dirNames es, fileNames es⟩ = st := by
  intro st a b
  by_cases hig : should_ignore ign (dstPath ++ q) = true
  · have hig2 : should_ignore ign
        (dstPath ++ (⟨q, dirNames es, fileNames es⟩ : WalkItem).rel) = true := hig
    unfold deleteBody
    rw [a, hig2]
    rfl
  rw [Bool.not_eq_true] at hig
  have higq : should_ignore ign q = false := by
    rcases hv : should_ignore ign q with _ | _
    · rfl
    · rw [should_ignore_append, hv, Bool.or_true] at hig
      exact Bool.noConfusion hig
  have hlkq : lookupIn (some nD) q = some (.dir es) := hlk
  have hnd : nodupStr (es.map Prod.fst) = true := by
    have hwes : Node.wfb (.dir es) = true :=
      @wfOpt_lookupIn (some nD) q (Node.dir es) hwDn hlkq
    rw [Node.wfb, Bool.and_eq_true] at hwes
    exact hwes.1
  rw [deleteBody_run ign dstPath src st q (dirNames es) (fileNames es) a hig]
  have hfid : (fileNames es).foldl (fun st f =>
      if existsAt src (q ++ [f]) then st
      else doMut false (.rm (q ++ [f]))
        (onRoot (unlinkF · (q ++ [f]))) st) st = st := by
    refine foldl_self _ (fileNames es) st ?_
    intro f hf
    show (if existsAt src (q ++ [f]) then st
      else doMut false (.rm (q ++ [f]))
        (onRoot (unlinkF · (q ++ [f]))) st) = st
    obtain ⟨cf, hfe⟩ := findEntry_of_fileNames hnd hf
    have hlkDf : lookupIn (some nD) (q ++ [f]) = some (.file cf) :=
      lookupIn_snoc_entry hlkq hfe
    have hviewD : viewIn (some nD) (q ++ [f]) = some (some cf) :=
      viewIn_eq_file_iff.mpr hlkDf
    cases hsq : lookupIn src (q ++ [f]) with
    | some v =>
      have hex : existsAt src (q ++ [f]) = true := by
        unfold existsAt
        rw [hsq]
        rfl
      rw [if_pos hex]
    | none =>
      rcases hS q f higq hsq with h | h
      · rw [hviewD] at h
        exact Option.noConfusion h
      · rw [hviewD] at h
        exact Option.noConfusion (Option.some.inj h)
  have hdid : (dirNames es).foldl (fun st d =>
      if should_ignore ign [d] then st
      else if existsAt src (q ++ [d]) then st
      else doMut false (.rmdir (q ++ [d]))
        (onRoot (rmtreeF · (q ++ [d]))) st) st = st := by
    refine foldl_self _ (dirNames es) st ?_
    intro d hmd
    show (if should_ignore ign [d] then st
      else if existsAt src (q ++ [d]) then st
      else doMut false (.rmdir (q ++ [d]))
        (onRoot (rmtreeF · (q ++ [d]))) st) = st
    by_cases h1 : should_ignore ign [d] = true
    · rw [if_pos h1]
    rw [Bool.not_eq_true] at h1
    obtain ⟨es2, hfe⟩ := findEntry_of_dirNames hnd hmd
    have hlkDd : lookupIn (some nD) (q ++ [d]) = some (.dir es2) :=
      lookupIn_snoc_entry hlkq hfe
    have hne : q ++ [d] ≠ [] := by simp
    have hpig : should_ignore ign (q ++ [d]) = false := by
      rw [should_ignore_append, higq, h1]
      rfl
    have hviewS : viewIn src (q ++ [d]) = some none := by
      rw [← hE _ hne hpig]
      exact viewIn_eq_dir_iff.mpr ⟨es2, hlkDd⟩
    obtain ⟨es3, hlkS3⟩ := viewIn_eq_dir_iff.mp hviewS
    have hex : existsAt src (q ++ [d]) = true := by
      unfold existsAt
      rw [hlkS3]
      rfl
    rw [if_neg (by rw [h1]; exact Bool.false_ne_true), if_pos hex]
  rw [hfid]
  exact hdid

/-- The delete pass folded over any sub-collection of the destination walk
leaves the state literally unchanged under the same conditions. -/
theorem deleteIdem (ign : List RE) (dstPath : List String)
    (src : Option Node) (nD : Node)
    (hE : ∀ p, p ≠ [] → should_ignore ign p = false →
      viewIn (some nD) p = viewIn src p)
    (hS : ∀ inner f, should_ignore ign inner = false →
      lookupIn src (inner ++ [f]) = none →
      viewIn (some nD) (inner ++ [f]) = none ∨
      viewIn (some nD) (inner ++ [f]) = some none)
    (hwDn : nD.wfb = true) :
    ∀ xs : List WalkItem, (∀ it ∈ xs, it ∈ walkBottomUp [] nD) →
    ∀ st, st.failed = false → st.dst = some nD →
      xs.foldl (deleteBody ign dstPath false src) st = st := by
  intro xs
  induction xs with
  | nil => intro _ st _ _; rfl
  | cons it rest ih =>
    intro hmem st a b
    obtain ⟨q, es, hrel, hlk, hdn, hfn⟩ :=
      walkBottomUp_mem_char nD hwDn [] it (hmem it (List.mem_cons_self it rest))
    have hit : it = ⟨q, dirNames es, fileNames es⟩ := by
      obtain ⟨r, ds, fs⟩ := it
      have e1 : r = q := by rw [List.nil_append] at hrel; exact hrel
      have e2 : ds = dirNames es := hdn
      have e3 : fs = fileNames es := hfn
      rw [e1, e2, e3]
    have hid := deleteBodyIdem ign dstPath src nD hE hS hwDn q es hlk st a b
    rw [List.foldl_cons, hit, hid]
    exact ih (fun y hy => hmem y (List.mem_cons_of_mem it hy)) st a b

/-- Running the mirror against a destination tree that is already an exact
ignore-free mirror of the source (and stale-file-free) leaves the tree
literally unchanged and performs only `copy` mutations. -/
theorem run_again_identity (ign : List RE) (srcPath dstPath : List String)
    (src D : Option Node)
    (hws : wfOpt src = true) (hwD : wfOpt D = true)
    (hrootD : viewIn D [] = some none)
    (hE : ∀ q, q ≠ [] → should_ignore ign q = false →
      viewIn D q = viewIn src q)
    (hS : ∀ inner f, should_ignore ign inner = false →
      lookupIn src (inner ++ [f]) = none →
      viewIn D (inner ++ [f]) = none ∨ viewIn D (inner ++ [f]) = some none) :
    (FileSyncUtil.run ign srcPath dstPath false src D).dst = D ∧
    ∀ m ∈ (FileSyncUtil.run ign srcPath dstPath false src D).muts,
      m.isCopy = true := by
  obtain ⟨es1, hm1⟩ := viewIn_eq_dir_iff.mp hrootD
  have hDeq : D = some (.dir es1) := lookupIn_nil_eq hm1
  subst hDeq
  have hwD1 : Node.wfb (.dir es1) = true := hwD
  cases src with
  | none =>
    have hrun : FileSyncUtil.run ign srcPath dstPath false none
        (some (.dir es1)) =
        deletePass ign dstPath false none
          (⟨some (.dir es1), [], [], false⟩ : MirrorState) := rfl
    have hdel := deletePass_run ign dstPath none
      (⟨some (.dir es1), [], [], false⟩ : MirrorState) (.dir es1) rfl rfl
    have hDI := deleteIdem ign dstPath none (.dir es1) hE hS hwD1
      (walkBottomUp [] (.dir es1)) (fun it h => h)
      (⟨some (.dir es1), [], [], false⟩ : MirrorState) rfl rfl
    refine ⟨?_, ?_⟩
    · rw [hrun, hdel, hDI]
    · intro m hm
      rw [hrun, hdel, hDI] at hm
      exact absurd hm (List.not_mem_nil m)
  | some srcT =>
    cases srcT with
    | file cf =>
      have hrun : FileSyncUtil.run ign srcPath dstPath false (some (.file cf))
          (some (.dir es1)) =
          deletePass ign dstPath false (some (.file cf))
            (⟨some (.dir es1), [], [], false⟩ : MirrorState) := rfl
      have hdel := deletePass_run ign dstPath (some (.file cf))
        (⟨some (.dir es1), [], [], false⟩ : MirrorState) (.dir es1) rfl rfl
      have hDI := deleteIdem ign dstPath (some (.file cf)) (.dir es1) hE hS hwD1
        (walkBottomUp [] (.dir es1)) (fun it h => h)
        (⟨some (.dir es1), [], [], false⟩ : MirrorState) rfl rfl
      refine ⟨?_, ?_⟩
      · rw [hrun, hdel, hDI]
      · intro m hm
        rw [hrun, hdel, hDI] at hm
        exact absurd hm (List.not_mem_nil m)
    | dir esS =>
      have hwS : Node.wfb (.dir esS) = true := hws
      have hrun : FileSyncUtil.run ign srcPath dstPath false (some (.dir esS))
          (some (.dir es1)) =
          deletePass ign dstPath false (some (.dir esS))
            (copyPass ign srcPath false (some (.dir esS))
              (⟨some (.dir es1), [], [], false⟩ : MirrorState)) := rfl
      obtain ⟨b1, b2, b3⟩ := copyIdem ign srcPath (.dir esS) (.dir es1) hwS hE
        (walkTopDown [] (.dir esS)) (fun it h => h)
        (⟨some (.dir es1), [], [], false⟩ : MirrorState) rfl rfl
      have hcpr := copyPass_run ign srcPath false (.dir esS)
        (⟨some (.dir es1), [], [], false⟩ : MirrorState)
      rw [← hcpr] at b1 b2 b3
      have hdel := deletePass_run ign dstPath (some (.dir esS))
        (copyPass ign srcPath false (some (.dir esS))
          (⟨some (.dir es1), [], [], false⟩ : MirrorState)) (.dir es1) b1 b2
      have hDI := deleteIdem ign dstPath (some (.dir esS)) (.dir es1) hE hS hwD1
        (walkBottomUp [] (.dir es1)) (fun it h => h)
        (copyPass ign srcPath false (some (.dir esS))
          (⟨some (.dir es1), [], [], false⟩ : MirrorState)) b1 b2
      refine ⟨?_, ?_⟩
      · rw [hrun, hdel, hDI]
        exact b2
      · intro m hm
        rw [hrun, hdel, hDI] at hm
        rcases b3 m hm with h | h
        · exact absurd h (List.not_mem_nil m)
        · exact h

/-- C8 (corrected — idempotence): a second `FileSyncUtil.run` with the
source unchanged leaves the destination TREE literally unchanged and, while
it is not mutation-free as claimed (the copy pass unconditionally re-copies
every non-ignored source file, so the second run performs one `copy`
mutation per such file: see the counterexample), every mutation of the
second run is such a content-identical `copy`; no mkdir, rm or rmdir is
performed — PROVIDED the same side conditions as mirror exactness: neither
root path has an ignore-matching segment, both trees are well-formed, and
the trees are type-compatible. -/
theorem C8_idempotence_amended (ign : List RE) (srcPath dstPath : List String)
    (src dst : Option Node)
    (hs : should_ignore ign srcPath = false)
    (hd : should_ignore ign dstPath = false)
    (hws : wfOpt src = true) (hwd : wfOpt dst = true)
    (hc : compatOpt src dst = true) :
    (FileSyncUtil.run ign srcPath dstPath false src
      (FileSyncUtil.run ign srcPath dstPath false src dst).dst).dst =
      (FileSyncUtil.run ign srcPath dstPath false src dst).dst ∧
    ∀ m ∈ (FileSyncUtil.run ign srcPath dstPath false src
      (FileSyncUtil.run ign srcPath dstPath false src dst).dst).muts,
      m.isCopy = true := by
  cases dst with
  | none =>
    obtain ⟨c1, c2, c3, c4, c5⟩ := mirror_exact_core ign srcPath dstPath src
      ⟨some (.dir []), [.mkroot], [.mkroot], false⟩ hs hd hws rfl rfl rfl
      (fun esS hes => pcompat_fresh_root hes)
    exact run_again_identity ign srcPath dstPath src
      (FileSyncUtil.run ign srcPath dstPath false src none).dst hws c2 c3 c4 c5
  | some dn =>
    cases dn with
    | dir esn =>
      obtain ⟨c1, c2, c3, c4, c5⟩ := mirror_exact_core ign srcPath dstPath src
        ⟨some (.dir esn), [], [], false⟩ hs hd hws rfl hwd rfl
        (fun esS hes => compatOpt_pcompat hc)
      exact run_again_identity ign srcPath dstPath src
        (FileSyncUtil.run ign srcPath dstPath false src (some (.dir esn))).dst
        hws c2 c3 c4 c5
    | file cfn =>
      cases src with
      | none =>
        exact ⟨rfl, fun m hm => absurd hm (List.not_mem_nil m)⟩
      | some srcT =>
        cases srcT with
        | file cfs =>
          exact ⟨rfl, fun m hm => absurd hm (List.not_mem_nil m)⟩
        | dir esS =>
          have hcf : compatOpt (some (Node.dir esS)) (some (Node.file cfn)) =
              false := rfl
          rw [hcf] at hc
          exact Bool.noConfusion hc

theorem C8_idempotence_amended_witness :
    should_ignore [reLit "tmp"] ["SRC"] = false ∧
    should_ignore [reLit "tmp"] ["DST"] = false ∧
    wfOpt (some (Node.dir [("a", Node.file "x"),
      ("d", Node.dir [("b", Node.file "y")])])) = true ∧
    wfOpt (none : Option Node) = true ∧
    compatOpt (some (Node.dir [("a", Node.file "x"),
      ("d", Node.dir [("b", Node.file "y")])])) none = true ∧
    ((FileSyncUtil.run [reLit "tmp"] ["SRC"] ["DST"] false
        (some (Node.dir [("a", Node.file "x"),
          ("d", Node.dir [("b", Node.file "y")])]))
        (FileSyncUtil.run [reLit "tmp"] ["SRC"] ["DST"] false
          (some (Node.dir [("a", Node.file "x"),
            ("d", Node.dir [("b", Node.file "y")])])) none).dst).dst =
      (FileSyncUtil.run [reLit "tmp"] ["SRC"] ["DST"] false
        (some (Node.dir [("a", Node.file "x"),
          ("d", Node.dir [("b", Node.file "y")])])) none).dst ∧
     ∀ m ∈ (FileSyncUtil.run [reLit "tmp"] ["SRC"] ["DST"] false
        (some (Node.dir [("a", Node.file "x"),
          ("d", Node.dir [("b", Node.file "y")])]))
        (FileSyncUtil.run [reLit "tmp"] ["SRC"] ["DST"] false
          (some (Node.dir [("a", Node.file "x"),
            ("d", Node.dir [("b", Node.file "y")])])) none).dst).muts,
       m.isCopy = true) :=
  ⟨by decide, by decide, by decide, by decide, by decide,
   C8_idempotence_amended [reLit "tmp"] ["SRC"] ["DST"]
     (some (Node.dir [("a", Node.file "x"),
       ("d", Node.dir [("b", Node.file "y")])])) none
     (by decide) (by decide) (by decide) (by decide) (by decide)⟩

end GitP4SyncModel